import Mathlib

/-!
# Verification of the heading-blank-lines rule

A shallow embedding of `src/rules/heading-blank-lines.ts`: the `apply`
transformation (source lines 27–51) is a pipeline of JavaScript regex rewrites
run on text whose code, yaml, link, wiki-link and tag regions have been masked
(`ignoreListOfTypes`, source line 28).  Text is modelled as `List Char`; each
`text.replace(regex, repl)` call becomes an explicit left-to-right scan with the
JS engine's greedy, leftmost, non-overlapping semantics.  The helpers
`ignoreListOfTypes` and `yamlRegex` live outside the provided sources and are
modelled from the spec where noted.
-/

namespace HeadingBlankLines

/-- The JS regex `\s` character class (ECMAScript WhiteSpace and LineTerminator),
as used in the rule's patterns `#+\s.*`. -/
def isJsWs (c : Char) : Bool :=
  c == ' ' || c == '\t' || c == '\n' || c == '\r' || c == '\x0b' || c == '\x0c' ||
  c == '\u00a0' || c == '\u1680' ||
  (Nat.ble 0x2000 c.toNat && Nat.ble c.toNat 0x200a) ||
  c == '\u2028' || c == '\u2029' || c == '\u202f' || c == '\u205f' || c == '\u3000' ||
  c == '\ufeff'

/-- JS line terminators: `.` never matches these, and a multiline `^` matches
right after one of them. -/
def isLineTerm (c : Char) : Bool :=
  c == '\n' || c == '\r' || c == '\u2028' || c == '\u2029'

/-- The JS regex `.` character class (anything but a line terminator). -/
def isDotChar (c : Char) : Bool := !(isLineTerm c)

/-- Whether the last character of a match leaves the scanner right after a line
terminator (the multiline `^` state for the position following the match). -/
def lastIsLineTerm (g : List Char) : Bool :=
  match g.getLast? with
  | some c => isLineTerm c
  | none => false

/-- The sub-pattern `#+\s.*` matched greedily at the head of `l`, exactly as the
JS engine resolves it: a maximal run of `#`, then one `\s` character (which may
itself be a newline), then a maximal run of `.` characters.  Returns the matched
characters and the remaining suffix.  The JS engine's backtracking never helps
here: shortening `#+` puts a `#` where `\s` is required, and shortening `.*`
puts a non-line-terminator where the follow-up patterns require `\n` or the end,
so the greedy parse is the only possible one. -/
def matchHashWsDots (l : List Char) : Option (List Char × List Char) :=
  let hs := l.takeWhile (· == '#')
  if hs.isEmpty then none
  else
    match l.drop hs.length with
    | [] => none
    | w :: l2 =>
      if isJsWs w then
        let ds := l2.takeWhile isDotChar
        some (hs ++ w :: ds, l2.drop ds.length)
      else none

/-- One rewriting step of a global `String.replace`: given the multiline-`^`
state and the text from the current position on, either no match starts here, or
the match is consumed and rewritten, returning the replacement text, the `^`
state after the match and the remaining suffix. -/
structure RegexStep where
  go : Bool → List Char → Option (List Char × Bool × List Char)

/-- Fuel-indexed driver of a JS `String.replace(regex, repl)` with the `g` flag:
scan left to right, try a match at every position, copy one character when
nothing matches, and continue right after each (non-overlapping) match. -/
def runStepF (M : RegexStep) : Nat → Bool → List Char → List Char
  | 0, _, l => l
  | _ + 1, _, [] => []
  | fuel + 1, bol, c :: cs =>
    match M.go bol (c :: cs) with
    | some (out, bol2, rest) => out ++ runStepF M fuel bol2 rest
    | none => c :: runStepF M fuel (isLineTerm c) cs

/-- `runStepF` with enough fuel for the whole text (every step of the rule's
matchers consumes at least one character per match). -/
def runStep (M : RegexStep) (l : List Char) : List Char :=
  runStepF M l.length true l

/-- Fuel-indexed scan deciding whether some match of the step exists (the JS
`text.match(regex)` test of the `while` loop, source line 38). -/
def hasStepMatchF (M : RegexStep) : Nat → Bool → List Char → Bool
  | 0, _, _ => false
  | _ + 1, _, [] => false
  | fuel + 1, bol, c :: cs =>
    match M.go bol (c :: cs) with
    | some _ => true
    | none => hasStepMatchF M fuel (isLineTerm c) cs

/-- Whether the step matches anywhere in `l`. -/
def hasStepMatch (M : RegexStep) (l : List Char) : Bool :=
  hasStepMatchF M l.length true l

/-- Step of `text.replace(/(^#+\s.*)\n+/gm, '$1' + repl)`: at a line start, a
`#+\s.*` match followed by a run of newlines is rewritten to the match followed
by `repl`.  With `repl = "\n"` this is source line 30 ("trim blank lines after
headings"); with `repl = "\n\n"` it is source line 35. -/
def afterHeadingStep (repl : List Char) : RegexStep :=
  ⟨fun bol l =>
    if bol then
      match matchHashWsDots l with
      | some (g1, l3) =>
        if l3.head? = some '\n' then some (g1 ++ repl, true, l3.dropWhile (· == '\n'))
        else none
      | none => none
    else none⟩

/-- Source line 30: `text.replace(/(^#+\s.*)\n+/gm, '$1\n')`. -/
def trimBlankAfter (l : List Char) : List Char :=
  runStep (afterHeadingStep ['\n']) l

/-- Source line 35: `text.replace(/(^#+\s.*)\n+/gm, '$1\n\n')`. -/
def forceOneBlankAfter (l : List Char) : List Char :=
  runStep (afterHeadingStep ['\n', '\n']) l

/-- Step of `text.replace(/\n+(#+\s.*)/g, '\n\n$1')` (source lines 31 and 34):
a run of newlines followed by a `#+\s.*` match is rewritten to exactly two
newlines and the match. -/
def beforeHeadingStep : RegexStep :=
  ⟨fun _ l =>
    if l.head? = some '\n' then
      match matchHashWsDots (l.dropWhile (· == '\n')) with
      | some (g1, rest) => some ('\n' :: '\n' :: g1, lastIsLineTerm g1, rest)
      | none => none
    else none⟩

/-- Source lines 31 and 34: `text.replace(/\n+(#+\s.*)/g, '\n\n$1')`. -/
def trimBlankBefore (l : List Char) : List Char :=
  runStep beforeHeadingStep l

/-- Step of `text.replace(/^(#+\s.*)/gm, '\n\n$1\n\n')` (source line 33): every
line-start `#+\s.*` match is surrounded with two newlines on both sides. -/
def surroundHeadingStep : RegexStep :=
  ⟨fun bol l =>
    if bol then
      match matchHashWsDots l with
      | some (g1, rest) =>
        some ('\n' :: '\n' :: (g1 ++ ['\n', '\n']), lastIsLineTerm g1, rest)
      | none => none
    else none⟩

/-- Source line 33: `text.replace(/^(#+\s.*)/gm, '\n\n$1\n\n')`. -/
def surroundHeadings (l : List Char) : List Char :=
  runStep surroundHeadingStep l

/-- Step of `text.replace(/(#+\s.*)\n\n+(#+\s.*)/gm, '$1\n$2')` (source line
39): two `#+\s.*` matches separated by a run of at least two newlines lose all
but one newline of the run. -/
def blankSectionStep : RegexStep :=
  ⟨fun _ l =>
    match matchHashWsDots l with
    | some (g1, l2) =>
      if 2 ≤ (l2.takeWhile (· == '\n')).length then
        match matchHashWsDots (l2.dropWhile (· == '\n')) with
        | some (g2, rest) => some (g1 ++ '\n' :: g2, lastIsLineTerm g2, rest)
        | none => none
      else none
    | none => none⟩

/-- The `while` loop of source lines 38–41: repeat the global replace while a
match remains.  Each replacement removes at least one newline, so the text
length bounds the number of iterations. -/
def collapseBlankSectionsF : Nat → List Char → List Char
  | 0, l => l
  | fuel + 1, l =>
    if hasStepMatch blankSectionStep l then
      collapseBlankSectionsF fuel (runStep blankSectionStep l)
    else l

/-- Source lines 37–41 ("remove blank lines between two immediate headings
without text"). -/
def collapseBlankSections (l : List Char) : List Char :=
  collapseBlankSectionsF (l.length + 1) l

/-- Source line 42: `text.replace(/^\n+(#+\s.*)/, '$1')` — a single anchored
replace removing the newline run at the very start of the document when a
`#+\s.*` match follows it directly. -/
def removeBlankBeforeFirst (l : List Char) : List Char :=
  if l.head? = some '\n' then
    match matchHashWsDots (l.dropWhile (· == '\n')) with
    | some (g1, rest) => g1 ++ rest
    | none => l
  else l

/-- Source line 43: `text.replace(/(#+\s.*)\n+$/, '$1')` — the leftmost
`#+\s.*` match whose trailing newline run reaches the end of the string loses
that run. -/
def removeBlankAfterLast : List Char → List Char
  | [] => []
  | c :: cs =>
    match matchHashWsDots (c :: cs) with
    | some (g1, l2) =>
      if !l2.isEmpty && l2.all (· == '\n') then g1
      else c :: removeBlankAfterLast cs
    | none => c :: removeBlankAfterLast cs

/-- Modelled from the spec: `yamlRegex` (imported from `src/utils/regex.ts`,
which is not among the sources) recognises "a block delimited by a `---` line at
document start and the next bare `---` line" (spec §4.1).  `yamlCloseSplitsF`
lists, earliest first, the ways to split the text following the opening
`---\n` into everything up to and including a closing bare `---` line plus the
remaining suffix — earliest first matches the lazy quantifier, and the later
splits are the JS engine's backtracking alternatives. -/
def yamlCloseSplitsF : Nat → List Char → List (List Char × List Char)
  | 0, _ => []
  | fuel + 1, l =>
    let line := l.takeWhile (· != '\n')
    let rest := l.dropWhile (· != '\n')
    let tailSplits :=
      match rest with
      | [] => []
      | _ :: tail =>
        (yamlCloseSplitsF fuel tail).map (fun p => (line ++ '\n' :: p.1, p.2))
    if line == ['-', '-', '-'] then (line, rest) :: tailSplits else tailSplits

/-- `yamlCloseSplitsF` with enough fuel (each recursion consumes a line). -/
def yamlCloseSplits (l : List Char) : List (List Char × List Char) :=
  yamlCloseSplitsF (l.length + 1) l

/-- Modelled from the spec: the YAML frontmatter matches of the document in the
JS engine's preference order (the block must start at position 0 with a `---`
line; candidates differ in which bare `---` line closes the block). -/
def yamlMatches (l : List Char) : List (List Char × List Char) :=
  match l with
  | '-' :: '-' :: '-' :: '\n' :: rest =>
    (yamlCloseSplits rest).map (fun p => ('-' :: '-' :: '-' :: '\n' :: p.1, p.2))
  | _ => []

/-- Source line 46: `text.replace(new RegExp('(' + yamlRegex.source + ')\\n+(#+\\s.*)'), '$1\n$5')`
— a single anchored replace: if the document starts with a frontmatter block
followed by a newline run and a `#+\s.*` match, the run collapses to one
newline.  The yaml candidates are tried in the engine's backtracking order. -/
def removeYamlGapGo : List (List Char × List Char) → List Char → List Char
  | [], l => l
  | (ym, l2) :: more, l =>
    if l2.head? = some '\n' then
      match matchHashWsDots (l2.dropWhile (· == '\n')) with
      | some (g5, rest) => ym ++ '\n' :: (g5 ++ rest)
      | none => removeYamlGapGo more l
    else removeYamlGapGo more l

/-- Source lines 45–47. -/
def removeYamlGap (l : List Char) : List Char :=
  removeYamlGapGo (yamlMatches l) l

/-- The options record of the rule (source lines 7–11), with the source's
defaults. -/
structure HeadingBlankLinesOptions where
  bottom : Bool := true
  emptyLineAfterYaml : Bool := true
  emptyLineInBlankSections : Bool := true
deriving DecidableEq, Repr

/-- The callback body of `apply` (source lines 29–49): the ordered rewrite
passes, run on the masked text. -/
def applyCore (text : List Char) (options : HeadingBlankLinesOptions) : List Char :=
  let text :=
    if !options.bottom then
      trimBlankBefore (trimBlankAfter text)
    else
      forceOneBlankAfter (trimBlankBefore (surroundHeadings text))
  let text :=
    if !options.emptyLineInBlankSections then collapseBlankSections text else text
  let text := removeBlankAfterLast (removeBlankBeforeFirst text)
  if !options.emptyLineAfterYaml then removeYamlGap text else text

/-! ## The masking engine, modelled from the spec

`ignoreListOfTypes` (imported from `src/utils/ignore-types.ts`, not among the
sources) is modelled from spec §4.2: each protected span is replaced by a
placeholder that cannot match any heading or blank-line pattern used downstream,
and restoration substitutes the original content back, type by type in reverse
masking order so that nested spans restore correctly.  The yaml block is masked
by an empty frontmatter block, so that the rule's yaml-aware pass (source line
46) still sees a frontmatter delimiter pair at document start — this is what
makes the rule's own frontmatter example (source lines 175–198) rewrite the gap
between frontmatter and heading. -/

/-- The backtick character. -/
def backtickChar : Char := Char.ofNat 96

/-- Modelled from the spec: placeholder for code regions. -/
def codePlaceholder : List Char := "{CODE_BLOCK_PLACEHOLDER}".data

/-- Modelled from the spec: placeholder for Markdown links. -/
def linkPlaceholder : List Char := "{REGULAR_LINK_PLACEHOLDER}".data

/-- Modelled from the spec: placeholder for wiki-links. -/
def wikiLinkPlaceholder : List Char := "{WIKI_LINK_PLACEHOLDER}".data

/-- Modelled from the spec: placeholder for tags. -/
def tagPlaceholder : List Char := "{TAG_PLACEHOLDER}".data

/-- Modelled from the spec: the yaml placeholder is an empty frontmatter
block. -/
def yamlPlaceholder : List Char := "---\n---".data

/-- Splits off everything up to and including the next triple `f` fence, or the
whole rest of the document when no close exists (spec §4.1: fenced blocks span
"to matching close or end of document"). -/
def fenceCloseF (f : Char) : Nat → List Char → List Char × List Char
  | 0, l => (l, [])
  | _ + 1, [] => ([], [])
  | fuel + 1, c :: cs =>
    if c == f && cs.take 2 == [f, f] then ([c, f, f], cs.drop 2)
    else
      let (m, r) := fenceCloseF f fuel cs
      (c :: m, r)

/-- `fenceCloseF` with enough fuel. -/
def fenceClose (f : Char) (l : List Char) : List Char × List Char :=
  fenceCloseF f l.length l

/-- Modelled from the spec: an inline single-backtick code span on one line. -/
def inlineCodeAt (l : List Char) : Option (List Char × List Char) :=
  match l with
  | c :: cs =>
    if c == backtickChar then
      let body := cs.takeWhile (fun d => d != backtickChar && d != '\n')
      match cs.dropWhile (fun d => d != backtickChar && d != '\n') with
      | d :: rest => if d == backtickChar then some (c :: body ++ [d], rest) else none
      | [] => none
    else none
  | [] => none

/-- Modelled from the spec: a code region starting at the current position — a
triple backtick or triple tilde fenced block (to its close or end of document),
or an inline single-backtick span. -/
def codeSpanAt (l : List Char) : Option (List Char × List Char) :=
  match l with
  | c1 :: c2 :: c3 :: rest =>
    if (c1 == backtickChar && c2 == backtickChar && c3 == backtickChar) ||
        (c1 == '~' && c2 == '~' && c3 == '~') then
      let (m, r) := fenceClose c1 rest
      some (c1 :: c2 :: c3 :: m, r)
    else inlineCodeAt l
  | _ => inlineCodeAt l

/-- Modelled from the spec: a Markdown link `[text](target)` on one line. -/
def linkAt (l : List Char) : Option (List Char × List Char) :=
  match l with
  | '[' :: cs =>
    let lab := cs.takeWhile (fun d => d != ']' && d != '[' && d != '\n')
    match cs.dropWhile (fun d => d != ']' && d != '[' && d != '\n') with
    | ']' :: '(' :: cs2 =>
      let tgt := cs2.takeWhile (fun d => d != ')' && d != '\n')
      match cs2.dropWhile (fun d => d != ')' && d != '\n') with
      | ')' :: rest => some ('[' :: lab ++ ']' :: '(' :: tgt ++ [')'], rest)
      | _ => none
    | _ => none
  | _ => none

/-- Modelled from the spec: a wiki-link `[[target]]` on one line. -/
def wikiLinkAt (l : List Char) : Option (List Char × List Char) :=
  match l with
  | '[' :: '[' :: cs =>
    let tgt := cs.takeWhile (fun d => d != ']' && d != '\n')
    match cs.dropWhile (fun d => d != ']' && d != '\n') with
    | ']' :: ']' :: rest => some ('[' :: '[' :: tgt ++ ']' :: [']'], rest)
    | _ => none
  | _ => none

/-- Modelled from the spec (§4.2): the generic masking scan — wherever `find`
recognises a protected span, the span is replaced by `ph` and its original
content recorded, in left-to-right order. -/
def maskScanF (find : List Char → Option (List Char × List Char)) (ph : List Char) :
    Nat → List Char → List Char × List (List Char)
  | 0, l => (l, [])
  | _ + 1, [] => ([], [])
  | fuel + 1, c :: cs =>
    match find (c :: cs) with
    | some (span, rest) =>
      let (m, os) := maskScanF find ph fuel rest
      (ph ++ m, span :: os)
    | none =>
      let (m, os) := maskScanF find ph fuel cs
      (c :: m, os)

/-- `maskScanF` with enough fuel (every recognised span is nonempty). -/
def maskScan (find : List Char → Option (List Char × List Char)) (ph : List Char)
    (l : List Char) : List Char × List (List Char) :=
  maskScanF find ph l.length l

/-- A word-like character of a tag token. -/
def isTagChar (c : Char) : Bool := c.isAlphanum || c == '-' || c == '_' || c == '/'

/-- Modelled from the spec: a tag token `#` + word-like characters at the
current position. -/
def tagAt (l : List Char) : Option (List Char × List Char) :=
  match l with
  | '#' :: cs =>
    let w := cs.takeWhile isTagChar
    if w.isEmpty then none else some ('#' :: w, cs.dropWhile isTagChar)
  | _ => none

/-- Modelled from the spec: the tag masking scan.  A tag's `#` must not sit "in
a heading-ambiguous context": it counts only at the document start or right
after whitespace (`sep` tracks that context). -/
def maskTagF : Nat → Bool → List Char → List Char × List (List Char)
  | 0, _, l => (l, [])
  | _ + 1, _, [] => ([], [])
  | fuel + 1, sep, c :: cs =>
    match (if sep then tagAt (c :: cs) else none) with
    | some (span, rest) =>
      let (m, os) := maskTagF fuel false rest
      (tagPlaceholder ++ m, span :: os)
    | none =>
      let (m, os) := maskTagF fuel (isJsWs c) cs
      (c :: m, os)

/-- The tag masking pass. -/
def maskTag (l : List Char) : List Char × List (List Char) :=
  maskTagF l.length true l

/-- Modelled from the spec: the yaml masking pass — at most one span, the
frontmatter block at document start (the lazy, earliest-closing match). -/
def maskYaml (l : List Char) : List Char × List (List Char) :=
  match yamlMatches l with
  | (ym, rest) :: _ => (yamlPlaceholder ++ rest, [ym])
  | [] => (l, [])

/-- Rewrites the first occurrence of `ph` in the text to `repl`. -/
def replaceFirst (ph repl : List Char) : List Char → List Char
  | [] => []
  | c :: cs =>
    if ph.isPrefixOf (c :: cs) then repl ++ (c :: cs).drop ph.length
    else c :: replaceFirst ph repl cs

/-- Modelled from the spec (§4.2): restoration — each recorded original is
substituted back for the first remaining occurrence of the placeholder, in the
order the spans were masked. -/
def restoreAll (ph : List Char) (origs : List (List Char)) (l : List Char) : List Char :=
  origs.foldl (fun acc orig => replaceFirst ph orig acc) l

/-- `apply` of the rule (source lines 27–51): mask code, yaml, link, wiki-link
and tag regions (in the order of source line 28), run the rewrite passes, then
restore the regions in reverse type order. -/
def apply (text : List Char) (options : HeadingBlankLinesOptions) : List Char :=
  let (t1, codeSpans) := maskScan codeSpanAt codePlaceholder text
  let (t2, yamlSpans) := maskYaml t1
  let (t3, linkSpans) := maskScan linkAt linkPlaceholder t2
  let (t4, wikiSpans) := maskScan wikiLinkAt wikiLinkPlaceholder t3
  let (t5, tagSpans) := maskTag t4
  let r0 := applyCore t5 options
  let r1 := restoreAll tagPlaceholder tagSpans r0
  let r2 := restoreAll wikiLinkPlaceholder wikiSpans r1
  let r3 := restoreAll linkPlaceholder linkSpans r2
  let r4 := restoreAll yamlPlaceholder yamlSpans r3
  restoreAll codePlaceholder codeSpans r4

/-- The default options (source lines 8–10): `bottom = true`,
`emptyLineAfterYaml = true`, `emptyLineInBlankSections = true`. -/
def defaultOptions : HeadingBlankLinesOptions := {}

/-- An example of the rule: description, before text, after text and the
options the example runs with (defaults merged with the example's overrides). -/
structure RuleExample where
  description : String
  before : List Char
  after : List Char
  options : HeadingBlankLinesOptions

/-- The rule's published examples (source lines 52–200), with the `dedent`
template literals written out: `dedent` strips the common indentation, the
leading newline and the trailing whitespace-only line, and `${''}` lines become
empty lines. -/
def exampleBuilders : List RuleExample :=
  [ { description := "Headings should be surrounded by blank lines"
      before := "# H1\n## H2\n\n\n# H1\nline\n## H2\n".data
      after := "# H1\n\n## H2\n\n# H1\n\nline\n\n## H2".data
      options := {} },
    { description := "With Bottom=false"
      before := "# H1\nline\n## H2\n# H1\nline".data
      after := "# H1\nline\n\n## H2\n\n# H1\nline".data
      options := { bottom := false } },
    { description := "With Bottom=true, emptyLineInBlankSections=false"
      before := "# H1\nline\n## H2\n# H1\nline".data
      after := "# H1\n\nline\n\n## H2\n# H1\n\nline".data
      options := { bottom := true, emptyLineInBlankSections := false } },
    { description := "With Bottom=false, emptyLineInBlankSections=false"
      before := "# H1\nline\n## H2\n# H1\nline".data
      after := "# H1\nline\n\n## H2\n# H1\nline".data
      options := { bottom := false, emptyLineInBlankSections := false } },
    { description := "With Bottom=false, emptyLineInBlankSections=false, multiple empty sections"
      before := "# H1\nline\n## H2\n## H2\n# H1\nline".data
      after := "# H1\nline\n\n## H2\n## H2\n# H1\nline".data
      options := { bottom := false, emptyLineInBlankSections := false } },
    { description := "Empty line before header and after Yaml is removed with Empty Line Between Yaml and Header=true"
      before := "---\nkey: value\n---\n# Header\nParagraph here...".data
      after := "---\nkey: value\n---\n# Header\n\nParagraph here...".data
      options := { bottom := true, emptyLineAfterYaml := false } } ]

/-! ## Vocabulary for the spec's properties

The spec's glossary speaks about lines: a heading line begins with `#`s
followed by whitespace, a blank line has no characters or only whitespace.
Lines are the `\n`-delimited segments of the text. -/

/-- The `\n`-delimited lines of a text (fuel-indexed; each step consumes a line
and its terminator). -/
def linesF : Nat → List Char → List (List Char)
  | 0, l => [l]
  | fuel + 1, l =>
    let line := l.takeWhile (· != '\n')
    match l.dropWhile (· != '\n') with
    | _ :: rest => line :: linesF fuel rest
    | [] => [line]

/-- The `\n`-delimited lines of a text. -/
def linesOf (t : List Char) : List (List Char) := linesF t.length t

/-- Glossary: a heading line begins with one or more `#` characters followed by
whitespace (and the rest of the line). -/
def isHeadingLine (line : List Char) : Bool :=
  let hs := line.takeWhile (· == '#')
  !hs.isEmpty &&
    (match line.drop hs.length with
     | w :: _ => isJsWs w
     | [] => false)

/-- Glossary: a blank line contains no characters or only whitespace. -/
def isBlankLine (line : List Char) : Bool := line.all isJsWs

/-- A line with no characters at all. -/
def isEmptyLine (line : List Char) : Bool := line.isEmpty

/-- A line consisting solely of `#` characters (at least one).  On such a line
the `\s` of the rule's `#+\s.*` patterns matches the line's own terminator, so
the following line is absorbed into the match. -/
def isHashOnlyLine (line : List Char) : Bool := !line.isEmpty && line.all (· == '#')

/-- A heading line all of whose characters the patterns' `.` can see (no
carriage return or Unicode line separator inside the line). -/
def isCleanHeadingLine (line : List Char) : Bool :=
  isHeadingLine line && line.all isDotChar

/-- The number of heading lines of a text. -/
def headingCount (t : List Char) : Nat :=
  ((linesOf t).filter isHeadingLine).length

/-- Helper: the option holds a line satisfying `p` (used for looking one and two
lines back). -/
def optLine (p : List Char → Bool) : Option (List Char) → Bool
  | some l => p l
  | none => false

/-- "Exactly one blank line follows": the next line is blank and the one after
it (if any) is not. -/
def nextExactlyOne (blank : List Char → Bool) : List (List Char) → Bool
  | [] => false
  | [n1] => blank n1
  | n1 :: n2 :: _ => blank n1 && !blank n2

/-- Claim C5's property over a line list, parameterized by the blank-line
predicate: every heading line that is neither the first nor the last line is
immediately preceded and followed by exactly one blank line.  The two `Option`
arguments carry the two preceding lines. -/
def headingsSpacedGo (blank : List Char → Bool) :
    Option (List Char) → Option (List Char) → List (List Char) → Bool
  | _, _, [] => true
  | p2, p1, line :: rest =>
    (!(isHeadingLine line) || p1.isNone || rest.isEmpty ||
      (optLine blank p1 &&
        (match p2 with | some l2 => !blank l2 | none => true) &&
        nextExactlyOne blank rest)) &&
    headingsSpacedGo blank p1 (some line) rest

/-- Claim C5's property for a text. -/
def headingsSpaced (blank : List Char → Bool) (t : List Char) : Bool :=
  headingsSpacedGo blank none none (linesOf t)

/-- Claim C10's property over a line list: every heading line not on the first
line is immediately preceded by exactly one blank line. -/
def headingsBlankBeforeGo (blank : List Char → Bool) :
    Option (List Char) → Option (List Char) → List (List Char) → Bool
  | _, _, [] => true
  | p2, p1, line :: rest =>
    (!(isHeadingLine line) || p1.isNone ||
      (optLine blank p1 &&
        (match p2 with | some l2 => !blank l2 | none => true))) &&
    headingsBlankBeforeGo blank p1 (some line) rest

/-- Claim C10's property for a text. -/
def headingsBlankBefore (blank : List Char → Bool) (t : List Char) : Bool :=
  headingsBlankBeforeGo blank none none (linesOf t)

/-- Claim C7's property over a line list, parameterized by the heading and
blank predicates: no run of one or more blank lines sits directly between two
heading lines. -/
def noBlankBetweenHeadingsGo (head blank : List Char → Bool) :
    List (List Char) → Bool
  | [] => true
  | line :: rest =>
    (!(head line) ||
      (let blanks := rest.takeWhile blank
       blanks.isEmpty ||
        !(match rest.drop blanks.length with
          | l2 :: _ => head l2
          | [] => false))) &&
    noBlankBetweenHeadingsGo head blank rest

/-- Claim C7's property for a text. -/
def noBlankBetweenHeadings (head blank : List Char → Bool) (t : List Char) : Bool :=
  noBlankBetweenHeadingsGo head blank (linesOf t)

/-- The guard of source line 42: the text starts with a newline run directly
followed by a `#+\s.*` match (claim C8 says such a prefix never survives). -/
def leadingBlankBeforeHeading (t : List Char) : Bool :=
  t.head? == some '\n' && (matchHashWsDots (t.dropWhile (· == '\n'))).isSome

/-- The guard of source line 43, as a scan: some `#+\s.*` match is directly
followed by a newline run that reaches the end of the text (claim C8 says such
a suffix never survives). -/
def hasTrailingMatch : List Char → Bool
  | [] => false
  | c :: cs =>
    (match matchHashWsDots (c :: cs) with
     | some (_, l2) => !l2.isEmpty && l2.all (· == '\n')
     | none => false) ||
    hasTrailingMatch cs

/-- No line of the text consists solely of `#` characters. -/
def noHashOnlyLines (t : List Char) : Bool :=
  (linesOf t).all (fun l => !(isHashOnlyLine l))

/-- No carriage return or Unicode line separator occurs in the text: the only
line terminator the text uses is `\n`, so the regex notion of line agrees with
the `\n`-delimited one. -/
def newlineOnly (t : List Char) : Bool :=
  t.all (fun c => c == '\n' || !(isLineTerm c))

/-- The text has no protected region of any of the five types: each masking
pass returns it unchanged with no recorded span. -/
def RegionFree (t : List Char) : Prop :=
  maskScan codeSpanAt codePlaceholder t = (t, []) ∧
  maskYaml t = (t, []) ∧
  maskScan linkAt linkPlaceholder t = (t, []) ∧
  maskScan wikiLinkAt wikiLinkPlaceholder t = (t, []) ∧
  maskTag t = (t, [])

/-- The protected spans of a text: the spans each masking pass records, in
masking order (code spans on the raw text, yaml on the code-masked text, and
so on, exactly as `apply` masks them). -/
def protectedSpans (text : List Char) : List (List Char) :=
  let (t1, codeSpans) := maskScan codeSpanAt codePlaceholder text
  let (t2, yamlSpans) := maskYaml t1
  let (t3, linkSpans) := maskScan linkAt linkPlaceholder t2
  let (t4, wikiSpans) := maskScan wikiLinkAt wikiLinkPlaceholder t3
  let (_, tagSpans) := maskTag t4
  codeSpans ++ yamlSpans ++ linkSpans ++ wikiSpans ++ tagSpans

/-! ## Claim theorems: concrete evaluations -/

/-- The collapse pattern `(#+\s.*)\n\n+(#+\s.*)` matches at the current
position (the step ignores the `^` state, its pattern has no anchor). -/
def blankSectionFires (s : List Char) : Bool :=
  (blankSectionStep.go true s).isSome

/-- The text of a line list: the lines joined by single newlines (the inverse
of `linesOf`). -/
def joinLines : List (List Char) → List Char
  | [] => []
  | [l] => l
  | l :: ls => l ++ '\n' :: joinLines ls

/-- The char-level no-hash-only-lines property: no newline is directly
followed by a line consisting solely of hashes. -/
def noHashOnlyStarts (v : List Char) : Prop :=
  ∀ a b, v = a ++ '\n' :: b → isHashOnlyLine (b.takeWhile (· != '\n')) = false

/-- The good shape of the text before a heading line: it ends in exactly one
newline preceded by a nonempty line. -/
def blankBeforeOK (u : List Char) : Prop :=
  ∃ u1, u = u1 ++ ['\n'] ∧ u1 ≠ [] ∧ u1.getLast? ≠ some '\n'

/-- The before-a-heading invariant carried through the `bottom = true` pipeline:
before every heading line the text ends in a nonempty line and exactly one
newline, except at a boundary where the whole text is the heading or one
newline plus the heading. -/
def SA (l : List Char) : Prop :=
  ∀ u r, l = u ++ '\n' :: r →
    isHeadingLine (r.takeWhile (· != '\n')) = true →
    blankBeforeOK u ∨ u = [] ∨ u = ['\n']

/-- The after-a-heading shape of the text from a heading line on, before the
final trailing strip: the line ends the text, or is followed by a single
newline ending the text, or by exactly two newlines and then either the end or
a nonempty line. -/
def afterOKw (r : List Char) : Prop :=
  r.dropWhile (· != '\n') = [] ∨ r.dropWhile (· != '\n') = ['\n'] ∨
  ∃ s3, r.dropWhile (· != '\n') = '\n' :: '\n' :: s3 ∧ s3.head? ≠ some '\n'

/-- The after-a-heading shape after the final trailing strip: the run of
newlines after a heading line is never left dangling at the end of the text. -/
def afterOKs (r : List Char) : Prop :=
  r.dropWhile (· != '\n') = [] ∨ r.dropWhile (· != '\n') = ['\n'] ∨
  ∃ s3, r.dropWhile (· != '\n') = '\n' :: '\n' :: s3 ∧ s3 ≠ [] ∧
    s3.head? ≠ some '\n'

/-- C1: for every example published by the rule, `apply` on the example's
before text with the example's options (defaults merged with the overrides)
returns exactly the example's after text, character for character. -/
theorem c1_examples_roundtrip :
    exampleBuilders.all (fun e => apply e.before e.options == e.after) = true := by
  decide

/-- C6: with `bottom = true`, `emptyLineAfterYaml = false`,
`emptyLineInBlankSections = true`, the frontmatter example input maps to
exactly the published output: no blank line between the closing frontmatter
delimiter and the heading, one blank line between the heading and the
paragraph. -/
theorem c6_frontmatter_example :
    apply "---\nkey: value\n---\n# Header\nParagraph here...".data
        { bottom := true, emptyLineAfterYaml := false, emptyLineInBlankSections := true } =
      "---\nkey: value\n---\n# Header\n\nParagraph here...".data := by
  decide

/-- C2 (code bug): `apply` is not idempotent.  On `"\n#\n# "` with
`bottom = false` the first application yields `"#\n# "`, and applying again
yields `"#\n\n# "`: the `\s` of the before-heading pattern `\n+(#+\s.*)`
matches the newline after the hash-only line, so the first run absorbs the
following heading into one match while the second run inserts a blank line
before it. -/
theorem c2_idempotence_fails :
    apply "\n#\n# ".data { bottom := false } = "#\n# ".data ∧
    apply "#\n# ".data { bottom := false } = "#\n\n# ".data ∧
    apply (apply "\n#\n# ".data { bottom := false }) { bottom := false } ≠
      apply "\n#\n# ".data { bottom := false } := by
  refine ⟨by decide, by decide, by decide⟩

/-- C4 (code bug): the heading-line count is not invariant.  `"\r# "` has no
`\n`-delimited heading line, but the multiline `^` of the heading patterns also
matches right after a carriage return, so `apply` inserts blank lines and turns
the text into `"\r\n\n# "`, which has one heading line. -/
theorem c4_heading_count_fails :
    apply "\r# ".data { } = "\r\n\n# ".data ∧
    headingCount "\r# ".data = 0 ∧
    headingCount (apply "\r# ".data { }) = 1 := by
  refine ⟨by decide, by decide, by decide⟩

/-- C5 counterexample: the claim fails as stated, in several independent ways.
With `emptyLineInBlankSections = false` the blank-section collapse runs after
the spacing pass and removes the blank lines around a heading again (the rule's
own third example).  Even with every option `true` it fails when a hash-only
line precedes a heading (the match absorbs the heading), when the text starts
with frontmatter and `emptyLineAfterYaml = false`, when a heading sits inside a
protected region, when a carriage return lets `^` match mid-line, and when the
blank neighbour is a whitespace-only line (only newline runs are rewritten). -/
theorem c5_counterexample :
    headingsSpaced isBlankLine
        (apply "# H1\nline\n## H2\n# H1\nline".data
          { bottom := true, emptyLineAfterYaml := true,
            emptyLineInBlankSections := false }) = false ∧
    headingsSpaced isBlankLine (apply "#\n# a\n#".data { }) = false ∧
    headingsSpaced isBlankLine
        (apply "---\na\n---\n# h\nx".data { emptyLineAfterYaml := false }) = false ∧
    headingsSpaced isBlankLine (apply "x\n```\n# f\ny\n```\nz".data { }) = false ∧
    headingsSpaced isEmptyLine (apply "\r#\n# \n ".data { }) = false ∧
    headingsSpaced isBlankLine (apply "x\n \n# a\ny".data { }) = false := by
  refine ⟨by decide, by decide, by decide, by decide, by decide, by decide⟩

/-- C7 counterexample: with `emptyLineInBlankSections = false`, a
whitespace-only line between two heading lines is a blank line in the
glossary's sense but is not a newline run, so the collapse loop leaves it (and
the spacing pass even adds an empty line next to it); and blank lines between
headings inside a protected code block are never touched. -/
theorem c7_counterexample :
    noBlankBetweenHeadings isHeadingLine isBlankLine
        (apply "# \n \n# ".data
          { bottom := false, emptyLineInBlankSections := false }) = false ∧
    noBlankBetweenHeadings isHeadingLine isBlankLine
        (apply "```\n# a\n\n# b\n```".data
          { bottom := false, emptyLineInBlankSections := false }) = false := by
  refine ⟨by decide, by decide⟩

/-- C8 counterexample: the strips are not unconditional.  A whitespace-only
blank line before the first heading is not a newline run, so nothing is
stripped (a blank line is even inserted); and a whitespace-only blank line
after the last heading likewise survives. -/
theorem c8_counterexample :
    apply " \n# ".data { bottom := false } = " \n\n# ".data ∧
    linesOf " \n# ".data = [[' '], ['#', ' ']] ∧
    isBlankLine [' '] = true ∧
    isHeadingLine ['#', ' '] = true ∧
    apply "# \n ".data { bottom := false } = "# \n ".data := by
  refine ⟨by decide, by decide, by decide, by decide, by decide⟩

/-- C10 counterexample: with `bottom = false` and the other options `true`, the
heading `"# a"` is immediately preceded in the input by the non-blank hash-only
line `"#"`, yet no blank line is inserted before it: the before-heading match
absorbs the heading through the `\s` of `#+\s.*`.  With frontmatter and
`emptyLineAfterYaml = false` the blank inserted before a heading is removed
again. -/
theorem c10_counterexample :
    apply "x\n#\n# a".data { bottom := false } = "x\n\n#\n# a".data ∧
    linesOf "x\n#\n# a".data = [['x'], ['#'], ['#', ' ', 'a']] ∧
    isHeadingLine ['#', ' ', 'a'] = true ∧
    isBlankLine ['#'] = false ∧
    headingsBlankBefore isBlankLine
        (apply "x\n#\n# a".data { bottom := false }) = false ∧
    headingsBlankBefore isBlankLine
        (apply "---\na\n---\n# h\nx".data
          { bottom := false, emptyLineAfterYaml := false }) = false := by
  refine ⟨by decide, by decide, by decide, by decide, by decide, by decide⟩


/-! ## Basic facts about the matchers -/

theorem drop_length_takeWhile (p : Char → Bool) (l : List Char) :
    l.drop (l.takeWhile p).length = l.dropWhile p := by
  induction l with
  | nil => rfl
  | cons c cs ih =>
    cases h : p c <;>
      simp [List.takeWhile_cons, List.dropWhile_cons, h, ih]

theorem takeWhile_eq_of_all_head {p : Char → Bool} {r s : List Char}
    (hr : ∀ c ∈ r, p c = true) (hs : ∀ c, s.head? = some c → p c = false) :
    (r ++ s).takeWhile p = r := by
  induction r with
  | nil =>
    cases s with
    | nil => rfl
    | cons c cs => simp [List.takeWhile_cons, hs c rfl]
  | cons c cs ih =>
    have hc := hr c (by simp)
    simp only [List.cons_append, List.takeWhile_cons, hc, if_true]
    rw [ih (fun d hd => hr d (by simp [hd]))]

theorem isJsWs_hash : isJsWs '#' = false := by decide

theorem isDotChar_newline : isDotChar '\n' = false := by decide

/-- Elimination: the structure of a successful `#+\s.*` match. -/
theorem matchHashWsDots_some {l g rest : List Char}
    (h : matchHashWsDots l = some (g, rest)) :
    ∃ hs w ds, g = hs ++ w :: ds ∧ l = hs ++ w :: (ds ++ rest) ∧ hs ≠ [] ∧
      (∀ c ∈ hs, c = '#') ∧ isJsWs w = true ∧
      (∀ c ∈ ds, isDotChar c = true) ∧
      (∀ c, rest.head? = some c → isDotChar c = false) := by
  simp only [matchHashWsDots] at h
  split at h
  · exact absurd h (by simp)
  next he =>
    rw [drop_length_takeWhile] at h
    split at h
    · exact absurd h (by simp)
    next w l2 hdrop =>
      split at h
      next hw =>
        rw [Option.some.injEq, Prod.mk.injEq] at h
        obtain ⟨hg, hrest⟩ := h
        refine ⟨l.takeWhile (· == '#'), w, l2.takeWhile isDotChar, hg.symm, ?_, ?_, ?_,
          hw, ?_, ?_⟩
        · rw [← hrest, drop_length_takeWhile, List.takeWhile_append_dropWhile]
          conv_lhs => rw [← List.takeWhile_append_dropWhile (· == '#') l]
          rw [hdrop]
        · intro hnil
          rw [hnil] at he
          exact he rfl
        · intro c hc
          have hp := List.mem_takeWhile_imp (p := (· == '#')) hc
          exact eq_of_beq hp
        · intro c hc
          exact List.mem_takeWhile_imp hc
        · intro c hc
          rw [← hrest, drop_length_takeWhile] at hc
          have h2 := List.head?_dropWhile_not isDotChar l2
          rw [hc] at h2
          exact h2
      · exact absurd h (by simp)

/-- Introduction: a `#+\s.*` match succeeds on any text of the right shape. -/
theorem matchHashWsDots_intro {hs : List Char} {w : Char} {ds rest : List Char}
    (hne : hs ≠ []) (hall : ∀ c ∈ hs, c = '#') (hw : isJsWs w = true)
    (hds : ∀ c ∈ ds, isDotChar c = true)
    (hrest : ∀ c, rest.head? = some c → isDotChar c = false) :
    matchHashWsDots (hs ++ w :: (ds ++ rest)) = some (hs ++ w :: ds, rest) := by
  have hwsharp : (w == '#') = false := by
    cases hc : w == '#'
    · rfl
    · have : w = '#' := eq_of_beq hc
      rw [this] at hw
      exact absurd hw (by decide)
  have h1 : (hs ++ w :: (ds ++ rest)).takeWhile (· == '#') = hs := by
    refine takeWhile_eq_of_all_head (fun c hc => ?_) (fun c hc => ?_)
    · exact beq_iff_eq.mpr (hall c hc)
    · simp only [List.head?_cons, Option.some.injEq] at hc
      rw [← hc]
      exact hwsharp
  have h2 : (ds ++ rest).takeWhile isDotChar = ds :=
    takeWhile_eq_of_all_head hds hrest
  have hne2 : hs.isEmpty = false := by
    cases hs with
    | nil => exact absurd rfl hne
    | cons a as => rfl
  simp only [matchHashWsDots, h1, hne2, Bool.false_eq_true, if_false, List.drop_left, hw,
    if_true, h2]

/-- A successful match splits the input. -/
theorem matchHashWsDots_append {l g rest : List Char}
    (h : matchHashWsDots l = some (g, rest)) : g ++ rest = l := by
  obtain ⟨hs, w, ds, hg, hl, -, -, -, -, -⟩ := matchHashWsDots_some h
  rw [hg, hl]
  simp

/-- A successful match consumes at least one character. -/
theorem matchHashWsDots_ne_nil {l g rest : List Char}
    (h : matchHashWsDots l = some (g, rest)) : g ≠ [] := by
  obtain ⟨hs, w, ds, hg, -, hne, -, -, -, -⟩ := matchHashWsDots_some h
  rw [hg]
  intro hcon
  cases hs with
  | nil => exact hne rfl
  | cons a as => exact absurd hcon (by simp)

theorem matchHashWsDots_rest_lt {l g rest : List Char}
    (h : matchHashWsDots l = some (g, rest)) : rest.length < l.length := by
  have happ := matchHashWsDots_append h
  have hne := matchHashWsDots_ne_nil h
  have : g.length + rest.length = l.length := by
    rw [← happ, List.length_append]
  have : 1 ≤ g.length := by
    cases g with
    | nil => exact absurd rfl hne
    | cons a as => simp
  omega

/-- The match succeeds whenever the text starts with hashes and a whitespace
character, whatever follows. -/
theorem matchHashWsDots_isSome_of {hs : List Char} {w : Char} {x : List Char}
    (hne : hs ≠ []) (hall : ∀ c ∈ hs, c = '#') (hw : isJsWs w = true) :
    (matchHashWsDots (hs ++ w :: x)).isSome = true := by
  have hx : x = x.takeWhile isDotChar ++ x.dropWhile isDotChar :=
    (List.takeWhile_append_dropWhile isDotChar x).symm
  rw [hx]
  rw [matchHashWsDots_intro hne hall hw (fun c hc => List.mem_takeWhile_imp hc)
    (fun c hc => by
      have h2 := List.head?_dropWhile_not isDotChar x
      rw [hc] at h2
      exact h2)]
  rfl

/-- Extending the text after a match whose remainder is nonempty does not
change the match. -/
theorem matchHashWsDots_append_right {l g rest e : List Char}
    (h : matchHashWsDots l = some (g, rest)) (hne : rest ≠ []) :
    matchHashWsDots (l ++ e) = some (g, rest ++ e) := by
  obtain ⟨hs, w, ds, hg, hl, h1, h2, h3, h4, h5⟩ := matchHashWsDots_some h
  have hle : l ++ e = hs ++ w :: (ds ++ (rest ++ e)) := by
    rw [hl]
    simp
  rw [hle, hg]
  refine matchHashWsDots_intro h1 h2 h3 h4 (fun c hc => ?_)
  cases rest with
  | nil => exact absurd rfl hne
  | cons r rs =>
    simp only [List.cons_append, List.head?_cons, Option.some.injEq] at hc
    rw [← hc]
    exact h5 r rfl

theorem matchHashWsDots_isSome_append {l e : List Char}
    (h : (matchHashWsDots l).isSome = true) :
    (matchHashWsDots (l ++ e)).isSome = true := by
  obtain ⟨⟨g, rest⟩, heq⟩ := Option.isSome_iff_exists.mp h
  obtain ⟨hs, w, ds, hg, hl, hne, hall, hw, -, -⟩ := matchHashWsDots_some heq
  have : l ++ e = hs ++ w :: ((ds ++ rest) ++ e) := by
    rw [hl]
    simp
  rw [this]
  exact matchHashWsDots_isSome_of hne hall hw

/-! ## Lengths through the scans, and the collapse loop (C9) -/

theorem blankSectionStep_some {bol : Bool} {l out : List Char} {b2 : Bool}
    {rest : List Char}
    (h : blankSectionStep.go bol l = some (out, b2, rest)) :
    out.length + rest.length < l.length := by
  simp only [blankSectionStep] at h
  split at h
  next g1 l2 h1 =>
    split at h
    next h2 =>
      split at h
      next g2 rest2 h3 =>
        rw [Option.some.injEq, Prod.mk.injEq, Prod.mk.injEq] at h
        obtain ⟨hout, -, hrest⟩ := h
        have e1 : g1.length + l2.length = l.length := by
          rw [← matchHashWsDots_append h1, List.length_append]
        have hsplit : (l2.takeWhile (· == '\n')) ++ l2.dropWhile (· == '\n') = l2 :=
          List.takeWhile_append_dropWhile _ _
        have e2 : (l2.takeWhile (· == '\n')).length +
            (l2.dropWhile (· == '\n')).length = l2.length := by
          rw [← List.length_append, hsplit]
        have e3 : g2.length + rest2.length = (l2.dropWhile (· == '\n')).length := by
          rw [← matchHashWsDots_append h3, List.length_append]
        have hg2 : 1 ≤ g2.length := by
          have := matchHashWsDots_ne_nil h3
          cases g2 with
          | nil => exact absurd rfl this
          | cons a as => simp
        subst hout hrest
        simp only [List.length_append, List.length_cons]
        omega
      · exact absurd h (by simp)
    · exact absurd h (by simp)
  · exact absurd h (by simp)

theorem runStepF_length_le (M : RegexStep)
    (hM : ∀ bol l out b2 rest, M.go bol l = some (out, b2, rest) →
      out.length + rest.length ≤ l.length) :
    ∀ fuel bol (l : List Char), (runStepF M fuel bol l).length ≤ l.length := by
  intro fuel
  induction fuel with
  | zero => intro bol l; simp [runStepF]
  | succ n ih =>
    intro bol l
    cases l with
    | nil => simp [runStepF]
    | cons c cs =>
      simp only [runStepF]
      split
      next out b2 rest hgo =>
        have h1 := hM _ _ _ _ _ hgo
        have h2 := ih b2 rest
        simp only [List.length_cons] at h1
        simp only [List.length_append, List.length_cons]
        omega
      next =>
        simp only [List.length_cons]
        have := ih (isLineTerm c) cs
        omega

theorem runStepF_length_lt (M : RegexStep)
    (hM : ∀ bol l out b2 rest, M.go bol l = some (out, b2, rest) →
      out.length + rest.length < l.length) :
    ∀ fuel bol (l : List Char), hasStepMatchF M fuel bol l = true →
      (runStepF M fuel bol l).length < l.length := by
  intro fuel
  induction fuel with
  | zero => intro bol l h; exact absurd h (by simp [hasStepMatchF])
  | succ n ih =>
    intro bol l h
    cases l with
    | nil => exact absurd h (by simp [hasStepMatchF])
    | cons c cs =>
      simp only [runStepF]
      split
      next out b2 rest hgo =>
        have h1 := hM _ _ _ _ _ hgo
        have h2 := runStepF_length_le M (fun b l' o b2' r hg => le_of_lt (hM b l' o b2' r hg))
          n b2 rest
        simp only [List.length_cons] at h1
        simp only [List.length_append, List.length_cons]
        omega
      next hgo =>
        simp only [hasStepMatchF] at h
        rw [hgo] at h
        have := ih (isLineTerm c) cs h
        simp only [List.length_cons]
        omega

theorem runStep_blankSection_lt {l : List Char}
    (h : hasStepMatch blankSectionStep l = true) :
    (runStep blankSectionStep l).length < l.length :=
  runStepF_length_lt blankSectionStep
    (fun _ _ _ _ _ hgo => blankSectionStep_some hgo) l.length true l h

theorem collapseBlankSectionsF_fix :
    ∀ fuel (l : List Char), l.length < fuel →
      hasStepMatch blankSectionStep (collapseBlankSectionsF fuel l) = false := by
  intro fuel
  induction fuel with
  | zero => intro l h; omega
  | succ n ih =>
    intro l h
    simp only [collapseBlankSectionsF]
    split
    next hmatch =>
      exact ih _ (by have := runStep_blankSection_lt hmatch; omega)
    next hmatch =>
      cases hm : hasStepMatch blankSectionStep l
      · rfl
      · exact absurd hm hmatch

theorem collapseBlankSectionsF_stable :
    ∀ f1 f2 (l : List Char), l.length < f1 → l.length < f2 →
      collapseBlankSectionsF f1 l = collapseBlankSectionsF f2 l := by
  intro f1
  induction f1 with
  | zero => intro f2 l h; omega
  | succ n ih =>
    intro f2 l h1 h2
    cases f2 with
    | zero => omega
    | succ m =>
      simp only [collapseBlankSectionsF]
      split
      next hmatch =>
        exact ih m _ (by have := runStep_blankSection_lt hmatch; omega)
          (by have := runStep_blankSection_lt hmatch; omega)
      next => rfl

/-- C9: the repeated collapse of source lines 38–41 terminates on every input:
with fuel at least the text length the loop result is fuel-independent, and the
loop exits only because no match of the collapse pattern remains. -/
theorem c9_collapse_loop_terminates :
    (∀ l : List Char, hasStepMatch blankSectionStep (collapseBlankSections l) = false) ∧
    (∀ (l : List Char) (fuel : Nat), l.length < fuel →
      collapseBlankSectionsF fuel l = collapseBlankSections l) := by
  constructor
  · intro l
    exact collapseBlankSectionsF_fix (l.length + 1) l (by omega)
  · intro l fuel h
    exact collapseBlankSectionsF_stable fuel (l.length + 1) l h (by omega)

/-- Witness for C9 at a concrete input. -/
theorem c9_collapse_loop_terminates_witness :
    hasStepMatch blankSectionStep (collapseBlankSections "# a\n\n# b\n\n\n# c".data) = false ∧
    collapseBlankSectionsF 99 "# a\n\n# b\n\n\n# c".data =
      collapseBlankSections "# a\n\n# b\n\n\n# c".data :=
  ⟨c9_collapse_loop_terminates.1 _,
    c9_collapse_loop_terminates.2 "# a\n\n# b\n\n\n# c".data 99 (by decide)⟩

/-! ## C8: the leading and trailing strips (source lines 42 and 43) -/

theorem removeBlankBeforeFirst_no_leading (t : List Char) :
    leadingBlankBeforeHeading (removeBlankBeforeFirst t) = false := by
  unfold removeBlankBeforeFirst
  split
  next hhead =>
    split
    next g1 rest hm =>
      obtain ⟨hs, w, ds, hg, -, hne, hall, -, -, -⟩ := matchHashWsDots_some hm
      cases hs with
      | nil => exact absurd rfl hne
      | cons a as =>
        have ha : a = '#' := hall a (by simp)
        subst ha
        rw [hg]
        simp [leadingBlankBeforeHeading]
    next hm =>
      simp [leadingBlankBeforeHeading, hm]
  next hhead =>
    unfold leadingBlankBeforeHeading
    have : (t.head? == some '\n') = false := by
      cases hh : t.head? == some '\n'
      · rfl
      · exact absurd (eq_of_beq hh) hhead
    rw [this, Bool.false_and]

/-- The structure of the trailing strip: either nothing matched, or the text
splits as a prefix, a hash match and a trailing newline run, and the run is
removed. -/
theorem removeBlankAfterLast_shape (t : List Char) :
    removeBlankAfterLast t = t ∨
    ∃ pre g1 ns, t = pre ++ (g1 ++ ns) ∧ removeBlankAfterLast t = pre ++ g1 ∧
      matchHashWsDots (g1 ++ ns) = some (g1, ns) ∧ ns ≠ [] ∧
      (∀ c ∈ ns, c = '\n') := by
  induction t with
  | nil => exact Or.inl rfl
  | cons c cs ih =>
    rw [removeBlankAfterLast]
    split
    next g1 l2 hm =>
      split
      next hguard =>
        right
        rw [Bool.and_eq_true, Bool.not_eq_true'] at hguard
        refine ⟨[], g1, l2, ?_, rfl, ?_, ?_, ?_⟩
        · rw [List.nil_append, matchHashWsDots_append hm]
        · rw [matchHashWsDots_append hm]; exact hm
        · intro hnil
          rw [hnil] at hguard
          exact absurd hguard.1 (by simp)
        · intro d hd
          exact eq_of_beq (List.all_eq_true.mp hguard.2 d hd)
      next hguard =>
        rcases ih with h | ⟨pre, g1, ns, h1, h2, h3, h4, h5⟩
        · left; rw [h]
        · right
          exact ⟨c :: pre, g1, ns, by rw [List.cons_append, ← h1],
            by rw [List.cons_append, ← h2], h3, h4, h5⟩
    next hm =>
      rcases ih with h | ⟨pre, g1, ns, h1, h2, h3, h4, h5⟩
      · left; rw [h]
      · right
        exact ⟨c :: pre, g1, ns, by rw [List.cons_append, ← h1],
          by rw [List.cons_append, ← h2], h3, h4, h5⟩

theorem hasTrailingMatch_cons (c : Char) (cs : List Char) :
    hasTrailingMatch (c :: cs) =
      ((match matchHashWsDots (c :: cs) with
        | some (_, l2) => !l2.isEmpty && l2.all (· == '\n')
        | none => false) || hasTrailingMatch cs) := by
  rw [hasTrailingMatch]

/-- A text with a trailing match ends in a newline. -/
theorem hasTrailingMatch_getLast {v : List Char}
    (h : hasTrailingMatch v = true) : v.getLast? = some '\n' := by
  induction v with
  | nil => exact absurd h (by simp [hasTrailingMatch])
  | cons c cs ih =>
    rw [hasTrailingMatch_cons, Bool.or_eq_true] at h
    rcases h with h | h
    · split at h
      next g l2 hm =>
        rw [Bool.and_eq_true, Bool.not_eq_true'] at h
        have happ := matchHashWsDots_append hm
        have hl2 : l2 ≠ [] := by
          intro hnil; rw [hnil] at h; exact absurd h.1 (by simp)
        rw [← happ, List.getLast?_append]
        obtain ⟨ys, a, hys⟩ : ∃ ys a, l2 = ys ++ [a] := by
          rcases l2.eq_nil_or_concat with h' | ⟨ys, a, h'⟩
          · exact absurd h' hl2
          · exact ⟨ys, a, by simpa using h'⟩
        have ha : a = '\n' := by
          refine eq_of_beq (List.all_eq_true.mp h.2 a ?_)
          rw [hys]; simp
        rw [hys, List.getLast?_concat, ha]
        rfl
      next => exact absurd h (by simp)
    · cases cs with
      | nil => exact absurd h (by simp [hasTrailingMatch])
      | cons d ds =>
        rw [List.getLast?_cons_cons]
        exact ih h

/-- A pure hash run followed by one newline has no trailing match: the newline
is consumed as the `\s` of any candidate match, leaving an empty run. -/
theorem hasTrailingMatch_hashes_nl :
    ∀ hs : List Char, (∀ c ∈ hs, c = '#') →
      hasTrailingMatch (hs ++ ['\n']) = false := by
  intro hs
  induction hs with
  | nil => intro _; rfl
  | cons a as ih =>
    intro hall
    have ha : a = '#' := hall a (by simp)
    have hm : matchHashWsDots ((a :: as) ++ ['\n']) = some ((a :: as) ++ ['\n'], []) := by
      have : (a :: as) ++ ['\n'] = (a :: as) ++ '\n' :: ([] ++ []) := by simp
      rw [this]
      have h2 := @matchHashWsDots_intro (a :: as) '\n' [] []
        (by simp) hall (by decide) (by simp) (by simp)
      simpa using h2
    rw [List.cons_append, hasTrailingMatch_cons, ← List.cons_append, hm]
    simp only [List.isEmpty_nil, Bool.not_true, Bool.false_and, Bool.false_or]
    exact ih (fun c hc => hall c (by simp [hc]))

/-- The group of a match never itself carries a trailing match. -/
theorem hasTrailingMatch_group {l g1 l2 : List Char}
    (hm : matchHashWsDots l = some (g1, l2)) :
    hasTrailingMatch g1 = false := by
  obtain ⟨hs, w, ds, hg, -, hne, hall, hw, hds, -⟩ := matchHashWsDots_some hm
  subst hg
  by_cases hds0 : ds = []
  · subst hds0
    by_cases hwn : w = '\n'
    · subst hwn
      exact hasTrailingMatch_hashes_nl hs hall
    · cases hcon : hasTrailingMatch (hs ++ w :: [])
      · rfl
      · have := hasTrailingMatch_getLast hcon
        rw [show hs ++ w :: [] = hs ++ [w] from rfl, List.getLast?_concat] at this
        exact absurd (Option.some.injEq _ _ ▸ this) hwn
  · cases hcon : hasTrailingMatch (hs ++ w :: ds)
    · rfl
    · have hlast := hasTrailingMatch_getLast hcon
      obtain ⟨ys, a, hys⟩ : ∃ ys a, ds = ys ++ [a] := by
        rcases ds.eq_nil_or_concat with h' | ⟨ys, a, h'⟩
        · exact absurd h' hds0
        · exact ⟨ys, a, by simpa using h'⟩
      have ha : isDotChar a = true := hds a (by rw [hys]; simp)
      rw [hys, show hs ++ w :: (ys ++ [a]) = (hs ++ w :: ys) ++ [a] from by simp,
        List.getLast?_concat] at hlast
      have : a = '\n' := by injection hlast
      rw [this] at ha
      exact absurd ha (by decide)

/-- Relates a nonempty-rest match on the rewritten tail back to a match on the
original tail: the rewrite only dropped a newline run past the match rest. -/
theorem match_cons_removeBlankAfterLast {c : Char} {cs g m2 : List Char}
    (hm2 : matchHashWsDots (c :: removeBlankAfterLast cs) = some (g, m2))
    (hne : m2 ≠ []) :
    matchHashWsDots (c :: cs) = some (g, m2) ∨
    ∃ ns, matchHashWsDots (c :: cs) = some (g, m2 ++ ns) ∧ ns ≠ [] ∧
      (∀ d ∈ ns, d = '\n') := by
  rcases removeBlankAfterLast_shape cs with hsh | ⟨pre, gg, ns, h1, h2, h3, h4, h5⟩
  · left; rw [← hsh]; exact hm2
  · right
    refine ⟨ns, ?_, h4, h5⟩
    rw [h2] at hm2
    have hext : matchHashWsDots ((c :: (pre ++ gg)) ++ ns) = some (g, m2 ++ ns) :=
      matchHashWsDots_append_right hm2 hne
    have hcs : c :: cs = (c :: (pre ++ gg)) ++ ns := by rw [h1]; simp
    rw [hcs, hext]

/-- Source line 43 establishes the trailing postcondition: its output never
ends with a hash match followed by a newline run. -/
theorem removeBlankAfterLast_no_trailing :
    ∀ t : List Char, hasTrailingMatch (removeBlankAfterLast t) = false := by
  intro t
  induction t with
  | nil => rfl
  | cons c cs ih =>
    rw [removeBlankAfterLast]
    split
    next g1 l2 hm =>
      split
      next hguard => exact hasTrailingMatch_group hm
      next hguard =>
        rw [hasTrailingMatch_cons, Bool.or_eq_false_iff]
        refine ⟨?_, ih⟩
        split
        next g m2 hm2 =>
          cases hne2 : m2.isEmpty with
          | true => rfl
          | false =>
            show m2.all (fun x => x == '\n') = false
            have hm2ne : m2 ≠ [] := by
              intro hnil; rw [hnil] at hne2; exact absurd hne2 (by simp)
            cases hall2 : m2.all (· == '\n')
            · rfl
            · exfalso
              rcases match_cons_removeBlankAfterLast hm2 hm2ne with
                hcase | ⟨ns, hcase, hnsne, hnsall⟩
              · rw [hcase] at hm
                injection hm with hm'
                injection hm' with hmg hml
                rw [← hml] at hguard
                rw [show m2.isEmpty = false from hne2, hall2] at hguard
                exact hguard rfl
              · rw [hcase] at hm
                injection hm with hm'
                injection hm' with hmg hml
                rw [← hml] at hguard
                have hall' : (m2 ++ ns).all (· == '\n') = true := by
                  rw [List.all_append, hall2, Bool.true_and]
                  exact List.all_eq_true.mpr
                    (fun d hd => beq_iff_eq.mpr (hnsall d hd))
                have hne' : (m2 ++ ns).isEmpty = false := by
                  cases hl : m2 ++ ns with
                  | nil => exact absurd (List.append_eq_nil.mp hl).1 hm2ne
                  | cons x xs => rfl
                rw [hne', hall'] at hguard
                exact hguard rfl
        next => rfl
    next hm =>
      rw [hasTrailingMatch_cons, Bool.or_eq_false_iff]
      refine ⟨?_, ih⟩
      split
      next g m2 hm2 =>
        cases hne2 : m2.isEmpty with
        | true => rfl
        | false =>
          exfalso
          have hm2ne : m2 ≠ [] := by
            intro hnil; rw [hnil] at hne2; exact absurd hne2 (by simp)
          rcases match_cons_removeBlankAfterLast hm2 hm2ne with
            hcase | ⟨ns, hcase, hnsne, hnsall⟩
          · rw [hcase] at hm; exact absurd hm (by simp)
          · rw [hcase] at hm; exact absurd hm (by simp)
      next => rfl

theorem matchHashWsDots_nil : matchHashWsDots [] = none := rfl

theorem getLast_mem_of_eq {l : List Char} {a : Char} (h : l.getLast? = some a) :
    a ∈ l := by
  induction l with
  | nil => exact absurd h (by simp)
  | cons c cs ih =>
    cases cs with
    | nil =>
      simp only [List.getLast?_singleton, Option.some.injEq] at h
      simp [h]
    | cons d ds =>
      rw [List.getLast?_cons_cons] at h
      exact List.mem_cons_of_mem c (ih h)

/-- A trailing match in a suffix is a trailing match of the whole text. -/
theorem hasTrailingMatch_suffix {b : List Char} (a : List Char)
    (h : hasTrailingMatch b = true) : hasTrailingMatch (a ++ b) = true := by
  induction a with
  | nil => exact h
  | cons c as ih =>
    rw [List.cons_append, hasTrailingMatch_cons, Bool.or_eq_true]
    exact Or.inr ih

/-- A trailing match of `a ++ b` is either entirely inside `b` or starts at a
nonempty suffix of `a`. -/
theorem hasTrailingMatch_append_cases {a b : List Char}
    (h : hasTrailingMatch (a ++ b) = true) :
    hasTrailingMatch b = true ∨
    ∃ i g r, a.drop i ≠ [] ∧ matchHashWsDots (a.drop i ++ b) = some (g, r) ∧
      r ≠ [] ∧ (∀ c ∈ r, c = '\n') := by
  induction a with
  | nil => exact Or.inl h
  | cons c as ih =>
    rw [List.cons_append, hasTrailingMatch_cons, Bool.or_eq_true] at h
    rcases h with h | h
    · split at h
      next g r hm =>
        rw [Bool.and_eq_true, Bool.not_eq_true'] at h
        right
        refine ⟨0, g, r, by simp, by simpa using hm, ?_, ?_⟩
        · intro hnil; rw [hnil] at h; exact absurd h.1 (by simp)
        · intro x hx; exact eq_of_beq (List.all_eq_true.mp h.2 x hx)
      next => exact absurd h (by simp)
    · rcases ih h with h' | ⟨i, g, r, hne, hm, hrne, hrall⟩
      · exact Or.inl h'
      · exact Or.inr ⟨i + 1, g, r, by simpa using hne, by simpa using hm, hrne, hrall⟩

/-- No `#+\s.*` match with an all-newline remainder reaching the end can start
inside the frontmatter part `A` (empty or ending in a dash) of
`A ++ '\n' :: (g5 ++ R)` when `g5` starts with a hash. -/
theorem no_span_match {A g5 R g r : List Char}
    (hA : A = [] ∨ A.getLast? = some '-')
    (hg5 : g5.head? = some '#')
    (hm : matchHashWsDots (A ++ '\n' :: (g5 ++ R)) = some (g, r))
    (hrne : r ≠ []) (hrall : ∀ c ∈ r, c = '\n') : False := by
  obtain ⟨hs, w, ds, hg, hl, hhsne, hhsall, hw, hds, -⟩ := matchHashWsDots_some hm
  have hAhs : A = hs → False := by
    intro hE
    rcases hA with hA0 | hAlast
    · rw [hA0] at hE
      exact hhsne hE.symm
    · have hmem := getLast_mem_of_eq hAlast
      rw [hE] at hmem
      exact absurd (hhsall '-' hmem) (by decide)
  have hg5mem : '#' ∈ g5 := by
    cases g5 with
    | nil => exact absurd hg5 (by simp)
    | cons x xs =>
      simp only [List.head?_cons, Option.some.injEq] at hg5
      simp [hg5]
  have hsharpr : '#' ∈ r → False := fun hmem =>
    absurd (hrall '#' hmem) (by decide)
  rcases List.append_eq_append_iff.mp hl with ⟨a', ha1, ha2⟩ | ⟨c', hc1, hc2⟩
  · cases a' with
    | nil => exact hAhs (by simpa using ha1.symm)
    | cons x a'' =>
      have hx : x = '\n' := by
        injection ha2 with h1 h2
        exact h1.symm
      have hxmem : x ∈ hs := by rw [ha1]; simp
      exact absurd (hhsall x hxmem) (by rw [hx]; decide)
  · cases c' with
    | nil => exact hAhs (by simpa using hc1)
    | cons y c'' =>
      injection hc2 with hwy hrest
      rcases List.append_eq_append_iff.mp hrest with ⟨d', hd1, hd2⟩ | ⟨e', he1, he2⟩
      · refine hsharpr ?_
        rw [hd2]
        exact List.mem_append_right d' (List.mem_cons_of_mem '\n'
          (List.mem_append_left R hg5mem))
      · cases e' with
        | nil =>
          refine hsharpr ?_
          rw [← (by simpa using he2 : '\n' :: (g5 ++ R) = r)]
          exact List.mem_cons_of_mem '\n' (List.mem_append_left R hg5mem)
        | cons z e'' =>
          have hz : z = '\n' := by
            injection he2 with h1 h2
            exact h1.symm
          have hzmem : z ∈ ds := by rw [he1]; simp
          have := hds z hzmem
          rw [hz] at this
          exact absurd this (by decide)

/-- The candidates produced by one recursion level from a later line all split
the text and end in a dash. -/
theorem yamlCloseSplits_map_facts {n : Nat} {l tail : List Char} {r0 : Char}
    (heq : l.dropWhile (· != '\n') = r0 :: tail)
    (ih : ∀ q ∈ yamlCloseSplitsF n tail, q.1 ++ q.2 = tail ∧ q.1.getLast? = some '-')
    {p : List Char × List Char}
    (hp : p ∈ (yamlCloseSplitsF n tail).map
        (fun q => (l.takeWhile (· != '\n') ++ '\n' :: q.1, q.2))) :
    p.1 ++ p.2 = l ∧ p.1.getLast? = some '-' := by
  obtain ⟨q, hqmem, hqe⟩ := List.mem_map.mp hp
  obtain ⟨hq1, hq2⟩ := ih q hqmem
  have hr0 : r0 = '\n' := by
    have h0 := List.head?_dropWhile_not (· != '\n') l
    rw [heq] at h0
    simpa using h0
  constructor
  · rw [← hqe]
    show (l.takeWhile (· != '\n') ++ '\n' :: q.1) ++ q.2 = l
    rw [List.append_assoc, List.cons_append, hq1,
      show ('\n' : Char) :: tail = l.dropWhile (· != '\n') from by rw [heq, hr0]]
    exact List.takeWhile_append_dropWhile _ _
  · rw [← hqe]
    show (l.takeWhile (· != '\n') ++ '\n' :: q.1).getLast? = some '-'
    rw [show l.takeWhile (· != '\n') ++ '\n' :: q.1
        = (l.takeWhile (· != '\n') ++ ['\n']) ++ q.1 from by simp,
      List.getLast?_append, hq2]
    rfl

/-- Every split listed by `yamlCloseSplitsF` splits the text, and its first
component (the yaml body through the closing delimiter) ends in a dash. -/
theorem yamlCloseSplitsF_facts (fuel : Nat) :
    ∀ (l : List Char) (p : List Char × List Char), p ∈ yamlCloseSplitsF fuel l →
      p.1 ++ p.2 = l ∧ p.1.getLast? = some '-' := by
  induction fuel with
  | zero =>
    intro l p hp
    exact absurd hp (by simp [yamlCloseSplitsF])
  | succ n ih =>
    intro l p hp
    simp only [yamlCloseSplitsF] at hp
    split at hp
    next hline =>
      rcases List.mem_cons.mp hp with hpe | hp'
      · rw [hpe]
        constructor
        · exact List.takeWhile_append_dropWhile _ _
        · rw [show l.takeWhile (· != '\n') = ['-', '-', '-'] from eq_of_beq hline]
          rfl
      · split at hp'
        · exact absurd hp' (by simp)
        next r0 tail heq => exact yamlCloseSplits_map_facts heq (fun q hq => ih tail q hq) hp'
    next hline =>
      split at hp
      · exact absurd hp (by simp)
      next r0 tail heq => exact yamlCloseSplits_map_facts heq (fun q hq => ih tail q hq) hp

/-- Every yaml candidate of `yamlMatches` splits the text; its block starts and
ends with a dash. -/
theorem yamlMatches_facts (t : List Char) :
    ∀ p ∈ yamlMatches t, p.1 ++ p.2 = t ∧ p.1.head? = some '-' ∧
      p.1.getLast? = some '-' := by
  intro p hp
  unfold yamlMatches at hp
  split at hp
  next rest =>
    obtain ⟨q, hq, hqe⟩ := List.mem_map.mp hp
    obtain ⟨hq1, hq2⟩ := yamlCloseSplitsF_facts _ rest q hq
    refine ⟨?_, ?_, ?_⟩
    · rw [← hqe]
      show ('-' :: '-' :: '-' :: '\n' :: q.1) ++ q.2 = _
      simp only [List.cons_append, hq1]
    · rw [← hqe]
      rfl
    · rw [← hqe]
      show ('-' :: '-' :: '-' :: '\n' :: q.1).getLast? = some '-'
      rw [show ('-' :: '-' :: '-' :: '\n' :: q.1)
          = ['-', '-', '-', '\n'] ++ q.1 from rfl, List.getLast?_append, hq2]
      rfl
  next => exact absurd hp (by simp)

/-- Appending past a nonempty remainder commutes with stripping the leading
newline run. -/
theorem dropWhile_nl_append (cs e : List Char)
    (hne : cs.dropWhile (· == '\n') ≠ []) :
    (cs ++ e).dropWhile (· == '\n') = cs.dropWhile (· == '\n') ++ e := by
  induction cs with
  | nil => exact absurd rfl hne
  | cons c cs ih =>
    cases hc : (c == '\n')
    · simp [List.dropWhile_cons, hc]
    · simp only [List.dropWhile_cons, hc, if_true] at hne ⊢
      rw [List.cons_append, List.dropWhile_cons, hc, if_pos rfl]
      exact ih hne

/-- A leading newline run before a heading match survives appending. -/
theorem leadingBlankBeforeHeading_append {l : List Char} (e : List Char)
    (h : leadingBlankBeforeHeading l = true) :
    leadingBlankBeforeHeading (l ++ e) = true := by
  unfold leadingBlankBeforeHeading at h ⊢
  rw [Bool.and_eq_true] at h
  obtain ⟨h1, h2⟩ := h
  have hhead : l.head? = some '\n' := eq_of_beq h1
  have hne : l.dropWhile (· == '\n') ≠ [] := by
    intro h0
    rw [h0, matchHashWsDots_nil] at h2
    exact absurd h2 (by simp)
  rw [Bool.and_eq_true]
  constructor
  · rw [List.head?_append, hhead]
    rfl
  · rw [dropWhile_nl_append l e hne]
    exact matchHashWsDots_isSome_append h2

/-- The trailing strip (line 43) preserves the leading postcondition. -/
theorem removeBlankAfterLast_leading {t : List Char}
    (h : leadingBlankBeforeHeading t = false) :
    leadingBlankBeforeHeading (removeBlankAfterLast t) = false := by
  rcases removeBlankAfterLast_shape t with hsh | ⟨pre, g1, ns, h1, h2, h3, h4, h5⟩
  · rw [hsh]; exact h
  · rw [h2]
    cases hcon : leadingBlankBeforeHeading (pre ++ g1)
    · rfl
    · exfalso
      have hlift := leadingBlankBeforeHeading_append ns hcon
      rw [List.append_assoc, ← h1] at hlift
      rw [hlift] at h
      exact absurd h (by decide)

/-- The yaml-gap pass (line 46) preserves both postconditions: its output
starts with the frontmatter delimiter when it fires, and any trailing match it
could create would either lie in the shared suffix (present in the input) or
span the frontmatter (impossible, the block ends in a dash). -/
theorem removeYamlGapGo_no_pc {t : List Char} :
    ∀ cands : List (List Char × List Char),
      (∀ p ∈ cands, p.1 ++ p.2 = t ∧ p.1.head? = some '-' ∧
        p.1.getLast? = some '-') →
      leadingBlankBeforeHeading t = false → hasTrailingMatch t = false →
      leadingBlankBeforeHeading (removeYamlGapGo cands t) = false ∧
      hasTrailingMatch (removeYamlGapGo cands t) = false := by
  intro cands
  induction cands with
  | nil =>
    intro _ hl ht
    exact ⟨hl, ht⟩
  | cons p more ih =>
    intro hc hl ht
    obtain ⟨hsum, hhead, hlast⟩ := hc p (by simp)
    obtain ⟨ym, l2⟩ := p
    rw [removeYamlGapGo]
    split
    next hh =>
      split
      next g5 rest hm5 =>
        constructor
        · cases ym with
          | nil => exact absurd hhead (by simp)
          | cons y ys =>
            have hy : y = '-' := by simpa using hhead
            subst hy
            simp [leadingBlankBeforeHeading]
        · cases hcon : hasTrailingMatch (ym ++ '\n' :: (g5 ++ rest))
          · rfl
          · exfalso
            rw [show ym ++ '\n' :: (g5 ++ rest)
                = (ym ++ ['\n']) ++ (g5 ++ rest) from by simp] at hcon
            rcases hasTrailingMatch_append_cases hcon with
              hb | ⟨i, g, r, hne, hmm, hrne, hrall⟩
            · have hgr : g5 ++ rest = l2.dropWhile (· == '\n') :=
                matchHashWsDots_append hm5
              have htt : t = (ym ++ l2.takeWhile (· == '\n')) ++ (g5 ++ rest) := by
                rw [List.append_assoc, hgr, List.takeWhile_append_dropWhile]
                exact hsum.symm
              have hlift := hasTrailingMatch_suffix
                (ym ++ l2.takeWhile (· == '\n')) hb
              rw [← htt] at hlift
              rw [hlift] at ht
              exact absurd ht (by decide)
            · have hile : i ≤ ym.length := by
                by_contra hgt
                push_neg at hgt
                refine hne (List.drop_eq_nil_of_le ?_)
                simp only [List.length_append, List.length_cons, List.length_nil]
                omega
              have hdrop : (ym ++ ['\n']).drop i = ym.drop i ++ ['\n'] :=
                List.drop_append_of_le_length hile
              have hA : ym.drop i = [] ∨ (ym.drop i).getLast? = some '-' := by
                cases hA0 : (ym.drop i).getLast? with
                | none => exact Or.inl (List.getLast?_eq_none_iff.mp hA0)
                | some x =>
                  right
                  have hor : ym.getLast? = ((ym.drop i).getLast?).or
                      ((ym.take i).getLast?) := by
                    conv_lhs => rw [← List.take_append_drop i ym]
                    rw [List.getLast?_append]
                  rw [hlast, hA0] at hor
                  have hx : ('-' : Char) = x := by
                    have hor2 : some '-' = some x := hor
                    injection hor2
                  rw [← hx]
              obtain ⟨hs5, w5, ds5, hg5eq, -, h5ne, h5all, -, -, -⟩ :=
                matchHashWsDots_some hm5
              have hg5head : g5.head? = some '#' := by
                rw [hg5eq]
                cases hs5 with
                | nil => exact absurd rfl h5ne
                | cons a as =>
                  have ha := h5all a (by simp)
                  simp [ha]
              rw [hdrop, show (ym.drop i ++ ['\n']) ++ (g5 ++ rest)
                  = ym.drop i ++ '\n' :: (g5 ++ rest) from by simp] at hmm
              exact no_span_match hA hg5head hmm hrne hrall
      next hm5 => exact ih (fun q hq => hc q (by simp [hq])) hl ht
    next hh => exact ih (fun q hq => hc q (by simp [hq])) hl ht

/-- Source lines 45–47 preserve both postconditions. -/
theorem removeYamlGap_no_pc {t : List Char}
    (hl : leadingBlankBeforeHeading t = false)
    (ht : hasTrailingMatch t = false) :
    leadingBlankBeforeHeading (removeYamlGap t) = false ∧
    hasTrailingMatch (removeYamlGap t) = false := by
  unfold removeYamlGap
  exact removeYamlGapGo_no_pc (yamlMatches t) (yamlMatches_facts t) hl ht

/-- The optional yaml pass keeps both postconditions. -/
theorem ite_yaml_no_pc (c : Bool) (v : List Char)
    (hl : leadingBlankBeforeHeading v = false)
    (ht : hasTrailingMatch v = false) :
    leadingBlankBeforeHeading (if c = true then removeYamlGap v else v) = false ∧
    hasTrailingMatch (if c = true then removeYamlGap v else v) = false := by
  cases c
  · rw [if_neg (by decide : ¬ (false = true))]
    exact ⟨hl, ht⟩
  · rw [if_pos rfl]
    exact removeYamlGap_no_pc hl ht

/-- The rewrite pipeline establishes both postconditions, whatever the
options. -/
theorem applyCore_no_pc (t : List Char) (o : HeadingBlankLinesOptions) :
    leadingBlankBeforeHeading (applyCore t o) = false ∧
    hasTrailingMatch (applyCore t o) = false := by
  unfold applyCore
  exact ite_yaml_no_pc _ _
    (removeBlankAfterLast_leading (removeBlankBeforeFirst_no_leading _))
    (removeBlankAfterLast_no_trailing _)

/-- On a region-free text the masking passes are the identity and restoration
restores nothing, so `apply` is the rewrite pipeline itself. -/
theorem apply_eq_applyCore {t : List Char} (h : RegionFree t)
    (o : HeadingBlankLinesOptions) : apply t o = applyCore t o := by
  obtain ⟨h1, h2, h3, h4, h5⟩ := h
  simp only [apply, h1, h2, h3, h4, h5, restoreAll, List.foldl_nil]

/-- C8 (amended): on a region-free text, whatever the options, the output of
`apply` never starts with a newline run directly followed by a `#+\s.*` match
(the leading strip of source line 42 establishes this and the later passes
keep it), and never ends with a `#+\s.*` match directly followed by a newline
run reaching the end (the trailing strip of source line 43); and a text that
does not end in a newline is left unchanged by the trailing-blank pass, which
has nothing to strip.  The original claim's "all leading/trailing blank lines"
is false for whitespace-only blank lines, which none of the patterns touch. -/
theorem c8_strips_amended (t : List Char) (o : HeadingBlankLinesOptions)
    (h : RegionFree t) :
    leadingBlankBeforeHeading (apply t o) = false ∧
    hasTrailingMatch (apply t o) = false ∧
    (t.getLast? ≠ some '\n' → removeBlankAfterLast t = t) := by
  rw [apply_eq_applyCore h o]
  refine ⟨(applyCore_no_pc t o).1, (applyCore_no_pc t o).2, ?_⟩
  intro hgl
  rcases removeBlankAfterLast_shape t with hsh | ⟨pre, g1, ns, h1, h2, h3, h4, h5⟩
  · exact hsh
  · exfalso
    apply hgl
    rw [h1]
    obtain ⟨ys, a, hys⟩ : ∃ ys a, ns = ys ++ [a] := by
      rcases ns.eq_nil_or_concat with h' | ⟨ys, a, h'⟩
      · exact absurd h' h4
      · exact ⟨ys, a, by simpa using h'⟩
    have ha : a = '\n' := h5 a (by rw [hys]; simp)
    rw [show pre ++ (g1 ++ ns) = (pre ++ g1) ++ ns from by simp, hys,
      ← List.append_assoc, List.getLast?_concat, ha]

/-- Witness for the amended C8 on the region-free text `"x\n# a"` with the
default options. -/
theorem c8_strips_amended_witness :
    RegionFree "x\n# a".data ∧
    (leadingBlankBeforeHeading (apply "x\n# a".data defaultOptions) = false ∧
     hasTrailingMatch (apply "x\n# a".data defaultOptions) = false ∧
     ("x\n# a".data.getLast? ≠ some '\n' →
       removeBlankAfterLast "x\n# a".data = "x\n# a".data)) :=
  ⟨by unfold RegionFree; exact ⟨by decide, by decide, by decide, by decide, by decide⟩,
   c8_strips_amended "x\n# a".data defaultOptions
     (by unfold RegionFree; exact ⟨by decide, by decide, by decide, by decide, by decide⟩)⟩

/-! ## C7: the collapse loop leaves no empty-line run between clean headings -/



theorem blankSectionFires_elim {s : List Char}
    (h : blankSectionFires s = true) :
    ∃ g1 l2, matchHashWsDots s = some (g1, l2) ∧
      2 ≤ (l2.takeWhile (· == '\n')).length ∧
      (matchHashWsDots (l2.dropWhile (· == '\n'))).isSome = true := by
  unfold blankSectionFires blankSectionStep at h
  simp only at h
  split at h
  next g1 l2 hm =>
    split at h
    next hrun =>
      split at h
      next g2 rest hm2 => exact ⟨g1, l2, hm, hrun, by rw [hm2]; rfl⟩
      next => exact absurd h (by simp)
    next => exact absurd h (by simp)
  next => exact absurd h (by simp)

theorem blankSectionFires_intro {s g1 l2 : List Char}
    (hm : matchHashWsDots s = some (g1, l2))
    (hrun : 2 ≤ (l2.takeWhile (· == '\n')).length)
    (hsnd : (matchHashWsDots (l2.dropWhile (· == '\n'))).isSome = true) :
    blankSectionFires s = true := by
  obtain ⟨⟨g2, rest⟩, hm2⟩ := Option.isSome_iff_exists.mp hsnd
  unfold blankSectionFires blankSectionStep
  simp only [hm, hrun, if_true, hm2]
  rfl

theorem blankSectionFires_nil : blankSectionFires [] = false := rfl

/-- The length of the newline run cannot shrink when the text is extended. -/
theorem takeWhile_length_le_append (p : Char → Bool) (l e : List Char) :
    (l.takeWhile p).length ≤ ((l ++ e).takeWhile p).length := by
  rw [List.takeWhile_append]
  split
  · rw [List.length_append]
    next hlen => rw [hlen]; omega
  · omega

/-- A firing position still fires after the text is extended on the right. -/
theorem blankSectionFires_append {s : List Char} (e : List Char)
    (h : blankSectionFires s = true) : blankSectionFires (s ++ e) = true := by
  obtain ⟨g1, l2, hm, hrun, hsnd⟩ := blankSectionFires_elim h
  have hl2ne : l2 ≠ [] := by
    intro h0
    rw [h0] at hrun
    simp at hrun
  have hm' : matchHashWsDots (s ++ e) = some (g1, l2 ++ e) :=
    matchHashWsDots_append_right hm hl2ne
  refine blankSectionFires_intro hm' ?_ ?_
  · calc 2 ≤ (l2.takeWhile (· == '\n')).length := hrun
      _ ≤ ((l2 ++ e).takeWhile (· == '\n')).length :=
        takeWhile_length_le_append _ l2 e
  · have hdne : l2.dropWhile (· == '\n') ≠ [] := by
      intro h0
      rw [h0, matchHashWsDots_nil] at hsnd
      exact absurd hsnd (by simp)
    rw [dropWhile_nl_append l2 e hdne]
    exact matchHashWsDots_isSome_append hsnd

/-- A firing suffix makes the whole-text scan report a match. -/
theorem hasStepMatchF_of_suffix :
    ∀ (e : List Char) {s : List Char} (fuel : Nat) (bol : Bool),
      (e ++ s).length ≤ fuel → blankSectionFires s = true →
      hasStepMatchF blankSectionStep fuel bol (e ++ s) = true := by
  intro e
  induction e with
  | nil =>
    intro s fuel bol hfuel h
    cases s with
    | nil => exact absurd h (by rw [blankSectionFires_nil]; simp)
    | cons c cs =>
      cases fuel with
      | zero => exact absurd hfuel (by simp)
      | succ f =>
        obtain ⟨res, hres⟩ := Option.isSome_iff_exists.mp h
        rw [List.nil_append, hasStepMatchF]
        have hgo : blankSectionStep.go bol (c :: cs) = some res := hres
        rw [hgo]
  | cons c e' ih =>
    intro s fuel bol hfuel h
    cases fuel with
    | zero => exact absurd hfuel (by simp)
    | succ f =>
      rw [List.cons_append, hasStepMatchF]
      cases hgo : blankSectionStep.go bol (c :: (e' ++ s)) with
      | some res => rfl
      | none =>
        simp only []
        refine ih f (isLineTerm c) ?_ h
        simp only [List.length_append, List.length_cons] at hfuel ⊢
        omega

/-- The collapse output never fires anywhere. -/
theorem collapse_no_occurrence {x e s : List Char}
    (hsplit : collapseBlankSections x = e ++ s)
    (h : blankSectionFires s = true) : False := by
  have hfix := collapseBlankSectionsF_fix (x.length + 1) x (by omega)
  have : hasStepMatch blankSectionStep (collapseBlankSections x) = true := by
    unfold hasStepMatch
    rw [hsplit]
    exact hasStepMatchF_of_suffix e (e ++ s).length true (by omega) h
  rw [collapseBlankSections] at this
  rw [this] at hfix
  exact absurd hfix (by decide)

/-- A list all of whose elements satisfy the predicate drops to nothing. -/
theorem dropWhile_all_nil {p : Char → Bool} {l : List Char}
    (h : ∀ c ∈ l, p c = true) : l.dropWhile p = [] := by
  induction l with
  | nil => rfl
  | cons c cs ih =>
    rw [List.dropWhile_cons, if_pos (h c (by simp))]
    exact ih (fun d hd => h d (by simp [hd]))

/-- Inserting extra newlines right after a newline cannot destroy a `#+\s.*`
match that starts before it. -/
theorem matchHashWsDots_isSome_insert_nl {D X nl : List Char}
    (h : (matchHashWsDots (D ++ '\n' :: X)).isSome = true) :
    (matchHashWsDots (D ++ '\n' :: (nl ++ X))).isSome = true := by
  obtain ⟨⟨g, r⟩, hm⟩ := Option.isSome_iff_exists.mp h
  obtain ⟨hs, w, ds, -, hl, hhsne, hhsall, hw, -, -⟩ := matchHashWsDots_some hm
  have hl' : D ++ ('\n' :: X) = hs ++ (w :: (ds ++ r)) := hl
  rcases List.append_eq_append_iff.mp hl' with ⟨u, hu1, hu2⟩ | ⟨u, hu1, hu2⟩
  · -- hs = D ++ u, '\n' :: X = u ++ w :: (ds ++ r)
    cases u with
    | nil =>
      have hD : hs = D := by simpa using hu1
      rw [show D ++ '\n' :: (nl ++ X) = hs ++ '\n' :: (nl ++ X) from by rw [hD]]
      exact matchHashWsDots_isSome_of hhsne hhsall (by decide)
    | cons v u' =>
      have hv : v = '\n' := by
        have h0 := congrArg List.head? hu2
        simp only [List.cons_append, List.head?_cons, Option.some.injEq] at h0
        exact h0.symm
      have hvmem : v ∈ hs := by rw [hu1]; simp
      have hbad := hhsall v hvmem
      rw [hv] at hbad
      exact absurd hbad (by decide)
  · -- D = hs ++ u, w :: (ds ++ r) = u ++ '\n' :: X
    cases u with
    | nil =>
      have hD : D = hs := by simpa using hu1
      rw [show D ++ '\n' :: (nl ++ X) = hs ++ '\n' :: (nl ++ X) from by rw [hD]]
      exact matchHashWsDots_isSome_of hhsne hhsall (by decide)
    | cons v u' =>
      have hwv : w = v := by
        have h0 := congrArg List.head? hu2
        simp only [List.cons_append, List.head?_cons, Option.some.injEq] at h0
        exact h0
      have hD : D = hs ++ w :: u' := by rw [hu1, hwv]
      rw [show D ++ '\n' :: (nl ++ X) = hs ++ w :: (u' ++ '\n' :: (nl ++ X)) from by
        rw [hD]; simp]
      exact matchHashWsDots_isSome_of hhsne hhsall hw

/-- A firing position whose text is the frontmatter tail `A` (empty or ending
in a dash), one newline, and a hash-led suffix `X` still fires when extra
newlines are inserted after the boundary newline. -/
theorem blankSectionFires_insert_nl {A X nl : List Char}
    (hA : A = [] ∨ A.getLast? = some '-')
    (hX : X.head? = some '#')
    (hnl : ∀ c ∈ nl, c = '\n')
    (h : blankSectionFires (A ++ '\n' :: X) = true) :
    blankSectionFires (A ++ '\n' :: (nl ++ X)) = true := by
  obtain ⟨g1, l2, hm, hrun, hsnd⟩ := blankSectionFires_elim h
  obtain ⟨hs, w, ds, hg, hl, hhsne, hhsall, hw, hds, hrest⟩ := matchHashWsDots_some hm
  obtain ⟨X', hX'⟩ : ∃ X', X = '#' :: X' := by
    cases X with
    | nil => exact absurd hX (by simp)
    | cons x xs =>
      have hx0 : x = '#' := by simpa using hX
      exact ⟨xs, by rw [hx0]⟩
  have hAhs : A = hs → False := by
    intro hE
    rcases hA with hA0 | hAlast
    · rw [hA0] at hE
      exact hhsne hE.symm
    · have hmem := getLast_mem_of_eq hAlast
      rw [hE] at hmem
      exact absurd (hhsall '-' hmem) (by decide)
  have hl2 : A ++ ('\n' :: X) = (hs ++ w :: ds) ++ l2 := by
    rw [hl]
    simp
  rcases List.append_eq_append_iff.mp hl2 with ⟨a', ha1, ha2⟩ | ⟨c', hc1, hc2⟩
  · -- the group reaches the boundary: hs ++ w :: ds = A ++ a', '\n'::X = a' ++ l2
    cases a' with
    | nil =>
      -- the group is exactly A and l2 = '\n' :: X: the run has length 1
      have hl2e : l2 = '\n' :: X := by simpa using ha2.symm
      rw [hl2e, hX'] at hrun
      rw [show ('\n' :: '#' :: X').takeWhile (· == '\n') = ['\n'] from by
        rw [show ('\n' :: '#' :: X') = ['\n'] ++ '#' :: X' from rfl]
        exact takeWhile_eq_of_all_head (by simp) (fun c hc => by
          simp only [List.head?_cons, Option.some.injEq] at hc
          rw [← hc]
          decide)] at hrun
      simp at hrun
    | cons x a'' =>
      exfalso
      have hx : x = '\n' := by
        have h0 := congrArg List.head? ha2
        simp only [List.cons_append, List.head?_cons, Option.some.injEq] at h0
        exact h0.symm
      have ha1' : hs ++ (w :: ds) = A ++ (x :: a'') := ha1
      rcases List.append_eq_append_iff.mp ha1' with ⟨u, hu1, hu2⟩ | ⟨u, hu1, hu2⟩
      · -- A = hs ++ u, w :: ds = u ++ x :: a''
        cases u with
        | nil => exact hAhs (by simpa using hu1)
        | cons v u' =>
          have hds2 : ds = u' ++ x :: a'' := by
            have h0 := congrArg List.tail hu2
            simpa using h0
          have hxds : x ∈ ds := by rw [hds2]; simp
          have hbad := hds x hxds
          rw [hx] at hbad
          exact absurd hbad (by decide)
      · -- hs = A ++ u, x :: a'' = u ++ w :: ds
        cases u with
        | nil => exact hAhs (by simpa using hu1.symm)
        | cons v u' =>
          have hv : v = x := by
            have h0 := congrArg List.head? hu2
            simp only [List.cons_append, List.head?_cons, Option.some.injEq] at h0
            exact h0.symm
          have hvmem : v ∈ hs := by rw [hu1]; simp
          have hbad := hhsall v hvmem
          rw [hv, hx] at hbad
          exact absurd hbad (by decide)
  · -- the group sits fully inside A: A = g1 ++ c', l2 = c' ++ '\n' :: X
    have hmu : matchHashWsDots (A ++ '\n' :: (nl ++ X)) =
        some (g1, c' ++ '\n' :: (nl ++ X)) := by
      have hshape : A ++ '\n' :: (nl ++ X) =
          hs ++ w :: (ds ++ (c' ++ '\n' :: (nl ++ X))) := by
        rw [hc1]
        simp
      rw [hshape, hg]
      refine matchHashWsDots_intro hhsne hhsall hw hds (fun c hc => ?_)
      cases c' with
      | nil =>
        simp only [List.nil_append, List.head?_cons, Option.some.injEq] at hc
        rw [← hc]
        decide
      | cons p ps =>
        simp only [List.cons_append, List.head?_cons, Option.some.injEq] at hc
        have hp : l2.head? = some p := by rw [hc2]; rfl
        rw [← hc]
        exact hrest p hp
    refine blankSectionFires_intro hmu ?_ ?_
    · -- the run is at least as long as before
      rcases Nat.decEq (c'.takeWhile (· == '\n')).length c'.length with hne | heq
      · have heq1 : ((c' ++ '\n' :: X).takeWhile (· == '\n')) =
            c'.takeWhile (· == '\n') := by
          rw [List.takeWhile_append, if_neg hne]
        have heq2 : ((c' ++ '\n' :: (nl ++ X)).takeWhile (· == '\n')) =
            c'.takeWhile (· == '\n') := by
          rw [List.takeWhile_append, if_neg hne]
        rw [heq2, ← heq1, ← hc2]
        exact hrun
      · have heq1 : ((c' ++ '\n' :: X).takeWhile (· == '\n')) = c' ++ ['\n'] := by
          rw [List.takeWhile_append, if_pos heq, hX', List.takeWhile_cons,
            if_pos (by decide), List.takeWhile_cons, if_neg (by decide)]
        have heq2 : ((c' ++ '\n' :: (nl ++ X)).takeWhile (· == '\n')) =
            c' ++ '\n' :: nl := by
          rw [List.takeWhile_append, if_pos heq, List.takeWhile_cons,
            if_pos (by decide), hX',
            takeWhile_eq_of_all_head (fun c hc => beq_iff_eq.mpr (hnl c hc))
              (fun c hc => by
                simp only [List.head?_cons, Option.some.injEq] at hc
                rw [← hc]
                decide)]
        rw [heq2]
        rw [hc2, heq1] at hrun
        simp only [List.length_append, List.length_cons, List.length_singleton,
          List.length_nil] at hrun ⊢
        omega
    · -- the second match survives
      cases hDE : (c'.dropWhile (· == '\n')).isEmpty
      · -- a non-newline remains in c': shared prefix, use the insert lemma
        have hd1 : (c' ++ '\n' :: X).dropWhile (· == '\n') =
            c'.dropWhile (· == '\n') ++ '\n' :: X := by
          rw [List.dropWhile_append, if_neg (by rw [hDE]; simp)]
        have hd2 : (c' ++ '\n' :: (nl ++ X)).dropWhile (· == '\n') =
            c'.dropWhile (· == '\n') ++ '\n' :: (nl ++ X) := by
          rw [List.dropWhile_append, if_neg (by rw [hDE]; simp)]
        rw [hd2]
        rw [hc2, hd1] at hsnd
        exact matchHashWsDots_isSome_insert_nl hsnd
      · -- c' is all newlines: both sides drop to X
        have hXd : X.dropWhile (· == '\n') = X := by
          rw [hX', List.dropWhile_cons, if_neg (by decide)]
        have hd1 : (c' ++ '\n' :: X).dropWhile (· == '\n') = X := by
          rw [List.dropWhile_append, if_pos (by rw [hDE]), List.dropWhile_cons,
            if_pos (by decide), hXd]
        have hd2 : (c' ++ '\n' :: (nl ++ X)).dropWhile (· == '\n') = X := by
          rw [List.dropWhile_append, if_pos (by rw [hDE]), List.dropWhile_cons,
            if_pos (by decide), List.dropWhile_append,
            if_pos (by rw [dropWhile_all_nil (fun c hc =>
              beq_iff_eq.mpr (hnl c hc))]; rfl), hXd]
        rw [hd2]
        rw [hc2, hd1] at hsnd
        exact hsnd

/-- Any firing position in the output of the leading strip (line 42) is a
firing position of its input: the output is a suffix of the input. -/
theorem occ_lift_removeBlankBeforeFirst {z e s : List Char}
    (hsplit : removeBlankBeforeFirst z = e ++ s) :
    ∃ e', z = e' ++ s := by
  unfold removeBlankBeforeFirst at hsplit
  split at hsplit
  next hhead =>
    split at hsplit
    next g1 rest hm =>
      refine ⟨z.takeWhile (· == '\n') ++ e, ?_⟩
      have hz : z = z.takeWhile (· == '\n') ++ (g1 ++ rest) := by
        conv_lhs => rw [← List.takeWhile_append_dropWhile (· == '\n') z]
        rw [matchHashWsDots_append hm]
      conv_lhs => rw [hz]
      rw [hsplit, List.append_assoc]
    next => exact ⟨e, hsplit⟩
  next => exact ⟨e, hsplit⟩

/-- Any firing position in the output of the trailing strip (line 43) yields a
firing position of its input: the output is a prefix and firing positions
survive extension. -/
theorem occ_lift_removeBlankAfterLast {z e s : List Char}
    (hsplit : removeBlankAfterLast z = e ++ s)
    (h : blankSectionFires s = true) :
    ∃ e' s', z = e' ++ s' ∧ blankSectionFires s' = true := by
  rcases removeBlankAfterLast_shape z with hsh | ⟨pre, g1, ns, h1, h2, h3, h4, h5⟩
  · exact ⟨e, s, by rw [← hsh, hsplit], h⟩
  · refine ⟨e, s ++ ns, ?_, blankSectionFires_append ns h⟩
    rw [h1, ← List.append_assoc, ← h2, hsplit, List.append_assoc]

/-- Any firing position in the output of the yaml-gap pass (line 46) yields a
firing position of its input: it either lies in the shared suffix or spans the
frontmatter boundary, where reinserting the collapsed newlines keeps it
firing. -/
theorem occ_lift_removeYamlGapGo {t : List Char} :
    ∀ cands : List (List Char × List Char),
      (∀ p ∈ cands, p.1 ++ p.2 = t ∧ p.1.head? = some '-' ∧
        p.1.getLast? = some '-') →
      ∀ {e s : List Char}, removeYamlGapGo cands t = e ++ s →
      blankSectionFires s = true →
      ∃ e' s', t = e' ++ s' ∧ blankSectionFires s' = true := by
  intro cands
  induction cands with
  | nil =>
    intro _ e s hsplit h
    exact ⟨e, s, hsplit, h⟩
  | cons p more ih =>
    intro hc e s hsplit h
    obtain ⟨hsum, hhead, hlast⟩ := hc p (by simp)
    obtain ⟨ym, l2⟩ := p
    rw [removeYamlGapGo] at hsplit
    split at hsplit
    next hh =>
      split at hsplit
      next g5 rest hm5 =>
        -- the pass fired: its output ym ++ '\n' :: (g5 ++ rest) = e ++ s
        obtain ⟨l2', hl2'⟩ : ∃ l2', l2 = '\n' :: l2' := by
          cases l2 with
          | nil => exact absurd hh (by simp)
          | cons c cs =>
            have hc0 : c = '\n' := by simpa using hh
            exact ⟨cs, by rw [hc0]⟩
        have hgr : g5 ++ rest = l2.dropWhile (· == '\n') :=
          matchHashWsDots_append hm5
        have hX : l2.dropWhile (· == '\n') = l2'.dropWhile (· == '\n') := by
          rw [hl2', List.dropWhile_cons, if_pos (by decide)]
        have hnl : ∀ c ∈ l2'.takeWhile (· == '\n'), c = '\n' :=
          fun c hc => eq_of_beq (List.mem_takeWhile_imp (p := (· == '\n')) hc)
        have ht : t = ym ++ '\n' :: (l2'.takeWhile (· == '\n') ++ (g5 ++ rest)) := by
          rw [hgr, hX, List.takeWhile_append_dropWhile, ← hl2']
          exact hsum.symm
        have hXhead : (g5 ++ rest).head? = some '#' := by
          obtain ⟨hs5, w5, ds5, hg5, -, h5ne, h5all, -, -, -⟩ :=
            matchHashWsDots_some hm5
          rw [hg5]
          cases hs5 with
          | nil => exact absurd rfl h5ne
          | cons a as =>
            have ha := h5all a (by simp)
            simp [ha]
        have hout : (ym ++ ['\n']) ++ (g5 ++ rest) = e ++ s := by
          rw [← hsplit]
          simp
        rcases List.append_eq_append_iff.mp hout with ⟨u, hu1, hu2⟩ | ⟨u, hu1, hu2⟩
        · -- s is a suffix of g5 ++ rest
          refine ⟨ym ++ '\n' :: (l2'.takeWhile (· == '\n') ++ u), s, ?_, h⟩
          rw [ht, hu2]
          simp
        · -- s = u ++ (g5 ++ rest) with ym ++ ['\n'] = e ++ u
          cases hu0 : u with
          | nil =>
            rw [hu0] at hu2
            refine ⟨ym ++ '\n' :: l2'.takeWhile (· == '\n'), s, ?_, h⟩
            rw [ht, hu2]
            simp
          | cons u0 us =>
            obtain ⟨A, hA1⟩ : ∃ A, u = A ++ ['\n'] := by
              obtain ⟨ys, a, hys⟩ : ∃ ys a, u = ys ++ [a] := by
                rcases u.eq_nil_or_concat with h' | ⟨ys, a, h'⟩
                · rw [hu0] at h'
                  exact absurd h' (by simp)
                · exact ⟨ys, a, by simpa using h'⟩
              have ha : a = '\n' := by
                have hg := congrArg List.getLast? hu1
                rw [List.getLast?_concat] at hg
                rw [hys, ← List.append_assoc, List.getLast?_concat] at hg
                injection hg with hg0
                exact hg0.symm
              exact ⟨ys, by rw [hys, ha]⟩
            have hym : e ++ A = ym := by
              have : e ++ (A ++ ['\n']) = ym ++ ['\n'] := by rw [← hA1, hu1]
              rw [← List.append_assoc] at this
              exact List.append_cancel_right this
            have hAlast : A = [] ∨ A.getLast? = some '-' := by
              cases hA0 : A.getLast? with
              | none => exact Or.inl (List.getLast?_eq_none_iff.mp hA0)
              | some x =>
                right
                have hor : ym.getLast? = A.getLast?.or e.getLast? := by
                  rw [← hym, List.getLast?_append]
                rw [hlast, hA0] at hor
                have hor2 : some '-' = some x := hor
                injection hor2 with hx
                rw [← hx]
            have hse : s = A ++ '\n' :: (g5 ++ rest) := by
              rw [hu2, hA1]
              simp
            rw [hse] at h
            have hfire2 := blankSectionFires_insert_nl hAlast hXhead hnl h
            refine ⟨e, A ++ '\n' :: (l2'.takeWhile (· == '\n') ++ (g5 ++ rest)),
              ?_, hfire2⟩
            rw [ht, ← hym]
            simp
      next => exact ih (fun q hq => hc q (by simp [hq])) hsplit h
    next => exact ih (fun q hq => hc q (by simp [hq])) hsplit h

theorem occ_lift_removeYamlGap {z e s : List Char}
    (hsplit : removeYamlGap z = e ++ s) (h : blankSectionFires s = true) :
    ∃ e' s', z = e' ++ s' ∧ blankSectionFires s' = true :=
  occ_lift_removeYamlGapGo (yamlMatches z) (yamlMatches_facts z) hsplit h

/-! ## The lines/characters bridge for the C7 property -/

theorem joinLines_cons (l : List Char) (ls : List (List Char)) (h : ls ≠ []) :
    joinLines (l :: ls) = l ++ '\n' :: joinLines ls := by
  cases ls with
  | nil => exact absurd rfl h
  | cons m ms =>
    rw [joinLines]
    simp

theorem linesF_ne_nil (fuel : Nat) (l : List Char) : linesF fuel l ≠ [] := by
  cases fuel with
  | zero => simp [linesF]
  | succ n =>
    simp only [linesF]
    split <;> simp

/-- Joining the split lines gives the text back. -/
theorem linesF_join : ∀ (fuel : Nat) (l : List Char), l.length ≤ fuel →
    joinLines (linesF fuel l) = l := by
  intro fuel
  induction fuel with
  | zero =>
    intro l h
    rfl
  | succ n ih =>
    intro l h
    simp only [linesF]
    cases hdrop : l.dropWhile (· != '\n') with
    | nil =>
      show joinLines [l.takeWhile (· != '\n')] = l
      show l.takeWhile (· != '\n') = l
      conv_rhs => rw [← List.takeWhile_append_dropWhile (· != '\n') l]
      rw [hdrop, List.append_nil]
    | cons c rest =>
      have hc : c = '\n' := by
        have h2 := List.head?_dropWhile_not (· != '\n') l
        rw [hdrop] at h2
        simpa using h2
      have hlen : rest.length ≤ n := by
        have hsp := congrArg List.length
          (List.takeWhile_append_dropWhile (· != '\n') l)
        rw [hdrop] at hsp
        simp only [List.length_append, List.length_cons] at hsp
        omega
      show joinLines (l.takeWhile (· != '\n') :: linesF n rest) = l
      rw [joinLines_cons _ _ (linesF_ne_nil n rest), ih rest hlen]
      conv_rhs => rw [← List.takeWhile_append_dropWhile (· != '\n') l]
      rw [hdrop, hc]

theorem joinLines_append (a b : List (List Char)) (ha : a ≠ []) (hb : b ≠ []) :
    joinLines (a ++ b) = joinLines a ++ '\n' :: joinLines b := by
  induction a with
  | nil => exact absurd rfl ha
  | cons x a' ih =>
    cases a' with
    | nil =>
      rw [show ([x] ++ b) = x :: b from rfl, joinLines_cons x b hb]
      rfl
    | cons y a'' =>
      rw [show ((x :: y :: a'') ++ b) = x :: ((y :: a'') ++ b) from rfl,
        joinLines_cons x _ (by simp), joinLines_cons x (y :: a'') (by simp),
        ih (by simp)]
      simp

/-- Joining a run of empty lines contributes a newline run. -/
theorem joinLines_blanks (bs : List (List Char)) (hb : ∀ b ∈ bs, b = [])
    (L : List Char) (tl : List (List Char)) :
    joinLines (bs ++ L :: tl) =
      List.replicate bs.length '\n' ++ joinLines (L :: tl) := by
  induction bs with
  | nil => rfl
  | cons b bs' ih =>
    rw [show ((b :: bs') ++ L :: tl) = b :: (bs' ++ L :: tl) from rfl,
      joinLines_cons _ _ (by simp), hb b (by simp),
      ih (fun x hx => hb x (by simp [hx]))]
    simp [List.replicate_succ]

theorem drop_length_takeWhile_lines (p : List Char → Bool) (l : List (List Char)) :
    l.drop (l.takeWhile p).length = l.dropWhile p := by
  induction l with
  | nil => rfl
  | cons c cs ih =>
    cases h : p c <;>
      simp [List.takeWhile_cons, List.dropWhile_cons, h, ih]

/-- Elimination for a failure of the C7 property on a line list: some heading
line is followed by a nonempty run of blank lines and then a heading line. -/
theorem noBlankBetweenHeadingsGo_false {head blank : List Char → Bool} :
    ∀ ls, noBlankBetweenHeadingsGo head blank ls = false →
      ∃ pre L1 bs L2 tl, ls = pre ++ L1 :: (bs ++ L2 :: tl) ∧
        head L1 = true ∧ bs ≠ [] ∧ (∀ b ∈ bs, blank b = true) ∧
        head L2 = true := by
  intro ls
  induction ls with
  | nil =>
    intro h
    exact absurd h (by simp [noBlankBetweenHeadingsGo])
  | cons line rest ih =>
    intro h
    simp only [noBlankBetweenHeadingsGo, Bool.and_eq_false_iff] at h
    rcases h with h | h
    · rw [Bool.or_eq_false_iff] at h
      obtain ⟨h1, h2⟩ := h
      rw [Bool.or_eq_false_iff] at h2
      obtain ⟨h2a, h2b⟩ := h2
      rw [Bool.not_eq_false'] at h1
      rw [Bool.not_eq_false'] at h2b
      rw [drop_length_takeWhile_lines] at h2b
      cases hdw : rest.dropWhile blank with
      | nil =>
        rw [hdw] at h2b
        exact absurd h2b (by simp)
      | cons L2 tl =>
        rw [hdw] at h2b
        refine ⟨[], line, rest.takeWhile blank, L2, tl, ?_, h1, ?_, ?_, h2b⟩
        · rw [List.nil_append, ← hdw, List.takeWhile_append_dropWhile]
        · intro h0
          rw [h0] at h2a
          exact absurd h2a (by simp)
        · exact fun b hb => List.mem_takeWhile_imp hb
    · obtain ⟨pre, L1, bs, L2, tl, hsp, hL1, hbs, hball, hL2⟩ := ih h
      exact ⟨line :: pre, L1, bs, L2, tl, by rw [hsp]; rfl, hL1, hbs, hball, hL2⟩

/-- Elimination for a heading line: hashes, then a whitespace character, then
the rest. -/
theorem isHeadingLine_elim {L : List Char} (h : isHeadingLine L = true) :
    ∃ hs w ds, L = hs ++ w :: ds ∧ hs ≠ [] ∧ (∀ c ∈ hs, c = '#') ∧
      isJsWs w = true := by
  simp only [isHeadingLine, Bool.and_eq_true] at h
  obtain ⟨h1, h2⟩ := h
  rw [drop_length_takeWhile] at h2
  cases hdw : L.dropWhile (· == '#') with
  | nil =>
    rw [hdw] at h2
    exact absurd h2 (by simp)
  | cons w ds =>
    rw [hdw] at h2
    refine ⟨L.takeWhile (· == '#'), w, ds, ?_, ?_, ?_, h2⟩
    · conv_lhs => rw [← List.takeWhile_append_dropWhile (· == '#') L]
      rw [hdw]
    · intro h0
      rw [Bool.not_eq_true'] at h1
      rw [h0] at h1
      exact absurd h1 (by simp)
    · exact fun c hc => eq_of_beq (List.mem_takeWhile_imp (p := (· == '#')) hc)

/-- A failure of the C7 property in a text puts a firing position of the
collapse pattern in the text. -/
theorem noBlankBetween_false_occurrence {v : List Char}
    (h : noBlankBetweenHeadings isCleanHeadingLine isEmptyLine v = false) :
    ∃ e s, v = e ++ s ∧ blankSectionFires s = true := by
  unfold noBlankBetweenHeadings at h
  obtain ⟨pre, L1, bs, L2, tl, hsplit, hL1, hbs, hbsall, hL2⟩ :=
    noBlankBetweenHeadingsGo_false _ h
  have hv : v = joinLines (linesOf v) := (linesF_join v.length v (le_refl _)).symm
  rw [hsplit] at hv
  have hrest1ne : (L1 :: (bs ++ L2 :: tl) : List (List Char)) ≠ [] := by simp
  obtain ⟨e0, he0⟩ : ∃ e0, v = e0 ++ joinLines (L1 :: (bs ++ L2 :: tl)) := by
    cases pre with
    | nil => exact ⟨[], by simpa using hv⟩
    | cons p ps =>
      rw [joinLines_append (p :: ps) _ (by simp) hrest1ne] at hv
      exact ⟨joinLines (p :: ps) ++ ['\n'], by rw [hv]; simp⟩
  refine ⟨e0, joinLines (L1 :: (bs ++ L2 :: tl)), he0, ?_⟩
  have hJ : joinLines (L1 :: (bs ++ L2 :: tl)) =
      L1 ++ '\n' :: (List.replicate bs.length '\n' ++ joinLines (L2 :: tl)) := by
    rw [joinLines_cons _ _ (by simp), joinLines_blanks bs (fun b hb => by
      have hblank := hbsall b hb
      simpa [isEmptyLine, List.isEmpty_iff] using hblank) L2 tl]
  have hL1head : isHeadingLine L1 = true := by
    simp only [isCleanHeadingLine, Bool.and_eq_true] at hL1
    exact hL1.1
  have hL1dots : ∀ c ∈ L1, isDotChar c = true := by
    simp only [isCleanHeadingLine, Bool.and_eq_true, List.all_eq_true] at hL1
    exact fun c hc => hL1.2 c hc
  have hL2head : isHeadingLine L2 = true := by
    simp only [isCleanHeadingLine, Bool.and_eq_true] at hL2
    exact hL2.1
  obtain ⟨hs1, w1, ds1, hL1e, hs1ne, hs1all, hw1⟩ := isHeadingLine_elim hL1head
  obtain ⟨hs2, w2, ds2, hL2e, hs2ne, hs2all, hw2⟩ := isHeadingLine_elim hL2head
  obtain ⟨y', hy'⟩ : ∃ y', joinLines (L2 :: tl) = L2 ++ y' := by
    cases tl with
    | nil => exact ⟨[], by rw [joinLines, List.append_nil]⟩
    | cons m ms => exact ⟨'\n' :: joinLines (m :: ms), joinLines_cons _ _ (by simp)⟩
  have hL2cons : ∃ hs2', hs2 = '#' :: hs2' := by
    cases hs2 with
    | nil => exact absurd rfl hs2ne
    | cons a as =>
      have ha := hs2all a (by simp)
      exact ⟨as, by rw [ha]⟩
  obtain ⟨hs2', hhs2'⟩ := hL2cons
  have hm : matchHashWsDots (joinLines (L1 :: (bs ++ L2 :: tl))) =
      some (L1, '\n' :: (List.replicate bs.length '\n' ++ (L2 ++ y'))) := by
    rw [hJ, hy']
    conv_lhs => rw [hL1e]
    rw [show (hs1 ++ w1 :: ds1) ++
        '\n' :: (List.replicate bs.length '\n' ++ (L2 ++ y'))
        = hs1 ++ w1 :: (ds1 ++ '\n' :: (List.replicate bs.length '\n' ++ (L2 ++ y')))
        from by simp, hL1e]
    exact matchHashWsDots_intro hs1ne hs1all hw1
      (fun c hc => hL1dots c (by rw [hL1e]; simp [hc]))
      (fun c hc => by
        simp only [List.head?_cons, Option.some.injEq] at hc
        rw [← hc]
        decide)
  refine blankSectionFires_intro hm ?_ ?_
  · rw [show ('\n' :: (List.replicate bs.length '\n' ++ (L2 ++ y')))
        = ('\n' :: List.replicate bs.length '\n') ++ (L2 ++ y') from by simp,
      takeWhile_eq_of_all_head (fun c hc => by
        simp only [List.mem_cons, List.mem_replicate] at hc
        rcases hc with hc | hc
        · rw [hc]; decide
        · rw [hc.2]; decide) (fun c hc => by
        rw [hL2e, hhs2'] at hc
        simp only [List.cons_append, List.head?_cons, Option.some.injEq] at hc
        rw [← hc]
        decide)]
    have hbslen : 1 ≤ bs.length := by
      cases bs with
      | nil => exact absurd rfl hbs
      | cons b bs' => simp
    simp only [List.length_cons, List.length_replicate]
    omega
  · rw [show ('\n' :: (List.replicate bs.length '\n' ++ (L2 ++ y')))
        = ('\n' :: List.replicate bs.length '\n') ++ (L2 ++ y') from by simp,
      List.dropWhile_append, if_pos (by
        rw [dropWhile_all_nil (fun c hc => by
          simp only [List.mem_cons, List.mem_replicate] at hc
          rcases hc with hc | hc
          · rw [hc]; rfl
          · rw [hc.2]; rfl)]
        rfl),
      show (L2 ++ y').dropWhile (· == '\n') = L2 ++ y' from by
        rw [hL2e, hhs2']
        simp only [List.cons_append, List.append_assoc]
        rw [List.dropWhile_cons, if_neg (by decide)]]
    rw [hL2e, show (hs2 ++ w2 :: ds2) ++ y' = hs2 ++ w2 :: (ds2 ++ y') from by simp]
    exact matchHashWsDots_isSome_of hs2ne hs2all hw2

/-- C7 (amended): with `emptyLineInBlankSections = false`, on a region-free
text, the output of `apply` contains no run of empty lines directly between
two clean heading lines (heading lines without carriage returns or Unicode
line separators), whatever the other options — the collapse loop removes such
runs and the later passes cannot recreate one; and the collapse step never
merges the two heading matches onto one line: its replacement is always the
two matched groups separated by exactly one newline.  The original claim's
"zero blank lines" fails for whitespace-only blank lines, which are not
newline runs, and for headings inside protected regions. -/
theorem c7_collapse_amended (t : List Char) (o : HeadingBlankLinesOptions)
    (hR : RegionFree t) (hE : o.emptyLineInBlankSections = false) :
    noBlankBetweenHeadings isCleanHeadingLine isEmptyLine (apply t o) = true ∧
    (∀ (bol : Bool) (l out : List Char) (b2 : Bool) (rest : List Char),
      blankSectionStep.go bol l = some (out, b2, rest) →
      ∃ g1 g2 l2, matchHashWsDots l = some (g1, l2) ∧
        matchHashWsDots (l2.dropWhile (· == '\n')) = some (g2, rest) ∧
        out = g1 ++ '\n' :: g2) := by
  constructor
  · cases hcon : noBlankBetweenHeadings isCleanHeadingLine isEmptyLine (apply t o)
    case true => rfl
    case false =>
      exfalso
      rw [apply_eq_applyCore hR o] at hcon
      have hcore : applyCore t o =
          (if (!o.emptyLineAfterYaml) = true then
            removeYamlGap (removeBlankAfterLast (removeBlankBeforeFirst
              (collapseBlankSections
                (if (!o.bottom) = true then trimBlankBefore (trimBlankAfter t)
                 else forceOneBlankAfter (trimBlankBefore (surroundHeadings t))))))
          else removeBlankAfterLast (removeBlankBeforeFirst
            (collapseBlankSections
              (if (!o.bottom) = true then trimBlankBefore (trimBlankAfter t)
               else forceOneBlankAfter (trimBlankBefore (surroundHeadings t)))))) := by
        unfold applyCore
        rw [hE]
        rfl
      rw [hcore] at hcon
      obtain ⟨e, s, hsplit, hfire⟩ := noBlankBetween_false_occurrence hcon
      rcases Bool.eq_false_or_eq_true o.emptyLineAfterYaml with hEY | hEY
      · rw [hEY] at hsplit
        rw [if_neg (by decide)] at hsplit
        obtain ⟨e2, s2, hsplit2, hfire2⟩ := occ_lift_removeBlankAfterLast hsplit hfire
        obtain ⟨e3, hsplit3⟩ := occ_lift_removeBlankBeforeFirst hsplit2
        exact collapse_no_occurrence hsplit3 hfire2
      · rw [hEY] at hsplit
        rw [if_pos (by decide)] at hsplit
        obtain ⟨e1, s1, hsplit1, hfire1⟩ := occ_lift_removeYamlGap hsplit hfire
        obtain ⟨e2, s2, hsplit2, hfire2⟩ := occ_lift_removeBlankAfterLast hsplit1 hfire1
        obtain ⟨e3, hsplit3⟩ := occ_lift_removeBlankBeforeFirst hsplit2
        exact collapse_no_occurrence hsplit3 hfire2
  · intro bol l out b2 rest hgo
    unfold blankSectionStep at hgo
    simp only at hgo
    split at hgo
    next g1 l2 hm =>
      split at hgo
      next hrun =>
        split at hgo
        next g2 rest2 hm2 =>
          rw [Option.some.injEq, Prod.mk.injEq, Prod.mk.injEq] at hgo
          obtain ⟨hout, -, hrest⟩ := hgo
          refine ⟨g1, g2, l2, hm, ?_, hout.symm⟩
          rw [← hrest]
          exact hm2
        next => exact absurd hgo (by simp)
      next => exact absurd hgo (by simp)
    next => exact absurd hgo (by simp)

/-- Witness for the amended C7 on the region-free text `"# a\n\n# b"` with
`bottom = false` and `emptyLineInBlankSections = false`. -/
theorem c7_collapse_amended_witness :
    RegionFree "# a\n\n# b".data ∧
    (noBlankBetweenHeadings isCleanHeadingLine isEmptyLine
        (apply "# a\n\n# b".data
          { bottom := false, emptyLineInBlankSections := false }) = true ∧
     (∀ (bol : Bool) (l out : List Char) (b2 : Bool) (rest : List Char),
       blankSectionStep.go bol l = some (out, b2, rest) →
       ∃ g1 g2 l2, matchHashWsDots l = some (g1, l2) ∧
         matchHashWsDots (l2.dropWhile (· == '\n')) = some (g2, rest) ∧
         out = g1 ++ '\n' :: g2)) :=
  ⟨by unfold RegionFree; exact ⟨by decide, by decide, by decide, by decide, by decide⟩,
   c7_collapse_amended "# a\n\n# b".data
     { bottom := false, emptyLineInBlankSections := false }
     (by unfold RegionFree; exact ⟨by decide, by decide, by decide, by decide, by decide⟩)
     rfl⟩

/-! ## C10: the before-heading pass leaves exactly one blank line -/



theorem noHashOnlyStarts_suffix {v : List Char} (x : List Char)
    (h : noHashOnlyStarts (x ++ v)) : noHashOnlyStarts v := by
  intro a b hab
  exact h (x ++ a) b (by rw [hab]; simp)

theorem noHashOnlyStarts_cons {c : Char} {v : List Char}
    (h : noHashOnlyStarts (c :: v)) : noHashOnlyStarts v :=
  noHashOnlyStarts_suffix [c] h

/-- A heading first line makes the match succeed. -/
theorem isHeadingLine_line_isSome {m : List Char}
    (h : isHeadingLine (m.takeWhile (· != '\n')) = true) :
    (matchHashWsDots m).isSome = true := by
  obtain ⟨hs, w, ds, hline, hne, hall, hw⟩ := isHeadingLine_elim h
  have hm : m = hs ++ w :: (ds ++ m.dropWhile (· != '\n')) := by
    conv_lhs => rw [← List.takeWhile_append_dropWhile (· != '\n') m]
    rw [hline]
    simp
  rw [hm]
  exact matchHashWsDots_isSome_of hne hall hw

/-- A successful match means the text starts with a hash. -/
theorem matchHashWsDots_isSome_head {m : List Char}
    (h : (matchHashWsDots m).isSome = true) : m.head? = some '#' := by
  obtain ⟨⟨g, r⟩, hm⟩ := Option.isSome_iff_exists.mp h
  obtain ⟨hs, w, ds, -, hl, hne, hall, -, -, -⟩ := matchHashWsDots_some hm
  rw [hl]
  cases hs with
  | nil => exact absurd rfl hne
  | cons a as =>
    have ha := hall a (by simp)
    simp [ha]

/-- The before-heading pass preserves the first character. -/
theorem beforeHeading_head (fuel : Nat) :
    ∀ (bol : Bool) (l : List Char),
      (runStepF beforeHeadingStep fuel bol l).head? = l.head? := by
  induction fuel with
  | zero => intro bol l; rfl
  | succ n ih =>
    intro bol l
    cases l with
    | nil => rfl
    | cons c cs =>
      rw [runStepF]
      cases hgo : beforeHeadingStep.go bol (c :: cs) with
      | none => rfl
      | some res =>
        obtain ⟨out, bol2, rest⟩ := res
        simp only []
        unfold beforeHeadingStep at hgo
        simp only at hgo
        split at hgo
        next hh =>
          split at hgo
          next g1 r hm =>
            rw [Option.some.injEq, Prod.mk.injEq, Prod.mk.injEq] at hgo
            obtain ⟨hout, -, -⟩ := hgo
            rw [← hout]
            have hc : c = '\n' := by simpa using hh
            rw [hc]
            rfl
          next => exact absurd hgo (by simp)
        next => exact absurd hgo (by simp)

/-- The before-heading pass preserves the first line. -/
theorem beforeHeading_firstLine (fuel : Nat) :
    ∀ (bol : Bool) (l : List Char),
      (runStepF beforeHeadingStep fuel bol l).takeWhile (· != '\n') =
        l.takeWhile (· != '\n') := by
  induction fuel with
  | zero => intro bol l; rfl
  | succ n ih =>
    intro bol l
    cases l with
    | nil => rfl
    | cons c cs =>
      rw [runStepF]
      cases hgo : beforeHeadingStep.go bol (c :: cs) with
      | none =>
        simp only []
        cases hc : (c == '\n')
        · have hc' : (c != '\n') = true := by
            simp only [bne]
            rw [hc]
            rfl
          rw [List.takeWhile_cons, if_pos hc', List.takeWhile_cons, if_pos hc', ih]
        · have hc2 : c = '\n' := eq_of_beq hc
          rw [hc2, List.takeWhile_cons, if_neg (by decide),
            List.takeWhile_cons, if_neg (by decide)]
      | some res =>
        obtain ⟨out, bol2, rest⟩ := res
        simp only []
        unfold beforeHeadingStep at hgo
        simp only at hgo
        split at hgo
        next hh =>
          split at hgo
          next g1 r hm =>
            rw [Option.some.injEq, Prod.mk.injEq, Prod.mk.injEq] at hgo
            obtain ⟨hout, -, -⟩ := hgo
            rw [← hout]
            have hc : c = '\n' := by simpa using hh
            rw [hc, List.takeWhile_cons, if_neg (by decide)]
            rfl
          next => exact absurd hgo (by simp)
        next => exact absurd hgo (by simp)

theorem first_line_mem : ∀ (fuel : Nat) (l : List Char), l.length ≤ fuel →
    l.takeWhile (· != '\n') ∈ linesF fuel l := by
  intro fuel l h
  cases fuel with
  | zero =>
    have hl : l = [] := by
      cases l with
      | nil => rfl
      | cons c cs => exact absurd h (by simp)
    rw [hl]
    simp [linesF]
  | succ n =>
    simp only [linesF]
    split <;> simp

/-- Every newline-started line of a text is among its lines. -/
theorem line_mem : ∀ (fuel : Nat) (l a b : List Char), l.length ≤ fuel →
    l = a ++ '\n' :: b → b.takeWhile (· != '\n') ∈ linesF fuel l := by
  intro fuel
  induction fuel with
  | zero =>
    intro l a b h hl
    have : l ≠ [] := by rw [hl]; simp
    cases l with
    | nil => exact absurd rfl this
    | cons c cs => exact absurd h (by simp)
  | succ n ih =>
    intro l a b h hl
    simp only [linesF]
    cases hdrop : l.dropWhile (· != '\n') with
    | nil =>
      exfalso
      have hmem : '\n' ∈ l := by rw [hl]; simp
      have : '\n' ∈ l.takeWhile (· != '\n') := by
        rw [← List.takeWhile_append_dropWhile (· != '\n') l, hdrop,
          List.append_nil] at hmem
        exact hmem
      have := List.mem_takeWhile_imp (p := (· != '\n')) this
      simp at this
    | cons c rest0 =>
      simp only []
      have hc : c = '\n' := by
        have h2 := List.head?_dropWhile_not (· != '\n') l
        rw [hdrop] at h2
        simpa using h2
      have hsplit : l = l.takeWhile (· != '\n') ++ '\n' :: rest0 := by
        conv_lhs => rw [← List.takeWhile_append_dropWhile (· != '\n') l]
        rw [hdrop, hc]
      have hlen : rest0.length ≤ n := by
        have := congrArg List.length hsplit
        simp only [List.length_append, List.length_cons] at this
        omega
      by_cases hmem : '\n' ∈ a
      · -- the first newline of l is inside a: recurse into rest0
        have ha : a = a.takeWhile (· != '\n') ++ '\n' :: (a.dropWhile (· != '\n')).tail := by
          have hd : a.dropWhile (· != '\n') ≠ [] := by
            intro h0
            rw [← List.takeWhile_append_dropWhile (· != '\n') a, h0,
              List.append_nil] at hmem
            have := List.mem_takeWhile_imp (p := (· != '\n')) hmem
            simp at this
          cases hd2 : a.dropWhile (· != '\n') with
          | nil => exact absurd hd2 hd
          | cons d ds =>
            have hdd : d = '\n' := by
              have h2 := List.head?_dropWhile_not (· != '\n') a
              rw [hd2] at h2
              simpa using h2
            conv_lhs => rw [← List.takeWhile_append_dropWhile (· != '\n') a]
            rw [hd2, hdd]
            rfl
        have hldecomp : l = a.takeWhile (· != '\n') ++
            '\n' :: ((a.dropWhile (· != '\n')).tail ++ '\n' :: b) := by
          rw [hl]
          conv_lhs => rw [ha]
          simp
        have hfirst : l.takeWhile (· != '\n') = a.takeWhile (· != '\n') := by
          conv_lhs => rw [hldecomp]
          exact takeWhile_eq_of_all_head
            (fun c hc => List.mem_takeWhile_imp (p := (· != '\n')) hc)
            (fun c hc => by
              simp only [List.head?_cons, Option.some.injEq] at hc
              rw [← hc]
              decide)
        have hrest0 : rest0 = (a.dropWhile (· != '\n')).tail ++ '\n' :: b := by
          have h1 : l.takeWhile (· != '\n') ++ '\n' :: rest0 =
              l.takeWhile (· != '\n') ++
              '\n' :: ((a.dropWhile (· != '\n')).tail ++ '\n' :: b) := by
            rw [← hsplit, hfirst]
            exact hldecomp
          have h2 := List.append_cancel_left h1
          have h3 := congrArg List.tail h2
          simpa using h3
        refine List.mem_cons_of_mem _ ?_
        exact ih rest0 _ b hlen hrest0
      · -- a is the first line: b's line is rest0's first line or deeper
        have ha : l.takeWhile (· != '\n') = a := by
          rw [hl]
          exact takeWhile_eq_of_all_head
            (fun c hc => by
              cases hcc : (c != '\n')
              · exfalso
                have : c = '\n' := by
                  simpa [bne] using hcc
                rw [this] at hc
                exact hmem hc
              · rfl)
            (fun c hc => by
              simp only [List.head?_cons, Option.some.injEq] at hc
              rw [← hc]
              decide)
        have hrest0 : rest0 = b := by
          have h1 : l.takeWhile (· != '\n') ++ '\n' :: rest0 = a ++ '\n' :: b := by
            rw [← hsplit, hl]
          rw [ha] at h1
          have h2 := List.append_cancel_left h1
          have h3 := congrArg List.tail h2
          simpa using h3
        rw [hrest0]
        refine List.mem_cons_of_mem _ (first_line_mem n b ?_)
        rw [← hrest0]
        exact hlen

/-- The line-list hypothesis gives the char-level one. -/
theorem noHashOnlyStarts_of_noHashOnlyLines {t : List Char}
    (h : noHashOnlyLines t = true) : noHashOnlyStarts t := by
  intro a b hab
  unfold noHashOnlyLines at h
  rw [List.all_eq_true] at h
  have hmem : b.takeWhile (· != '\n') ∈ linesOf t :=
    line_mem t.length t a b (le_refl _) hab
  have := h _ hmem
  rw [Bool.not_eq_true'] at this
  exact this

/-- The first line of a text that continues after a newline. -/
theorem takeWhile_ne_nl_append (A Y : List Char) :
    ((A ++ '\n' :: Y).takeWhile (· != '\n')) = A.takeWhile (· != '\n') := by
  rw [List.takeWhile_append]
  split
  next hfull =>
    have hself : A.takeWhile (· != '\n') = A :=
      (List.takeWhile_prefix _).eq_of_length hfull
    rw [List.takeWhile_cons, if_neg (by decide), List.append_nil, hself]
  next => rfl

/-- The blank-trimming pass after headings (source line 30) preserves the
first line. -/
theorem afterHeading_firstLine (fuel : Nat) :
    ∀ (bol : Bool) (l : List Char),
      (runStepF (afterHeadingStep ['\n']) fuel bol l).takeWhile (· != '\n') =
        l.takeWhile (· != '\n') := by
  induction fuel with
  | zero => intro bol l; rfl
  | succ n ih =>
    intro bol l
    cases l with
    | nil => rfl
    | cons c cs =>
      rw [runStepF]
      cases hgo : (afterHeadingStep ['\n']).go bol (c :: cs) with
      | none =>
        simp only []
        cases hc : (c == '\n')
        · have hc' : (c != '\n') = true := by
            simp only [bne]
            rw [hc]
            rfl
          rw [List.takeWhile_cons, if_pos hc', List.takeWhile_cons, if_pos hc', ih]
        · have hc2 : c = '\n' := eq_of_beq hc
          rw [hc2, List.takeWhile_cons, if_neg (by decide),
            List.takeWhile_cons, if_neg (by decide)]
      | some res =>
        obtain ⟨out, bol2, rest⟩ := res
        simp only []
        unfold afterHeadingStep at hgo
        simp only at hgo
        split at hgo
        next hbol =>
          split at hgo
          next g1 l3 hm =>
            split at hgo
            next hh3 =>
              rw [Option.some.injEq, Prod.mk.injEq, Prod.mk.injEq] at hgo
              obtain ⟨hout, -, hrest⟩ := hgo
              rw [← hout]
              obtain ⟨l3', hl3'⟩ : ∃ l3', l3 = '\n' :: l3' := by
                cases l3 with
                | nil => exact absurd hh3 (by simp)
                | cons d ds =>
                  have hd : d = '\n' := by simpa using hh3
                  exact ⟨ds, by rw [hd]⟩
              have hcs : c :: cs = g1 ++ '\n' :: l3' := by
                rw [← matchHashWsDots_append hm, hl3']
              rw [hcs, takeWhile_ne_nl_append]
              rw [show g1 ++ ['\n'] ++ runStepF (afterHeadingStep ['\n']) n bol2 rest
                  = g1 ++ '\n' :: runStepF (afterHeadingStep ['\n']) n bol2 rest
                  from by simp, takeWhile_ne_nl_append]
            next => exact absurd hgo (by simp)
          next => exact absurd hgo (by simp)
        next => exact absurd hgo (by simp)

/-- The blank-trimming pass after headings keeps every newline-started line
free of the hash-only shape. -/
theorem trimBlankAfter_NH (fuel : Nat) :
    ∀ (bol : Bool) (l : List Char), l.length ≤ fuel → noHashOnlyStarts l →
      noHashOnlyStarts (runStepF (afterHeadingStep ['\n']) fuel bol l) := by
  induction fuel with
  | zero => intro bol l _ hNH; exact hNH
  | succ n ih =>
    intro bol l hlen hNH
    cases l with
    | nil =>
      intro a b hab
      simp only [runStepF] at hab
      exact absurd hab.symm (by simp)
    | cons c cs =>
      rw [runStepF]
      cases hgo : (afterHeadingStep ['\n']).go bol (c :: cs) with
      | none =>
        simp only []
        intro a b hab
        cases a with
        | nil =>
          have hc : c = '\n' := by
            have := congrArg List.head? hab
            simpa using this
          have hb : b = runStepF (afterHeadingStep ['\n']) n (isLineTerm c) cs := by
            have := congrArg List.tail hab
            simpa using this.symm
          rw [hb, afterHeading_firstLine]
          exact hNH [] cs (by rw [hc]; simp)
        | cons a0 a' =>
          have htail : runStepF (afterHeadingStep ['\n']) n (isLineTerm c) cs
              = a' ++ '\n' :: b := by
            have := congrArg List.tail hab
            simpa using this
          exact ih (isLineTerm c) cs (by simp at hlen; omega)
            (noHashOnlyStarts_cons hNH) a' b htail
      | some res =>
        obtain ⟨out, bol2, rest⟩ := res
        simp only []
        unfold afterHeadingStep at hgo
        simp only at hgo
        split at hgo
        next hbol =>
          split at hgo
          next g1 l3 hm =>
            split at hgo
            next hh3 =>
              rw [Option.some.injEq, Prod.mk.injEq, Prod.mk.injEq] at hgo
              obtain ⟨hout, -, hrest⟩ := hgo
              rw [← hout, ← hrest]
              obtain ⟨l3', hl3'⟩ : ∃ l3', l3 = '\n' :: l3' := by
                cases l3 with
                | nil => exact absurd hh3 (by simp)
                | cons d ds =>
                  have hd : d = '\n' := by simpa using hh3
                  exact ⟨ds, by rw [hd]⟩
              obtain ⟨hs, w, ds, hg, hl, hhsne, hhsall, hw, hds, -⟩ :=
                matchHashWsDots_some hm
              have hcs : c :: cs = g1 ++ l3 := (matchHashWsDots_append hm).symm
              have hrest2 : l3.dropWhile (· == '\n') = l3'.dropWhile (· == '\n') := by
                rw [hl3', List.dropWhile_cons, if_pos (by decide)]
              have hNHrest : noHashOnlyStarts (l3.dropWhile (· == '\n')) := by
                have hsuf : c :: cs = (g1 ++ l3.takeWhile (· == '\n')) ++
                    l3.dropWhile (· == '\n') := by
                  rw [List.append_assoc, List.takeWhile_append_dropWhile]
                  exact hcs
                rw [hsuf] at hNH
                exact noHashOnlyStarts_suffix _ hNH
              have hlenrest : (l3.dropWhile (· == '\n')).length ≤ n := by
                have h1 := congrArg List.length hcs
                have h2 := congrArg List.length
                  (List.takeWhile_append_dropWhile (· == '\n') l3)
                have h3 : g1.length ≥ 1 := by
                  cases g1 with
                  | nil => exact absurd rfl (matchHashWsDots_ne_nil hm)
                  | cons x xs => simp
                have h4 : (l3.takeWhile (· == '\n')).length ≥ 1 := by
                  rw [hl3', List.takeWhile_cons, if_pos (by decide)]
                  simp
                simp only [List.length_cons, List.length_append] at h1 h2 hlen
                omega
              have ihrest := ih bol2 (l3.dropWhile (· == '\n')) hlenrest hNHrest
              intro a b hab
              have hab2 : g1 ++ '\n' ::
                  runStepF (afterHeadingStep ['\n']) n bol2 (l3.dropWhile (· == '\n'))
                  = a ++ '\n' :: b := by
                rw [← hab]
                simp
              rcases List.append_eq_append_iff.mp hab2 with ⟨u, hu1, hu2⟩ | ⟨u, hu1, hu2⟩
              · cases u with
                | nil =>
                  have hb : runStepF (afterHeadingStep ['\n']) n bol2
                      (l3.dropWhile (· == '\n')) = b := by
                    have := congrArg List.tail hu2
                    simpa using this
                  rw [← hb, afterHeading_firstLine]
                  refine hNH (g1 ++ (l3.takeWhile (· == '\n')).dropLast)
                    (l3.dropWhile (· == '\n')) ?_
                  have h4 : l3.takeWhile (· == '\n') =
                      (l3.takeWhile (· == '\n')).dropLast ++ ['\n'] := by
                    rw [hl3']
                    rw [List.takeWhile_cons, if_pos (by decide)]
                    obtain ⟨ys, y, hys⟩ : ∃ ys y,
                        '\n' :: l3'.takeWhile (· == '\n') = ys ++ [y] := by
                      rcases ('\n' :: l3'.takeWhile (· == '\n')).eq_nil_or_concat
                        with h' | ⟨ys, y, h'⟩
                      · exact absurd h' (by simp)
                      · exact ⟨ys, y, by simpa using h'⟩
                    have hy : y = '\n' := by
                      have : y ∈ '\n' :: l3'.takeWhile (· == '\n') := by
                        rw [hys]; simp
                      rcases List.mem_cons.mp this with h' | h'
                      · exact h'
                      · exact eq_of_beq (List.mem_takeWhile_imp (p := (· == '\n')) h')
                    rw [hys, hy, List.dropLast_concat]
                  rw [hcs]
                  conv_lhs => rw [← List.takeWhile_append_dropWhile (· == '\n') l3]
                  conv_lhs => rw [h4]
                  simp
                | cons x u' =>
                  have htail : runStepF (afterHeadingStep ['\n']) n bol2
                      (l3.dropWhile (· == '\n')) = u' ++ '\n' :: b := by
                    have := congrArg List.tail hu2
                    simpa using this
                  exact ihrest u' b htail
              · cases u with
                | nil =>
                  have hb : runStepF (afterHeadingStep ['\n']) n bol2
                      (l3.dropWhile (· == '\n')) = b := by
                    have h0 : ('\n' : Char) :: b = '\n' ::
                        runStepF (afterHeadingStep ['\n']) n bol2
                          (l3.dropWhile (· == '\n')) := by simpa using hu2
                    have := congrArg List.tail h0
                    simpa using this.symm
                  rw [← hb, afterHeading_firstLine]
                  refine hNH (g1 ++ (l3.takeWhile (· == '\n')).dropLast)
                    (l3.dropWhile (· == '\n')) ?_
                  have h4 : l3.takeWhile (· == '\n') =
                      (l3.takeWhile (· == '\n')).dropLast ++ ['\n'] := by
                    rw [hl3']
                    rw [List.takeWhile_cons, if_pos (by decide)]
                    obtain ⟨ys, y, hys⟩ : ∃ ys y,
                        '\n' :: l3'.takeWhile (· == '\n') = ys ++ [y] := by
                      rcases ('\n' :: l3'.takeWhile (· == '\n')).eq_nil_or_concat
                        with h' | ⟨ys, y, h'⟩
                      · exact absurd h' (by simp)
                      · exact ⟨ys, y, by simpa using h'⟩
                    have hy : y = '\n' := by
                      have : y ∈ '\n' :: l3'.takeWhile (· == '\n') := by
                        rw [hys]; simp
                      rcases List.mem_cons.mp this with h' | h'
                      · exact h'
                      · exact eq_of_beq (List.mem_takeWhile_imp (p := (· == '\n')) h')
                    rw [hys, hy, List.dropLast_concat]
                  rw [hcs]
                  conv_lhs => rw [← List.takeWhile_append_dropWhile (· == '\n') l3]
                  conv_lhs => rw [h4]
                  simp
                | cons x u' =>
                  -- the split newline lies inside the matched group: it is the
                  -- group's whitespace, and the line after it is the dot run
                  have hx : x = '\n' := by
                    have := congrArg List.head? hu2
                    simpa using this.symm
                  have hbu : b = u' ++ '\n' ::
                      runStepF (afterHeadingStep ['\n']) n bol2
                        (l3.dropWhile (· == '\n')) := by
                    have := congrArg List.tail hu2
                    simpa using this
                  rw [hx] at hu1
                  have hdsnl : ∀ c ∈ ds, (c != '\n') = true := by
                    intro c hc
                    have hdot := hds c hc
                    cases hcc : (c != '\n')
                    · exfalso
                      have : c = '\n' := by simpa [bne] using hcc
                      rw [this] at hdot
                      exact absurd hdot (by decide)
                    · rfl
                  have hdsself : ds.takeWhile (· != '\n') = ds := by
                    have h0 : ((ds ++ ([] : List Char)).takeWhile (· != '\n')) = ds :=
                      takeWhile_eq_of_all_head hdsnl (fun c hc => by simp at hc)
                    rw [List.append_nil] at h0
                    exact h0
                  have hmain : w = '\n' ∧ ds = u' → isHashOnlyLine
                      (b.takeWhile (· != '\n')) = false := by
                    rintro ⟨hwn, hdsu⟩
                    have hbline : b.takeWhile (· != '\n') = ds := by
                      rw [hbu, ← hdsu, takeWhile_ne_nl_append, hdsself]
                    rw [hbline]
                    have hlNH := hNH hs (ds ++ l3) (by
                      rw [hcs, hg, hwn]
                      simp)
                    rw [hl3', takeWhile_ne_nl_append, hdsself] at hlNH
                    exact hlNH
                  have hg1 : hs ++ (w :: ds) = a ++ ('\n' :: u') := by
                    rw [← hu1, hg]
                  rcases List.append_eq_append_iff.mp hg1 with ⟨z, hz1, hz2⟩ | ⟨z, hz1, hz2⟩
                  · cases z with
                    | nil =>
                      refine hmain ⟨?_, ?_⟩
                      · have := congrArg List.head? hz2
                        simpa using this
                      · have := congrArg List.tail hz2
                        simpa using this
                    | cons y z' =>
                      exfalso
                      have hds2 : ds = z' ++ '\n' :: u' := by
                        have := congrArg List.tail hz2
                        simpa using this
                      have hmem : ('\n' : Char) ∈ ds := by rw [hds2]; simp
                      exact absurd (hds '\n' hmem) (by decide)
                  · cases z with
                    | nil =>
                      refine hmain ⟨?_, ?_⟩
                      · have h0 : ('\n' : Char) :: u' = w :: ds := by simpa using hz2
                        have := congrArg List.head? h0
                        simpa using this.symm
                      · have h0 : ('\n' : Char) :: u' = w :: ds := by simpa using hz2
                        have := congrArg List.tail h0
                        simpa using this.symm
                    | cons zz z'' =>
                      exfalso
                      have hzz : zz = '\n' := by
                        have := congrArg List.head? hz2
                        simpa using this.symm
                      have hmem : zz ∈ hs := by rw [hz1]; simp
                      have := hhsall zz hmem
                      rw [hzz] at this
                      exact absurd this (by decide)
            next => exact absurd hgo (by simp)
          next => exact absurd hgo (by simp)
        next => exact absurd hgo (by simp)

theorem getLast_append_left_ne {X Y : List Char} (hY : Y ≠ []) :
    (X ++ Y).getLast? = Y.getLast? := by
  obtain ⟨ys, y, hys⟩ : ∃ ys y, Y = ys ++ [y] := by
    rcases Y.eq_nil_or_concat with h' | ⟨ys, y, h'⟩
    · exact absurd h' hY
    · exact ⟨ys, y, by simpa using h'⟩
  rw [hys, ← List.append_assoc, List.getLast?_concat, List.getLast?_concat]

/-- The main invariant of the before-heading pass (source lines 31/34): in its
output, the text before any heading line start is either in the good shape
(one newline after a nonempty line) or the single newline of a match at the
very beginning. -/
theorem trimBlankBefore_inv (fuel : Nat) :
    ∀ (bol : Bool) (l : List Char), l.length ≤ fuel → noHashOnlyStarts l →
      ∀ u r, runStepF beforeHeadingStep fuel bol l = u ++ '\n' :: r →
        isHeadingLine (r.takeWhile (· != '\n')) = true →
        blankBeforeOK u ∨
        (u = ['\n'] ∧ (matchHashWsDots (l.dropWhile (· == '\n'))).isSome = true ∧
          (matchHashWsDots r).isSome = true) := by
  induction fuel with
  | zero =>
    intro bol l hlen _ u r hsplit _
    have hl : l = [] := by
      cases l with
      | nil => rfl
      | cons c cs => exact absurd hlen (by simp)
    rw [hl] at hsplit
    exact absurd hsplit.symm (by simp [runStepF])
  | succ n ih =>
    intro bol l hlen hNH u r hsplit hHL
    cases l with
    | nil =>
      simp only [runStepF] at hsplit
      exact absurd hsplit.symm (by simp)
    | cons c cs =>
      rw [runStepF] at hsplit
      cases hgo : beforeHeadingStep.go bol (c :: cs) with
      | none =>
        rw [hgo] at hsplit
        simp only [] at hsplit
        cases hc : (c == '\n')
        · -- a copied ordinary character
          cases u with
          | nil =>
            exfalso
            have := congrArg List.head? hsplit
            simp only [List.head?_cons, List.nil_append, Option.some.injEq] at this
            rw [this] at hc
            exact absurd hc (by decide)
          | cons c0 u0 =>
            have hc0 : c0 = c := by
              have := congrArg List.head? hsplit
              simpa using this.symm
            have htail : runStepF beforeHeadingStep n (isLineTerm c) cs
                = u0 ++ '\n' :: r := by
              have := congrArg List.tail hsplit
              simpa using this
            rcases ih (isLineTerm c) cs (by simp at hlen; omega)
              (noHashOnlyStarts_cons hNH) u0 r htail hHL with
              ⟨u1, hu1, hu1ne, hu1last⟩ | ⟨hu0, -, -⟩
            · left
              refine ⟨c0 :: u1, by rw [hu1]; simp, by simp, ?_⟩
              rw [show c0 :: u1 = [c0] ++ u1 from rfl,
                getLast_append_left_ne hu1ne]
              exact hu1last
            · left
              refine ⟨[c0], by rw [hu0]; simp, by simp, ?_⟩
              rw [hc0]
              intro hcon
              simp only [List.getLast?_singleton, Option.some.injEq] at hcon
              rw [hcon] at hc
              exact absurd hc (by decide)
        · -- a copied newline whose run has no heading after it
          have hc2 : c = '\n' := eq_of_beq hc
          have hmnone : matchHashWsDots ((c :: cs).dropWhile (· == '\n')) = none := by
            unfold beforeHeadingStep at hgo
            simp only at hgo
            split at hgo
            next hh =>
              split at hgo
              next => exact absurd hgo (by simp)
              next hmn => exact hmn
            next hh => exact absurd (by rw [hc2]; rfl) hh
          cases u with
          | nil =>
            exfalso
            have hr : r = runStepF beforeHeadingStep n (isLineTerm c) cs := by
              have := congrArg List.tail hsplit
              simpa using this.symm
            cases cs with
            | nil =>
              rw [hr] at hHL
              cases n <;> simp [runStepF, linesF, isHeadingLine] at hHL
            | cons d ds =>
              cases hd : (d == '\n')
              · -- the run is the single copied newline; the next line is no
                -- heading since the match failed
                have hdrop : (c :: d :: ds).dropWhile (· == '\n') = d :: ds := by
                  rw [hc2, List.dropWhile_cons, if_pos (by decide),
                    List.dropWhile_cons, if_neg (by rw [hd]; decide)]
                rw [hdrop] at hmnone
                rw [hr, beforeHeading_firstLine] at hHL
                have := isHeadingLine_line_isSome hHL
                rw [hmnone] at this
                exact absurd this (by simp)
              · -- the run continues: the line after the split newline is empty
                have hd2 : d = '\n' := eq_of_beq hd
                have hhead : r.head? = some '\n' := by
                  rw [hr, beforeHeading_head]
                  rw [hd2]
                  rfl
                cases hrc : r with
                | nil => rw [hrc] at hHL; exact absurd hHL (by decide)
                | cons r0 rs =>
                  rw [hrc] at hhead
                  have hr0 : r0 = '\n' := by simpa using hhead
                  rw [hrc, hr0, List.takeWhile_cons, if_neg (by decide)] at hHL
                  exact absurd hHL (by decide)
          | cons c0 u0 =>
            have hc0 : c0 = '\n' := by
              have := congrArg List.head? hsplit
              rw [hc2] at this
              simpa using this.symm
            have htail : runStepF beforeHeadingStep n (isLineTerm c) cs
                = u0 ++ '\n' :: r := by
              have := congrArg List.tail hsplit
              simpa using this
            rcases ih (isLineTerm c) cs (by simp at hlen; omega)
              (noHashOnlyStarts_cons hNH) u0 r htail hHL with
              ⟨u1, hu1, hu1ne, hu1last⟩ | ⟨hu0, hmsome, -⟩
            · left
              refine ⟨c0 :: u1, by rw [hu1]; simp, by simp, ?_⟩
              rw [show c0 :: u1 = [c0] ++ u1 from rfl,
                getLast_append_left_ne hu1ne]
              exact hu1last
            · exfalso
              have : cs.dropWhile (· == '\n') = (c :: cs).dropWhile (· == '\n') := by
                rw [hc2, List.dropWhile_cons, if_pos (by decide)]
              rw [this, hmnone] at hmsome
              exact absurd hmsome (by simp)
      | some res =>
        obtain ⟨out, bol2, rest⟩ := res
        rw [hgo] at hsplit
        simp only [] at hsplit
        unfold beforeHeadingStep at hgo
        simp only at hgo
        split at hgo
        next hh =>
          split at hgo
          next g1 rest0 hm =>
            rw [Option.some.injEq, Prod.mk.injEq, Prod.mk.injEq] at hgo
            obtain ⟨hout, -, hrest⟩ := hgo
            rw [← hout, ← hrest] at hsplit
            obtain ⟨hs, w, ds, hg, hlm, hhsne, hhsall, hw, hds, -⟩ :=
              matchHashWsDots_some hm
            have hc2 : c = '\n' := by simpa using hh
            -- the group never absorbs a following line
            have hwn : w ≠ '\n' := by
              intro hwn
              have hrun : (c :: cs) = ((c :: cs).takeWhile (· == '\n')).dropLast ++
                  '\n' :: (c :: cs).dropWhile (· == '\n') := by
                conv_lhs => rw [← List.takeWhile_append_dropWhile (· == '\n') (c :: cs)]
                have htw : (c :: cs).takeWhile (· == '\n') =
                    ((c :: cs).takeWhile (· == '\n')).dropLast ++ ['\n'] := by
                  rw [hc2, List.takeWhile_cons, if_pos (by decide)]
                  obtain ⟨ys, y, hys⟩ : ∃ ys y,
                      '\n' :: cs.takeWhile (· == '\n') = ys ++ [y] := by
                    rcases ('\n' :: cs.takeWhile (· == '\n')).eq_nil_or_concat
                      with h' | ⟨ys, y, h'⟩
                    · exact absurd h' (by simp)
                    · exact ⟨ys, y, by simpa using h'⟩
                  have hy : y = '\n' := by
                    have hymem : y ∈ '\n' :: cs.takeWhile (· == '\n') := by
                      rw [hys]; simp
                    rcases List.mem_cons.mp hymem with h' | h'
                    · exact h'
                    · exact eq_of_beq (List.mem_takeWhile_imp (p := (· == '\n')) h')
                  rw [hys, hy, List.dropLast_concat]
                conv_lhs => rw [htw]
                simp
              have hNHm := hNH _ _ hrun
              rw [hlm, hwn, takeWhile_ne_nl_append] at hNHm
              have hhs : hs.takeWhile (· != '\n') = hs := by
                have h0 : ((hs ++ ([] : List Char)).takeWhile (· != '\n')) = hs :=
                  takeWhile_eq_of_all_head
                    (fun x hx => by rw [hhsall x hx]; decide)
                    (fun x hx => by simp at hx)
                rw [List.append_nil] at h0
                exact h0
              rw [hhs] at hNHm
              have : isHashOnlyLine hs = true := by
                unfold isHashOnlyLine
                rw [Bool.and_eq_true]
                constructor
                · cases hs with
                  | nil => exact absurd rfl hhsne
                  | cons a as => rfl
                · exact List.all_eq_true.mpr
                    (fun x hx => beq_iff_eq.mpr (hhsall x hx))
              rw [this] at hNHm
              exact absurd hNHm (by decide)
            have hg1nl : ∀ x ∈ g1, (x != '\n') = true := by
              intro x hx
              rw [hg] at hx
              rcases List.mem_append.mp hx with hx | hx
              · rw [hhsall x hx]
                decide
              · rcases List.mem_cons.mp hx with hx | hx
                · rw [hx]
                  simp only [bne]
                  cases hq : (w == '\n')
                  · rfl
                  · exact absurd (eq_of_beq hq) hwn
                · have := hds x hx
                  cases hq : (x != '\n')
                  · exfalso
                    have : x = '\n' := by simpa [bne] using hq
                    rw [this] at hx
                    have := hds '\n' hx
                    exact absurd this (by decide)
                  · rfl
            have hg1ne : g1 ≠ [] := matchHashWsDots_ne_nil hm
            have hlenrest : rest0.length ≤ n := by
              have h1 : (c :: cs).length = ((c :: cs).takeWhile (· == '\n')).length +
                  ((c :: cs).dropWhile (· == '\n')).length := by
                rw [← List.length_append, List.takeWhile_append_dropWhile]
              have h2 : ((c :: cs).dropWhile (· == '\n')).length =
                  g1.length + rest0.length := by
                rw [← matchHashWsDots_append hm, List.length_append]
              have h3 : 1 ≤ ((c :: cs).takeWhile (· == '\n')).length := by
                rw [hc2, List.takeWhile_cons, if_pos (by decide)]
                simp
              have h4 : 1 ≤ g1.length := by
                cases g1 with
                | nil => exact absurd rfl hg1ne
                | cons a as => simp
              simp only [List.length_cons] at h1 hlen
              omega
            have hNHrest : noHashOnlyStarts rest0 := by
              have hsp : c :: cs = ((c :: cs).takeWhile (· == '\n') ++ g1) ++ rest0 := by
                rw [List.append_assoc, matchHashWsDots_append hm,
                  List.takeWhile_append_dropWhile]
              rw [hsp] at hNH
              exact noHashOnlyStarts_suffix _ hNH
            have ihrest := ih bol2 rest0 hlenrest hNHrest
            have hsplit2 : '\n' :: '\n' :: (g1 ++
                runStepF beforeHeadingStep n bol2 rest0) = u ++ '\n' :: r := by
              rw [← hsplit]
              simp
            cases u with
            | nil =>
              exfalso
              have hr : r = '\n' :: (g1 ++ runStepF beforeHeadingStep n bol2 rest0) := by
                have := congrArg List.tail hsplit2
                simpa using this.symm
              rw [hr, List.takeWhile_cons, if_neg (by decide)] at hHL
              exact absurd hHL (by decide)
            | cons a0 u0 =>
              have ha0 : a0 = '\n' := by
                have := congrArg List.head? hsplit2
                simpa using this.symm
              have htail1 : '\n' :: (g1 ++ runStepF beforeHeadingStep n bol2 rest0)
                  = u0 ++ '\n' :: r := by
                have := congrArg List.tail hsplit2
                simpa using this
              cases u0 with
              | nil =>
                right
                have hr : r = g1 ++ runStepF beforeHeadingStep n bol2 rest0 := by
                  have := congrArg List.tail htail1
                  simpa using this.symm
                refine ⟨by rw [ha0], by rw [hm]; rfl, ?_⟩
                rw [hr, hg]
                rw [show (hs ++ w :: ds) ++ runStepF beforeHeadingStep n bol2 rest0
                    = hs ++ w :: (ds ++ runStepF beforeHeadingStep n bol2 rest0)
                    from by simp]
                exact matchHashWsDots_isSome_of hhsne hhsall hw
              | cons a1 u1 =>
                have ha1 : a1 = '\n' := by
                  have := congrArg List.head? htail1
                  simpa using this.symm
                have htail2 : g1 ++ runStepF beforeHeadingStep n bol2 rest0
                    = u1 ++ '\n' :: r := by
                  have := congrArg List.tail htail1
                  simpa using this
                rcases List.append_eq_append_iff.mp htail2 with ⟨z, hz1, hz2⟩ | ⟨z, hz1, hz2⟩
                · -- the split lies inside the recursive output
                  rcases ihrest z r hz2 hHL with
                    ⟨z1, hzz1, hzz1ne, hzz1last⟩ | ⟨hz0, -, hmr⟩
                  · left
                    refine ⟨a0 :: a1 :: (g1 ++ z1), ?_, by simp, ?_⟩
                    · rw [hz1, hzz1]
                      simp
                    · rw [show a0 :: a1 :: (g1 ++ z1) = [a0, a1] ++ (g1 ++ z1) from rfl,
                        getLast_append_left_ne (by
                          intro h0
                          rcases List.append_eq_nil.mp h0 with ⟨-, h2⟩
                          exact hzz1ne h2),
                        getLast_append_left_ne hzz1ne]
                      exact hzz1last
                  · left
                    refine ⟨a0 :: a1 :: g1, ?_, by simp, ?_⟩
                    · rw [hz1, hz0]
                      simp
                    · rw [show a0 :: a1 :: g1 = [a0, a1] ++ g1 from rfl,
                        getLast_append_left_ne hg1ne]
                      intro hcon
                      have hmem := getLast_mem_of_eq hcon
                      have := hg1nl '\n' hmem
                      simp at this
                · -- the split newline would lie inside the group: impossible
                  cases z with
                  | nil =>
                    exfalso
                    have hV : runStepF beforeHeadingStep n bol2 rest0 = '\n' :: r := by
                      simpa using hz2.symm
                    rcases ihrest [] r (by rw [hV]; simp) hHL with
                      ⟨z1, hzz1, -, -⟩ | ⟨hz0, -, -⟩
                    · exact absurd hzz1.symm (by simp)
                    · exact absurd hz0.symm (by simp)
                  | cons z0 z' =>
                    exfalso
                    have hz0 : z0 = '\n' := by
                      have := congrArg List.head? hz2
                      simpa using this.symm
                    have hmem : z0 ∈ g1 := by rw [hz1]; simp
                    have := hg1nl z0 hmem
                    rw [hz0] at this
                    simp at this
          next => exact absurd hgo (by simp)
        next => exact absurd hgo (by simp)

theorem getLast_of_all_nl {tw : List Char} (hne : tw ≠ [])
    (hall : ∀ d ∈ tw, d = '\n') : tw.getLast? = some '\n' := by
  obtain ⟨ys, y, hys⟩ : ∃ ys y, tw = ys ++ [y] := by
    rcases tw.eq_nil_or_concat with h' | ⟨ys, y, h'⟩
    · exact absurd h' hne
    · exact ⟨ys, y, by simpa using h'⟩
  rw [hys, List.getLast?_concat, hall y (by rw [hys]; simp)]

/-- The leading strip (line 42) upgrades the before-a-heading invariant to the
unconditional good shape. -/
theorem P42_strip {x2 : List Char}
    (hP : ∀ u r, x2 = u ++ '\n' :: r →
      isHeadingLine (r.takeWhile (· != '\n')) = true →
      blankBeforeOK u ∨ u = [] ∨ u = ['\n']) :
    ∀ u r, removeBlankBeforeFirst x2 = u ++ '\n' :: r →
      isHeadingLine (r.takeWhile (· != '\n')) = true → blankBeforeOK u := by
  intro u r hsplit hHL
  unfold removeBlankBeforeFirst at hsplit
  split at hsplit
  next hhead =>
    split at hsplit
    next G R hm42 =>
      have hx2 : x2 = x2.takeWhile (· == '\n') ++ (G ++ R) := by
        conv_lhs => rw [← List.takeWhile_append_dropWhile (· == '\n') x2]
        rw [matchHashWsDots_append hm42]
      have htwne : x2.takeWhile (· == '\n') ≠ [] := by
        cases hx : x2 with
        | nil => rw [hx] at hhead; simp at hhead
        | cons a as =>
          have ha : a = '\n' := by rw [hx] at hhead; simpa using hhead
          rw [ha, List.takeWhile_cons, if_pos (by decide)]
          simp
      have htwall : ∀ d ∈ x2.takeWhile (· == '\n'), d = '\n' :=
        fun d hd => eq_of_beq (List.mem_takeWhile_imp (p := (· == '\n')) hd)
      have hGhead : (G ++ R).head? = some '#' := by
        refine matchHashWsDots_isSome_head ?_
        rw [show G ++ R = x2.dropWhile (· == '\n') from matchHashWsDots_append hm42,
          hm42]
        rfl
      have hsplit2 : x2 = (x2.takeWhile (· == '\n') ++ u) ++ '\n' :: r := by
        conv_lhs => rw [hx2, hsplit]
        rw [List.append_assoc]
      rcases hP _ _ hsplit2 hHL with ⟨u1, hu1, hu1ne, hu1last⟩ | hUnil | hU
      · rcases eq_or_ne u [] with hu | hu
        · exfalso
          rw [hu, List.append_nil] at hu1
          have hlast : u1.getLast? = some '\n' := by
            refine getLast_of_all_nl hu1ne (fun d hd => ?_)
            exact htwall d (by rw [hu1]; exact List.mem_append_left _ hd)
          exact hu1last hlast
        · have hulast : u.getLast? = some '\n' := by
            have h0 : (x2.takeWhile (· == '\n') ++ u).getLast? = some '\n' := by
              rw [hu1, List.getLast?_concat]
            rw [getLast_append_left_ne hu] at h0
            exact h0
          obtain ⟨w', hw'⟩ : ∃ w', u = w' ++ ['\n'] := by
            obtain ⟨ys, y, hys⟩ : ∃ ys y, u = ys ++ [y] := by
              rcases u.eq_nil_or_concat with h' | ⟨ys, y, h'⟩
              · exact absurd h' hu
              · exact ⟨ys, y, by simpa using h'⟩
            have hy : y = '\n' := by
              rw [hys, List.getLast?_concat] at hulast
              simpa using hulast
            exact ⟨ys, by rw [hys, hy]⟩
          have hu1eq : x2.takeWhile (· == '\n') ++ w' = u1 := by
            have h0 : (x2.takeWhile (· == '\n') ++ w') ++ ['\n'] = u1 ++ ['\n'] := by
              rw [List.append_assoc, ← hw', hu1]
            exact List.append_cancel_right h0
          have hw'ne : w' ≠ [] := by
            intro h0
            rw [h0, List.append_nil] at hu1eq
            rw [← hu1eq] at hu1last
            exact hu1last (getLast_of_all_nl htwne htwall)
          refine ⟨w', hw', hw'ne, ?_⟩
          rw [← getLast_append_left_ne (X := x2.takeWhile (· == '\n')) hw'ne, hu1eq]
          exact hu1last
      · exact absurd (List.append_eq_nil.mp hUnil).1 htwne
      · exfalso
        have hune : u = [] := by
          have h0 := congrArg List.length hU
          simp only [List.length_append, List.length_cons, List.length_nil,
            List.length_singleton] at h0
          have h1 : 1 ≤ (x2.takeWhile (· == '\n')).length := by
            cases htw : x2.takeWhile (· == '\n') with
            | nil => exact absurd htw htwne
            | cons a as => simp
          cases u with
          | nil => rfl
          | cons a as => simp at h0; omega
        rw [hune, List.nil_append] at hsplit
        rw [hsplit] at hGhead
        simp at hGhead
    next hm42none =>
      have hmr := isHeadingLine_line_isSome hHL
      have hrhead := matchHashWsDots_isSome_head hmr
      have hrd : r.dropWhile (· == '\n') = r := by
        cases hr : r with
        | nil => rfl
        | cons a as =>
          rw [hr] at hrhead
          have ha : a = '#' := by simpa using hrhead
          rw [List.dropWhile_cons, if_neg (by rw [ha]; decide)]
      rcases hP u r hsplit hHL with hgood | hUnil | hU
      · exact hgood
      · exfalso
        rw [hUnil, List.nil_append] at hsplit
        have hdrop : x2.dropWhile (· == '\n') = r := by
          rw [hsplit, List.dropWhile_cons, if_pos (by decide), hrd]
        rw [hdrop] at hm42none
        obtain ⟨res, hres⟩ := Option.isSome_iff_exists.mp hmr
        rw [hres] at hm42none
        exact absurd hm42none (by simp)
      · exfalso
        rw [hU] at hsplit
        have hdrop : x2.dropWhile (· == '\n') = r := by
          rw [hsplit]
          rw [show (['\n'] ++ '\n' :: r : List Char) = '\n' :: '\n' :: r from rfl]
          rw [List.dropWhile_cons, if_pos (by decide),
            List.dropWhile_cons, if_pos (by decide), hrd]
        rw [hdrop] at hm42none
        obtain ⟨res, hres⟩ := Option.isSome_iff_exists.mp hmr
        rw [hres] at hm42none
        exact absurd hm42none (by simp)
  next hhead =>
    rcases hP u r hsplit hHL with hgood | hUnil | hU
    · exact hgood
    · exfalso
      rw [hUnil, List.nil_append] at hsplit
      have := congrArg List.head? hsplit
      simp only [List.head?_cons] at this
      exact hhead this
    · exfalso
      rw [hU] at hsplit
      have := congrArg List.head? hsplit
      simp only [List.cons_append, List.head?_cons] at this
      exact hhead this

/-- The trailing strip (line 43) keeps the good shape. -/
theorem removeBlankAfterLast_P {x3 : List Char}
    (hP : ∀ u r, x3 = u ++ '\n' :: r →
      isHeadingLine (r.takeWhile (· != '\n')) = true → blankBeforeOK u) :
    ∀ u r, removeBlankAfterLast x3 = u ++ '\n' :: r →
      isHeadingLine (r.takeWhile (· != '\n')) = true → blankBeforeOK u := by
  intro u r hsplit hHL
  rcases removeBlankAfterLast_shape x3 with hsh | ⟨pre, g1, ns, h1, h2, h3, h4, h5⟩
  · exact hP u r (by rw [← hsh, hsplit]) hHL
  · have hx3 : x3 = u ++ '\n' :: (r ++ ns) := by
      rw [h1, ← List.append_assoc, ← h2, hsplit]
      simp
    refine hP u (r ++ ns) hx3 ?_
    obtain ⟨ns', hns'⟩ : ∃ ns', ns = '\n' :: ns' := by
      cases ns with
      | nil => exact absurd rfl h4
      | cons a as => exact ⟨as, by rw [h5 a (by simp)]⟩
    rw [hns', takeWhile_ne_nl_append]
    exact hHL

/-- Every line of a split text is newline-free. -/
theorem linesF_no_nl : ∀ (fuel : Nat) (l : List Char), l.length ≤ fuel →
    ∀ L ∈ linesF fuel l, ∀ c ∈ L, (c != '\n') = true := by
  intro fuel
  induction fuel with
  | zero =>
    intro l hlen L hL c hc
    have hl : l = [] := by
      cases l with
      | nil => rfl
      | cons a as => exact absurd hlen (by simp)
    rw [hl] at hL
    simp only [linesF, List.mem_singleton] at hL
    rw [hL] at hc
    simp at hc
  | succ n ih =>
    intro l hlen L hL c hc
    simp only [linesF] at hL
    split at hL
    next d rest0 hdrop =>
      rcases List.mem_cons.mp hL with hL | hL
      · rw [hL] at hc
        exact List.mem_takeWhile_imp (p := (· != '\n')) hc
      · have hlenr : rest0.length ≤ n := by
          have hsp := congrArg List.length
            (List.takeWhile_append_dropWhile (· != '\n') l)
          rw [hdrop] at hsp
          simp only [List.length_append, List.length_cons] at hsp hlen
          omega
        exact ih rest0 hlenr L hL c hc
    next hdrop =>
      rw [List.mem_singleton] at hL
      rw [hL] at hc
      exact List.mem_takeWhile_imp (p := (· != '\n')) hc

/-- Decoding the good shape at the line level: the previous line is empty and
the one before it is a nonempty line. -/
theorem joinLines_decode {pre : List (List Char)}
    (hnl : ∀ L ∈ pre, ∀ c ∈ L, (c != '\n') = true)
    (h : blankBeforeOK (joinLines pre)) :
    ∃ pre1 q2, pre = pre1 ++ [q2, []] ∧ q2 ≠ [] := by
  obtain ⟨u1, hu1, hu1ne, hu1last⟩ := h
  obtain ⟨pre0, q, hpre⟩ : ∃ pre0 q, pre = pre0 ++ [q] := by
    rcases pre.eq_nil_or_concat with h' | ⟨pre0, q, h'⟩
    · exfalso
      rw [h'] at hu1
      exact absurd hu1.symm (by simp [joinLines])
    · exact ⟨pre0, q, by simpa using h'⟩
  rcases eq_or_ne pre0 [] with hpre0 | hpre0ne
  · exfalso
    rw [hpre, hpre0, List.nil_append] at hu1
    have : ('\n' : Char) ∈ q := by
      rw [show joinLines [q] = q from rfl] at hu1
      rw [hu1]
      simp
    have := hnl q (by rw [hpre, hpre0]; simp) '\n' this
    simp at this
  · have hJ : joinLines pre = joinLines pre0 ++ '\n' :: q := by
      rw [hpre, joinLines_append pre0 [q] hpre0ne (by simp)]
      rfl
    have hq : q = [] := by
      by_contra hqne
      have h0 : (joinLines pre).getLast? = some '\n' := by
        rw [hu1, List.getLast?_concat]
      rw [hJ, getLast_append_left_ne (by simp),
        show ('\n' :: q : List Char) = ['\n'] ++ q from rfl,
        getLast_append_left_ne hqne] at h0
      have := getLast_mem_of_eq h0
      have := hnl q (by rw [hpre]; simp) '\n' this
      simp at this
    have hu1eq : u1 = joinLines pre0 := by
      have h0 : joinLines pre0 ++ ['\n'] = u1 ++ ['\n'] := by
        rw [← hu1, hJ, hq]
      exact (List.append_cancel_right h0).symm
    obtain ⟨pre1, q2, hpre1⟩ : ∃ pre1 q2, pre0 = pre1 ++ [q2] := by
      rcases pre0.eq_nil_or_concat with h' | ⟨pre1, q2, h'⟩
      · exact absurd h' hpre0ne
      · exact ⟨pre1, q2, by simpa using h'⟩
    have hq2ne : q2 ≠ [] := by
      intro hq2
      rcases eq_or_ne pre1 [] with hpre1c | hpre1ne
      · rw [hpre1, hpre1c, List.nil_append, hq2] at hu1eq
        exact hu1ne (by rw [hu1eq]; rfl)
      · have hJ0 : joinLines pre0 = joinLines pre1 ++ '\n' :: q2 := by
          rw [hpre1, joinLines_append pre1 [q2] hpre1ne (by simp)]
          rfl
        rw [hu1eq, hJ0, hq2] at hu1last
        rw [show ('\n' :: ([] : List Char)) = ['\n'] from rfl,
          getLast_append_left_ne (by simp)] at hu1last
        exact hu1last rfl
    exact ⟨pre1, q2, by rw [hpre, hpre1, hq]; simp, hq2ne⟩

/-- Walking the line list: if every heading-line start of the text has the
good shape before it, the C10 check accepts. -/
theorem headingsBlankBeforeGo_true {v : List Char}
    (hnl : ∀ L ∈ linesOf v, ∀ c ∈ L, (c != '\n') = true)
    (hP : ∀ u r, v = u ++ '\n' :: r →
      isHeadingLine (r.takeWhile (· != '\n')) = true → blankBeforeOK u) :
    ∀ ls pre, linesOf v = pre ++ ls →
      headingsBlankBeforeGo isEmptyLine pre.dropLast.getLast? pre.getLast? ls =
        true := by
  intro ls
  induction ls with
  | nil => intro pre _; rfl
  | cons line rest ihls =>
    intro pre hsplit
    simp only [headingsBlankBeforeGo, Bool.and_eq_true]
    constructor
    · cases hhead : isHeadingLine line with
      | false => simp
      | true =>
        rcases eq_or_ne pre [] with hpre | hpne
        · rw [hpre]
          simp
        · have hv : v = joinLines pre ++ '\n' :: joinLines (line :: rest) := by
            conv_lhs => rw [← linesF_join v.length v (le_refl _)]
            rw [show linesF v.length v = linesOf v from rfl, hsplit,
              joinLines_append pre (line :: rest) hpne (by simp)]
          have hlinenl : ∀ c ∈ line, (c != '\n') = true :=
            hnl line (by rw [hsplit]; simp)
          have hline_tw : line.takeWhile (· != '\n') = line := by
            have h0 := takeWhile_eq_of_all_head (s := []) hlinenl
              (fun c hc => by simp at hc)
            simpa using h0
          have hHL : isHeadingLine
              ((joinLines (line :: rest)).takeWhile (· != '\n')) = true := by
            cases rest with
            | nil =>
              rw [show joinLines [line] = line from rfl, hline_tw]
              exact hhead
            | cons m ms =>
              rw [joinLines_cons line (m :: ms) (by simp),
                takeWhile_ne_nl_append, hline_tw]
              exact hhead
          have hgood := hP (joinLines pre) (joinLines (line :: rest)) hv hHL
          obtain ⟨pre1, q2, hdec, hq2ne⟩ :=
            joinLines_decode
              (fun L hL => hnl L (by rw [hsplit]; exact List.mem_append_left _ hL))
              hgood
          rw [hdec]
          have h1 : (pre1 ++ [q2, []]).getLast? = some ([] : List Char) := by
            rw [show (pre1 ++ [q2, []] : List (List Char)) =
              (pre1 ++ [q2]) ++ [[]] by simp, List.getLast?_concat]
          have h2 : (pre1 ++ [q2, []]).dropLast.getLast? = some q2 := by
            rw [show (pre1 ++ [q2, []] : List (List Char)) =
              (pre1 ++ [q2]) ++ [[]] by simp, List.dropLast_concat,
              List.getLast?_concat]
          have h3 : isEmptyLine q2 = false := by
            cases q2 with
            | nil => exact absurd rfl hq2ne
            | cons a as => rfl
          rw [h1, h2]
          simp [optLine, isEmptyLine, h3, hq2ne]
    · have h2 := ihls (pre ++ [line]) (by rw [hsplit]; simp)
      rw [List.dropLast_concat, List.getLast?_concat] at h2
      exact h2

/-- C10 (amended): with bottom=false, emptyLineAfterYaml=true and
emptyLineInBlankSections=true, on a region-free text with no hash-only lines,
every heading line of the output with a predecessor line is immediately
preceded by an empty line, and the line before that (when present) is not
empty. -/
theorem c10_blank_before_amended (t : List Char)
    (hR : RegionFree t) (hH : noHashOnlyLines t = true) :
    headingsBlankBefore isEmptyLine
      (apply t { bottom := false, emptyLineAfterYaml := true,
                 emptyLineInBlankSections := true }) = true := by
  rw [apply_eq_applyCore hR _]
  have hcore : applyCore t { bottom := false, emptyLineAfterYaml := true,
                             emptyLineInBlankSections := true } =
      removeBlankAfterLast (removeBlankBeforeFirst
        (trimBlankBefore (trimBlankAfter t))) := rfl
  rw [hcore]
  have hNH1 : noHashOnlyStarts (trimBlankAfter t) :=
    trimBlankAfter_NH t.length true t (le_refl _)
      (noHashOnlyStarts_of_noHashOnlyLines hH)
  have hP31 : ∀ u r, trimBlankBefore (trimBlankAfter t) = u ++ '\n' :: r →
      isHeadingLine (r.takeWhile (· != '\n')) = true →
      blankBeforeOK u ∨ u = [] ∨ u = ['\n'] := by
    intro u r hs hl
    have h0 := trimBlankBefore_inv (trimBlankAfter t).length true
      (trimBlankAfter t) (le_refl _) hNH1 u r hs hl
    rcases h0 with hg | ⟨h1, -, -⟩
    · exact Or.inl hg
    · exact Or.inr (Or.inr h1)
  have hP43 := removeBlankAfterLast_P (P42_strip hP31)
  unfold headingsBlankBefore
  exact headingsBlankBeforeGo_true (linesF_no_nl _ _ (le_refl _)) hP43
    (linesOf _) [] rfl

theorem c10_blank_before_amended_witness :
    (RegionFree ("x\n# a".data) ∧ noHashOnlyLines ("x\n# a".data) = true) ∧
    headingsBlankBefore isEmptyLine
      (apply ("x\n# a".data) { bottom := false, emptyLineAfterYaml := true,
                               emptyLineInBlankSections := true }) = true := by
  have hR : RegionFree ("x\n# a".data) := by
    unfold RegionFree
    exact ⟨by decide, by decide, by decide, by decide, by decide⟩
  exact ⟨⟨hR, by decide⟩, c10_blank_before_amended _ hR (by decide)⟩

theorem matchHashWsDots_none_of_head {c : Char} (x : List Char)
    (h : (c == '#') = false) : matchHashWsDots (c :: x) = none := by
  simp [matchHashWsDots, List.takeWhile_cons, h]



theorem blankBeforeOK_prepend {u : List Char} (x : List Char)
    (h : blankBeforeOK u) : blankBeforeOK (x ++ u) := by
  obtain ⟨u1, hu1, hne, hlast⟩ := h
  refine ⟨x ++ u1, by rw [hu1]; simp, by simp [hne], ?_⟩
  rw [getLast_append_left_ne hne]
  exact hlast

theorem blankBeforeOK_drop {u : List Char} (x : List Char)
    (h : blankBeforeOK (x ++ u)) : blankBeforeOK u ∨ u = [] ∨ u = ['\n'] := by
  obtain ⟨u1, hu1, hne, hlast⟩ := h
  rcases eq_or_ne u [] with hu | hu
  · exact Or.inr (Or.inl hu)
  · have hulast : u.getLast? = some '\n' := by
      have h0 : (x ++ u).getLast? = some '\n' := by rw [hu1, List.getLast?_concat]
      rw [getLast_append_left_ne hu] at h0
      exact h0
    obtain ⟨w, hw⟩ : ∃ w, u = w ++ ['\n'] := by
      obtain ⟨ys, y, hys⟩ : ∃ ys y, u = ys ++ [y] := by
        rcases u.eq_nil_or_concat with h' | ⟨ys, y, h'⟩
        · exact absurd h' hu
        · exact ⟨ys, y, by simpa using h'⟩
      have hy : y = '\n' := by
        rw [hys, List.getLast?_concat] at hulast
        simpa using hulast
      exact ⟨ys, by rw [hys, hy]⟩
    rcases eq_or_ne w [] with hwnil | hwne
    · exact Or.inr (Or.inr (by rw [hw, hwnil]; rfl))
    · have hxw : x ++ w = u1 := by
        have h0 : (x ++ w) ++ ['\n'] = u1 ++ ['\n'] := by
          rw [List.append_assoc, ← hw, hu1]
        exact List.append_cancel_right h0
      refine Or.inl ⟨w, hw, hwne, ?_⟩
      rw [← getLast_append_left_ne (X := x) hwne, hxw]
      exact hlast

theorem SA_suffix {v : List Char} (x : List Char) (h : SA (x ++ v)) : SA v := by
  intro u r hsplit hHL
  have h0 := h (x ++ u) r (by rw [hsplit]; simp) hHL
  rcases h0 with hg | hnil | hone
  · exact blankBeforeOK_drop x hg
  · right; left
    exact (List.append_eq_nil.mp hnil).2
  · cases x with
    | nil => exact Or.inr (Or.inr hone)
    | cons a as =>
      right; left
      have := congrArg List.length hone
      simp only [List.length_append, List.length_cons, List.length_singleton] at this
      cases u with
      | nil => rfl
      | cons b bs => simp at this; omega

/-- No match of the after-heading step starts at a newline: the scanner copies
it. -/
theorem forceOne_cons_nl (repl : List Char) (fuel : Nat) (bol : Bool)
    (x : List Char) :
    runStepF (afterHeadingStep repl) (fuel + 1) bol ('\n' :: x) =
      '\n' :: runStepF (afterHeadingStep repl) fuel true x := by
  have hgo : (afterHeadingStep repl).go bol ('\n' :: x) = none := by
    unfold afterHeadingStep
    simp only
    cases bol with
    | false => rfl
    | true =>
      rw [if_pos rfl, matchHashWsDots_none_of_head (c := '\n') x (by decide)]
  rw [runStepF, hgo]
  rfl

/-- The after-heading pass never changes the first character. -/
theorem forceOne_head (repl : List Char) (fuel : Nat) (bol : Bool)
    (l : List Char) :
    (runStepF (afterHeadingStep repl) fuel bol l).head? = l.head? := by
  cases fuel with
  | zero => rfl
  | succ n =>
    cases l with
    | nil => rfl
    | cons c cs =>
      rw [runStepF]
      cases hgo : (afterHeadingStep repl).go bol (c :: cs) with
      | none => rfl
      | some p =>
        obtain ⟨out, b2, rest⟩ := p
        simp only []
        unfold afterHeadingStep at hgo
        simp only at hgo
        split at hgo
        · split at hgo
          next g1 l3 hm =>
            split at hgo
            next hguard =>
              obtain ⟨hs, w, ds, hg, hl, hne, hall, -, -, -⟩ :=
                matchHashWsDots_some hm
              have hout : out = g1 ++ repl := by
                simp only [Option.some.injEq, Prod.mk.injEq] at hgo
                exact hgo.1.symm
              rw [hout, hg]
              cases hs with
              | nil => exact absurd rfl hne
              | cons a as =>
                have hca : c = a := by
                  have := congrArg List.head? hl
                  simpa using this
                rw [hca]
                rfl
            next => exact absurd hgo (by simp)
          next => exact absurd hgo (by simp)
        · exact absurd hgo (by simp)

/-- On a newline-free text the after-heading pass does nothing (its matches
need a following newline). -/
theorem forceOne_no_nl (repl : List Char) :
    ∀ (fuel : Nat) (bol : Bool) (l : List Char),
      (∀ c ∈ l, c ≠ '\n') →
      runStepF (afterHeadingStep repl) fuel bol l = l := by
  intro fuel
  induction fuel with
  | zero => intro bol l _; rfl
  | succ n ih =>
    intro bol l hnl
    cases l with
    | nil => rfl
    | cons c cs =>
      have hgo : (afterHeadingStep repl).go bol (c :: cs) = none := by
        unfold afterHeadingStep
        simp only
        cases bol with
        | false => rfl
        | true =>
          rw [if_pos rfl]
          cases hm : matchHashWsDots (c :: cs) with
          | none => rfl
          | some p =>
            obtain ⟨g1, l3⟩ := p
            simp only []
            have hgd : ¬(l3.head? = some '\n') := by
              intro hguard
              obtain ⟨hs, w, ds, -, hl, -, -, -, -, -⟩ := matchHashWsDots_some hm
              obtain ⟨e, es, hl3⟩ : ∃ e es, l3 = e :: es := by
                cases l3 with
                | nil => simp at hguard
                | cons e es => exact ⟨e, es, rfl⟩
              have he : e = '\n' := by rw [hl3] at hguard; simpa using hguard
              refine hnl '\n' ?_ rfl
              rw [hl, hl3, he]
              simp
            rw [if_neg hgd]
      rw [runStepF, hgo, ih (isLineTerm c) cs (fun d hd => hnl d (by simp [hd]))]

/-- The after-heading pass preserves the first line (for a replacement that
starts with a newline, as in the rule). -/
theorem forceOne_firstLine (rp : List Char) :
    ∀ (fuel : Nat) (bol : Bool) (l : List Char),
      (runStepF (afterHeadingStep ('\n' :: rp)) fuel bol l).takeWhile
          (· != '\n') =
        l.takeWhile (· != '\n') := by
  intro fuel
  induction fuel with
  | zero => intro bol l; rfl
  | succ n ih =>
    intro bol l
    cases l with
    | nil => rfl
    | cons c cs =>
      rw [runStepF]
      cases hgo : (afterHeadingStep ('\n' :: rp)).go bol (c :: cs) with
      | none =>
        simp only []
        cases hc : c == '\n' with
        | true =>
          have hc' : c = '\n' := eq_of_beq hc
          rw [hc']
          rw [List.takeWhile_cons, if_neg (by decide),
            List.takeWhile_cons, if_neg (by decide)]
        | false =>
          rw [List.takeWhile_cons, List.takeWhile_cons]
          have hcne : (c != '\n') = true := by
            simp only [bne_iff_ne]
            intro h0
            rw [h0] at hc
            simp at hc
          rw [if_pos hcne, if_pos hcne, ih (isLineTerm c) cs]
      | some p =>
        obtain ⟨out, b2, rest⟩ := p
        simp only []
        unfold afterHeadingStep at hgo
        simp only at hgo
        split at hgo
        · split at hgo
          next g1 l3 hm =>
            split at hgo
            next hguard =>
              simp only [Option.some.injEq, Prod.mk.injEq] at hgo
              obtain ⟨ho, -, hr⟩ := hgo
              rw [← ho]
              obtain ⟨l3t, hl3⟩ : ∃ l3t, l3 = '\n' :: l3t := by
                cases l3 with
                | nil => simp at hguard
                | cons e es =>
                  have he : e = '\n' := by simpa using hguard
                  exact ⟨es, by rw [he]⟩
              obtain ⟨hs, w, ds, hg, hl, -, -, -, -, -⟩ :=
                matchHashWsDots_some hm
              have hccs : c :: cs = g1 ++ '\n' :: l3t := by
                rw [hl, hg, hl3]
                simp
              rw [hccs, takeWhile_ne_nl_append,
                show (g1 ++ '\n' :: rp) ++
                    runStepF (afterHeadingStep ('\n' :: rp)) n b2 rest =
                  g1 ++ '\n' :: (rp ++
                    runStepF (afterHeadingStep ('\n' :: rp)) n b2 rest) by simp,
                takeWhile_ne_nl_append]
            next => exact absurd hgo (by simp)
          next => exact absurd hgo (by simp)
        · exact absurd hgo (by simp)

theorem dropWhile_ne_nl_append (A Y : List Char) (h : ∀ d ∈ A, d ≠ '\n') :
    (A ++ '\n' :: Y).dropWhile (· != '\n') = '\n' :: Y := by
  induction A with
  | nil => rw [List.nil_append, List.dropWhile_cons, if_neg (by decide)]
  | cons a as ih =>
    rw [List.cons_append, List.dropWhile_cons,
      if_pos (by simpa using h a (by simp))]
    exact ih (fun d hd => h d (by simp [hd]))

theorem HL_nl_cons_false (X : List Char) :
    isHeadingLine (('\n' :: X).takeWhile (· != '\n')) = false := by
  rw [List.takeWhile_cons, if_neg (by decide)]
  rfl

theorem isHashOnlyLine_of {hs : List Char} (hne : hs ≠ [])
    (hall : ∀ c ∈ hs, c = '#') : isHashOnlyLine hs = true := by
  unfold isHashOnlyLine
  rw [Bool.and_eq_true]
  refine ⟨?_, ?_⟩
  · cases hs with
    | nil => exact absurd rfl hne
    | cons a as => rfl
  · rw [List.all_eq_true]
    intro d hd
    rw [hall d hd]
    rfl

theorem takeWhile_eq_self_of_all {p : Char → Bool} {l : List Char}
    (h : ∀ c ∈ l, p c = true) : l.takeWhile p = l := by
  have h0 := takeWhile_eq_of_all_head (s := []) h (fun c hc => by simp at hc)
  simpa using h0

theorem ne_nl_of_dot {d : Char} (h : isDotChar d = true) : d ≠ '\n' := by
  intro he
  rw [he] at h
  exact absurd h (by decide)

theorem dropWhile_nl_head (l : List Char) :
    (l.dropWhile (· == '\n')).head? ≠ some '\n' := by
  induction l with
  | nil => simp
  | cons c cs ih =>
    rw [List.dropWhile_cons]
    split
    · exact ih
    next h =>
      simp only [List.head?_cons]
      intro h0
      have hc : c = '\n' := by simpa using h0
      rw [hc] at h
      exact h (by decide)

/-- How a heading-line start inside the output of a fired after-heading match
can sit: right after the inserted blank line, or further inside the recursive
output. -/
theorem forceOne_match_split {g1 OUTt u r : List Char}
    (hg1nl : ∀ d ∈ g1, d ≠ '\n')
    (hsp : g1 ++ '\n' :: '\n' :: OUTt = u ++ '\n' :: r)
    (hHL : isHeadingLine (r.takeWhile (· != '\n')) = true) :
    (u = g1 ++ ['\n'] ∧ r = OUTt) ∨
    (∃ a2, u = (g1 ++ ['\n', '\n']) ++ a2 ∧ OUTt = a2 ++ '\n' :: r) := by
  rcases List.append_eq_append_iff.mp hsp with ⟨a, ha1, ha2⟩ | ⟨c', hc1, hc2⟩
  · cases a with
    | nil =>
      exfalso
      have hr : r = '\n' :: OUTt := by
        have := congrArg List.tail ha2
        simpa using this.symm
      rw [hr, HL_nl_cons_false] at hHL
      exact absurd hHL (by decide)
    | cons e1 a1 =>
      have he1 : '\n' = e1 := by simpa using congrArg List.head? ha2
      subst he1
      have ht1 : '\n' :: OUTt = a1 ++ '\n' :: r := by
        simpa using congrArg List.tail ha2
      cases a1 with
      | nil =>
        left
        have hr : OUTt = r := by simpa using ht1
        exact ⟨by rw [ha1], hr.symm⟩
      | cons e2 a2 =>
        have he2 : '\n' = e2 := by simpa using congrArg List.head? ht1
        subst he2
        have ht2 : OUTt = a2 ++ '\n' :: r := by
          simpa using congrArg List.tail ht1
        right
        exact ⟨a2, by rw [ha1]; simp, ht2⟩
  · cases c' with
    | nil =>
      exfalso
      have hr : r = '\n' :: OUTt := by simpa using hc2
      rw [hr, HL_nl_cons_false] at hHL
      exact absurd hHL (by decide)
    | cons e c'' =>
      exfalso
      have he : '\n' = e := by simpa using congrArg List.head? hc2
      exact hg1nl e (by rw [hc1]; simp) he.symm

/-- If the after-heading output starts with a newline, so does the input, and
the rest of the output is the scan of the rest of the input. -/
theorem forceOne_shift {n : Nat} {b : Bool} {cs X : List Char}
    (hREC : runStepF (afterHeadingStep ['\n', '\n']) n b cs = '\n' :: X)
    (hlen : cs.length ≤ n) :
    ∃ n' cs', n = n' + 1 ∧ cs = '\n' :: cs' ∧
      runStepF (afterHeadingStep ['\n', '\n']) n' true cs' = X := by
  have hh : cs.head? = some '\n' := by
    rw [← forceOne_head ['\n', '\n'] n b cs, hREC]
    rfl
  obtain ⟨cs', hcs'⟩ : ∃ cs', cs = '\n' :: cs' := by
    cases cs with
    | nil => simp at hh
    | cons a as =>
      have ha : a = '\n' := by simpa using hh
      exact ⟨as, by rw [ha]⟩
  obtain ⟨n', hn'⟩ : ∃ n', n = n' + 1 := by
    cases n with
    | zero =>
      rw [hcs'] at hlen
      simp at hlen
    | succ m => exact ⟨m, rfl⟩
  refine ⟨n', cs', hn', hcs', ?_⟩
  rw [hn', hcs', forceOne_cons_nl] at hREC
  simpa using hREC

/-- Main invariant of the `$1\n\n` after-heading pass (source line 35): it
keeps the before-a-heading shape and establishes the after-a-heading shape, on
a text with `\n`-only terminators, no hash-only line and the before-shape. -/
theorem forceOne_inv (fuel : Nat) :
    ∀ (bol : Bool) (l : List Char), l.length ≤ fuel →
      (∀ c ∈ l, (c == '\n' || !(isLineTerm c)) = true) →
      noHashOnlyStarts l →
      (bol = true → isHashOnlyLine (l.takeWhile (· != '\n')) = false) →
      SA l →
      SA (runStepF (afterHeadingStep ['\n', '\n']) fuel bol l) ∧
      (bol = true →
        isHeadingLine ((runStepF (afterHeadingStep ['\n', '\n']) fuel bol
          l).takeWhile (· != '\n')) = true →
        afterOKw (runStepF (afterHeadingStep ['\n', '\n']) fuel bol l)) ∧
      (∀ u r, runStepF (afterHeadingStep ['\n', '\n']) fuel bol l =
          u ++ '\n' :: r →
        isHeadingLine (r.takeWhile (· != '\n')) = true → afterOKw r) := by
  induction fuel with
  | zero =>
    intro bol l hlen hNL hNH1 hNH2 hSA
    have hl : l = [] := by
      cases l with
      | nil => rfl
      | cons a as => exact absurd hlen (by simp)
    subst hl
    refine ⟨?_, ?_, ?_⟩
    · intro u r h _
      exact absurd h (by simp [runStepF])
    · intro _ h
      rw [show runStepF (afterHeadingStep ['\n', '\n']) 0 bol [] = []
        from rfl] at h
      exact absurd h (by decide)
    · intro u r h _
      exact absurd h (by simp [runStepF])
  | succ n ih =>
    intro bol l hlen hNL hNH1 hNH2 hSA
    cases l with
    | nil =>
      refine ⟨?_, ?_, ?_⟩
      · intro u r h _
        exact absurd h (by simp [runStepF])
      · intro _ h
        rw [show runStepF (afterHeadingStep ['\n', '\n']) (n + 1) bol [] = []
          from rfl] at h
        exact absurd h (by decide)
      · intro u r h _
        exact absurd h (by simp [runStepF])
    | cons c cs =>
      rw [runStepF]
      cases hgo : (afterHeadingStep ['\n', '\n']).go bol (c :: cs) with
      | none =>
        simp only []
        have hlen2 : cs.length ≤ n := by
          simp only [List.length_cons] at hlen
          omega
        have hNLcs : ∀ d ∈ cs, (d == '\n' || !(isLineTerm d)) = true :=
          fun d hd => hNL d (by simp [hd])
        have hNH1cs : noHashOnlyStarts cs := noHashOnlyStarts_cons hNH1
        have hNH2cs : isLineTerm c = true →
            isHashOnlyLine (cs.takeWhile (· != '\n')) = false := by
          intro hterm
          have hcnl := hNL c (by simp)
          rw [hterm] at hcnl
          simp only [Bool.not_true, Bool.or_false] at hcnl
          have hc : c = '\n' := eq_of_beq hcnl
          exact hNH1 [] cs (by rw [hc]; rfl)
        have hSAcs : SA cs := SA_suffix [c] hSA
        obtain ⟨ihSA, ihFirst, ihSplit⟩ :=
          ih (isLineTerm c) cs hlen2 hNLcs hNH1cs hNH2cs hSAcs
        refine ⟨?_, ?_, ?_⟩
        · -- SA of the copied output
          intro u r hsplit hHL
          cases u with
          | nil => exact Or.inr (Or.inl rfl)
          | cons c0 u2 =>
            have hc0 : c = c0 := by simpa using congrArg List.head? hsplit
            have hRECsp : runStepF (afterHeadingStep ['\n', '\n']) n
                (isLineTerm c) cs = u2 ++ '\n' :: r := by
              simpa using congrArg List.tail hsplit
            rcases ihSA u2 r hRECsp hHL with hgood | hnil | hone
            · exact Or.inl (blankBeforeOK_prepend [c0] hgood)
            · -- the output continues with a newline then a heading
              subst hnil
              obtain ⟨n1, cs1, hn1, hcs1, hX1⟩ := forceOne_shift hRECsp hlen2
              have hrline : r.takeWhile (· != '\n') =
                  cs1.takeWhile (· != '\n') := by
                rw [← hX1]
                exact forceOne_firstLine ['\n'] n1 true cs1
              rw [hrline] at hHL
              have hSAc := hSA [c] cs1 (by rw [hcs1]; rfl) hHL
              rcases hSAc with ⟨u1, hu1, hu1ne, -⟩ | hn | ho
              · exfalso
                have := congrArg List.length hu1
                cases u1 with
                | nil => exact absurd rfl hu1ne
                | cons a as => simp at this
              · exact absurd hn (by simp)
              · right; right
                rw [hc0] at ho
                rw [ho]
            · -- two newlines then a heading in the output
              subst hone
              cases hcnl : c == '\n' with
              | false =>
                left
                refine ⟨[c0], rfl, by simp, ?_⟩
                rw [← hc0]
                intro h0
                have hc : c = '\n' := by simpa using h0
                rw [hc] at hcnl
                simp at hcnl
              | true =>
                exfalso
                obtain ⟨n1, cs1, hn1, hcs1, hX1⟩ := forceOne_shift hRECsp hlen2
                have hlen3 : cs1.length ≤ n1 := by
                  rw [hcs1] at hlen2
                  simp only [List.length_cons] at hlen2
                  omega
                obtain ⟨n2, cs2, hn2, hcs2, hX2⟩ := forceOne_shift hX1 hlen3
                have hrline : r.takeWhile (· != '\n') =
                    cs2.takeWhile (· != '\n') := by
                  rw [← hX2]
                  exact forceOne_firstLine ['\n'] n2 true cs2
                rw [hrline] at hHL
                have hc : c = '\n' := eq_of_beq hcnl
                have hSAc := hSA ['\n', '\n'] cs2
                  (by rw [hc, hcs1, hcs2]; rfl) hHL
                rcases hSAc with ⟨u1, hu1, hu1ne, hu1l⟩ | hn | ho
                · have hu1e : u1 = ['\n'] := by
                    have hlen4 := congrArg List.length hu1
                    cases u1 with
                    | nil => exact absurd rfl hu1ne
                    | cons a as =>
                      have ha : '\n' = a := by
                        simpa using congrArg List.head? hu1
                      cases as with
                      | nil => rw [← ha]
                      | cons b bs => simp at hlen4
                  rw [hu1e] at hu1l
                  exact hu1l rfl
                · exact absurd hn (by simp)
                · exact absurd ho (by simp)
        · -- first line of the copied output
          intro hbol hHLout
          cases hcnl : c == '\n' with
          | true =>
            exfalso
            have hc : c = '\n' := eq_of_beq hcnl
            rw [hc, HL_nl_cons_false] at hHLout
            exact absurd hHLout (by decide)
          | false =>
            have hcne : (c != '\n') = true := by
              simp only [bne_iff_ne]
              intro h0
              rw [h0] at hcnl
              simp at hcnl
            have houtline : (c :: runStepF (afterHeadingStep ['\n', '\n']) n
                (isLineTerm c) cs).takeWhile (· != '\n') =
                (c :: cs).takeWhile (· != '\n') := by
              rw [List.takeWhile_cons, if_pos hcne, List.takeWhile_cons,
                if_pos hcne, forceOne_firstLine ['\n'] n (isLineTerm c) cs]
            rw [houtline] at hHLout
            have hmS : (matchHashWsDots (c :: cs)).isSome = true :=
              isHeadingLine_line_isSome hHLout
            obtain ⟨⟨g1, l3⟩, hm⟩ := Option.isSome_iff_exists.mp hmS
            have hgd : ¬(l3.head? = some '\n') := by
              intro hguard
              unfold afterHeadingStep at hgo
              simp only at hgo
              rw [if_pos hbol, hm] at hgo
              simp only [] at hgo
              rw [if_pos hguard] at hgo
              exact absurd hgo (by simp)
            obtain ⟨hs, w, ds, hg, hl, hne, hall, hw, hds, hrest⟩ :=
              matchHashWsDots_some hm
            have hl3 : l3 = [] := by
              cases l3 with
              | nil => rfl
              | cons e es =>
                exfalso
                have hed : isDotChar e = false := hrest e rfl
                have hterm : isLineTerm e = true := by
                  unfold isDotChar at hed
                  simpa using hed
                have heNL := hNL e (by rw [hl]; simp)
                rw [hterm] at heNL
                simp only [Bool.not_true, Bool.or_false] at heNL
                have he : e = '\n' := eq_of_beq heNL
                exact hgd (by rw [he]; rfl)
            have hwne : w ≠ '\n' := by
              intro hweq
              have hNH2l := hNH2 hbol
              rw [hl, hweq, takeWhile_ne_nl_append,
                takeWhile_eq_self_of_all
                  (fun d hd => by rw [hall d hd]; decide)] at hNH2l
              rw [isHashOnlyLine_of hne hall] at hNH2l
              exact absurd hNH2l (by decide)
            have hnonl : ∀ d ∈ c :: cs, d ≠ '\n' := by
              intro d hd
              rw [hl, hl3, List.append_nil] at hd
              rcases List.mem_append.mp hd with hd | hd
              · rw [hall d hd]; decide
              · rcases List.mem_cons.mp hd with hd | hd
                · rw [hd]; exact hwne
                · exact ne_nl_of_dot (hds d hd)
            have hRECeq : runStepF (afterHeadingStep ['\n', '\n']) n
                (isLineTerm c) cs = cs :=
              forceOne_no_nl ['\n', '\n'] n (isLineTerm c) cs
                (fun d hd => hnonl d (by simp [hd]))
            rw [hRECeq]
            left
            exact dropWhile_all_nil (p := (· != '\n'))
              (fun d hd => by simpa using hnonl d hd)
        · -- splits of the copied output
          intro u r hsplit hHL
          cases u with
          | nil =>
            have hc : c = '\n' := by simpa using congrArg List.head? hsplit
            have hrr : runStepF (afterHeadingStep ['\n', '\n']) n
                (isLineTerm c) cs = r := by
              simpa using congrArg List.tail hsplit
            have := ihFirst (by rw [hc]; rfl) (by rw [hrr]; exact hHL)
            rw [hrr] at this
            exact this
          | cons c0 u2 =>
            have hRECsp : runStepF (afterHeadingStep ['\n', '\n']) n
                (isLineTerm c) cs = u2 ++ '\n' :: r := by
              simpa using congrArg List.tail hsplit
            exact ihSplit u2 r hRECsp hHL
      | some p =>
        obtain ⟨out0, b2, rest⟩ := p
        simp only []
        unfold afterHeadingStep at hgo
        simp only at hgo
        split at hgo
        next hbol =>
          split at hgo
          next g1 l3 hm =>
            split at hgo
            next hguard =>
              simp only [Option.some.injEq, Prod.mk.injEq] at hgo
              obtain ⟨hout0, hb2, hrest⟩ := hgo
              subst hout0
              subst hb2
              subst hrest
              obtain ⟨hs, w, ds, hg, hl, hne, hall, hw, hds, hl3h⟩ :=
                matchHashWsDots_some hm
              have hg1ne : g1 ≠ [] := by
                rw [hg]
                cases hs with
                | nil => exact absurd rfl hne
                | cons a as => simp
              have hwne : w ≠ '\n' := by
                intro hweq
                have hNH2l := hNH2 hbol
                rw [hl, hweq, takeWhile_ne_nl_append,
                  takeWhile_eq_self_of_all
                    (fun d hd => by rw [hall d hd]; decide)] at hNH2l
                rw [isHashOnlyLine_of hne hall] at hNH2l
                exact absurd hNH2l (by decide)
              have hg1nl : ∀ d ∈ g1, d ≠ '\n' := by
                intro d hd
                rw [hg] at hd
                rcases List.mem_append.mp hd with hd | hd
                · rw [hall d hd]; decide
                · rcases List.mem_cons.mp hd with hd | hd
                  · rw [hd]; exact hwne
                  · exact ne_nl_of_dot (hds d hd)
              have hlg : c :: cs = g1 ++ l3 := by
                rw [hl, hg]
                simp
              have hdecomp : c :: cs =
                  (g1 ++ l3.takeWhile (· == '\n')) ++
                    l3.dropWhile (· == '\n') := by
                rw [hlg]
                conv_lhs =>
                  rw [← List.takeWhile_append_dropWhile (· == '\n') l3]
                simp [List.append_assoc]
              have hrunne : l3.takeWhile (· == '\n') ≠ [] := by
                obtain ⟨e, hd⟩ := Option.isSome_iff_exists.mp
                  (by rw [hguard]; rfl : l3.head?.isSome = true)
                cases l3 with
                | nil => simp at hd
                | cons a as =>
                  have ha : a = '\n' := by
                    have : a = e := by simpa using hd
                    rw [this]
                    have : e = '\n' := by
                      rw [hd] at hguard
                      simpa using hguard
                    exact this
                  rw [ha, List.takeWhile_cons, if_pos (by decide)]
                  simp
              have hrunall : ∀ d ∈ l3.takeWhile (· == '\n'), d = '\n' :=
                fun d hd => eq_of_beq (List.mem_takeWhile_imp (p := (· == '\n')) hd)
              have hrestlen : (l3.dropWhile (· == '\n')).length ≤ n := by
                have h1 := congrArg List.length hl
                have h2 := congrArg List.length
                  (List.takeWhile_append_dropWhile (· == '\n') l3)
                simp only [List.length_cons, List.length_append] at h1 h2 hlen
                omega
              have hNLrest : ∀ d ∈ l3.dropWhile (· == '\n'),
                  (d == '\n' || !(isLineTerm d)) = true := by
                intro d hd
                refine hNL d ?_
                rw [hdecomp]
                exact List.mem_append_right _ hd
              have hNH1rest : noHashOnlyStarts (l3.dropWhile (· == '\n')) :=
                noHashOnlyStarts_suffix _ (hdecomp ▸ hNH1)
              obtain ⟨rs, hrs⟩ : ∃ rs, l3.takeWhile (· == '\n') =
                  rs ++ ['\n'] := by
                obtain ⟨ys, y, hys⟩ : ∃ ys y,
                    l3.takeWhile (· == '\n') = ys ++ [y] := by
                  rcases (l3.takeWhile (· == '\n')).eq_nil_or_concat with
                    h' | ⟨ys, y, h'⟩
                  · exact absurd h' hrunne
                  · exact ⟨ys, y, by simpa using h'⟩
                refine ⟨ys, ?_⟩
                rw [hys, hrunall y (by rw [hys]; simp)]
              have hsp2 : c :: cs =
                  (g1 ++ rs) ++ '\n' :: l3.dropWhile (· == '\n') := by
                rw [hdecomp, hrs]
                simp
              have hNH2rest : (true : Bool) = true →
                  isHashOnlyLine ((l3.dropWhile
                    (· == '\n')).takeWhile (· != '\n')) = false :=
                fun _ => hNH1 (g1 ++ rs) _ hsp2
              have hSArest : SA (l3.dropWhile (· == '\n')) :=
                SA_suffix (g1 ++ l3.takeWhile (· == '\n')) (hdecomp ▸ hSA)
              obtain ⟨ihSA, ihFirst, ihSplit⟩ :=
                ih true (l3.dropWhile (· == '\n')) hrestlen hNLrest hNH1rest
                  hNH2rest hSArest
              have hOUThn : (runStepF (afterHeadingStep ['\n', '\n']) n true
                  (l3.dropWhile (· == '\n'))).head? ≠ some '\n' := by
                rw [forceOne_head]
                exact dropWhile_nl_head l3
              have houteq : (g1 ++ ['\n', '\n']) ++
                  runStepF (afterHeadingStep ['\n', '\n']) n true
                    (l3.dropWhile (· == '\n')) =
                  g1 ++ '\n' :: '\n' :: runStepF (afterHeadingStep ['\n', '\n'])
                    n true (l3.dropWhile (· == '\n')) := by
                simp
              refine ⟨?_, ?_, ?_⟩
              · -- SA after a fired match
                intro u r hsplit hHL
                rw [houteq] at hsplit
                rcases forceOne_match_split hg1nl hsplit hHL with
                  ⟨hu, hr⟩ | ⟨a2, hu, hOUT⟩
                · left
                  refine ⟨g1, hu, hg1ne, ?_⟩
                  intro h0
                  exact hg1nl '\n' (getLast_mem_of_eq h0) rfl
                · rcases ihSA a2 r hOUT hHL with hgood | hnil | hone
                  · left
                    rw [hu]
                    exact blankBeforeOK_prepend _ hgood
                  · exfalso
                    subst hnil
                    exact hOUThn (by rw [hOUT]; rfl)
                  · exfalso
                    subst hone
                    exact hOUThn (by rw [hOUT]; rfl)
              · -- first line after a fired match
                intro _ _
                right; right
                refine ⟨runStepF (afterHeadingStep ['\n', '\n']) n true
                  (l3.dropWhile (· == '\n')), ?_, hOUThn⟩
                rw [houteq]
                exact dropWhile_ne_nl_append g1 _ hg1nl
              · -- splits after a fired match
                intro u r hsplit hHL
                rw [houteq] at hsplit
                rcases forceOne_match_split hg1nl hsplit hHL with
                  ⟨-, hr⟩ | ⟨a2, -, hOUT⟩
                · subst hr
                  exact ihFirst rfl hHL
                · exact ihSplit a2 r hOUT hHL
            next => exact absurd hgo (by simp)
          next => exact absurd hgo (by simp)
        next => exact absurd hgo (by simp)

theorem takeWhile_append_all {p : Char → Bool} {A : List Char} (X : List Char)
    (h : ∀ c ∈ A, p c = true) :
    (A ++ X).takeWhile p = A ++ X.takeWhile p := by
  rw [List.takeWhile_append, takeWhile_eq_self_of_all h, if_pos rfl]

theorem isHashOnlyLine_false_of_mem {w : Char} {L : List Char} (hmem : w ∈ L)
    (hne : w ≠ '#') : isHashOnlyLine L = false := by
  unfold isHashOnlyLine
  cases hall : L.all (· == '#') with
  | false => rw [Bool.and_false]
  | true =>
    exfalso
    exact hne (eq_of_beq (List.all_eq_true.mp hall w hmem))

theorem line_of_nl_cons (X : List Char) :
    ('\n' :: X).takeWhile (· != '\n') = [] := by
  rw [List.takeWhile_cons, if_neg (by decide)]

theorem jsWs_ne_hash {w : Char} (hw : isJsWs w = true) : w ≠ '#' := by
  intro he
  rw [he] at hw
  exact absurd hw (by decide)

/-- The before-heading pass (source lines 31/34) creates no hash-only line
start. -/
theorem trimBlankBefore_NH1 (fuel : Nat) :
    ∀ (bol : Bool) (l : List Char), l.length ≤ fuel → noHashOnlyStarts l →
      noHashOnlyStarts (runStepF beforeHeadingStep fuel bol l) := by
  induction fuel with
  | zero => intro bol l _ hNH1; exact hNH1
  | succ n ih =>
    intro bol l hlen hNH1
    cases l with
    | nil => intro a b hab; exact absurd hab (by simp [runStepF])
    | cons c cs =>
      rw [runStepF]
      cases hgo : beforeHeadingStep.go bol (c :: cs) with
      | none =>
        simp only []
        have hlen2 : cs.length ≤ n := by
          simp only [List.length_cons] at hlen
          omega
        have hIH := ih (isLineTerm c) cs hlen2 (noHashOnlyStarts_cons hNH1)
        intro a b hab
        cases a with
        | nil =>
          have hc : c = '\n' := by simpa using congrArg List.head? hab
          have hb : runStepF beforeHeadingStep n (isLineTerm c) cs = b := by
            simpa using congrArg List.tail hab
          rw [← hb, beforeHeading_firstLine]
          exact hNH1 [] cs (by rw [hc]; rfl)
        | cons a0 a1 =>
          have hsp : runStepF beforeHeadingStep n (isLineTerm c) cs =
              a1 ++ '\n' :: b := by
            simpa using congrArg List.tail hab
          exact hIH a1 b hsp
      | some p =>
        obtain ⟨out0, b2, rest⟩ := p
        simp only []
        unfold beforeHeadingStep at hgo
        simp only at hgo
        split at hgo
        next hh =>
          split at hgo
          next g1 r0 hm =>
            rw [Option.some.injEq, Prod.mk.injEq, Prod.mk.injEq] at hgo
            obtain ⟨hout0, hb2, hrest⟩ := hgo
            subst hout0
            subst hb2
            subst hrest
            obtain ⟨hs, w, ds, hg, hm2, hne, hall, hw, hds, -⟩ :=
              matchHashWsDots_some hm
            have hc : c = '\n' := by simpa using hh
            have htwne : (c :: cs).takeWhile (· == '\n') ≠ [] := by
              rw [hc, List.takeWhile_cons, if_pos (by decide)]
              simp
            have htwall : ∀ d ∈ (c :: cs).takeWhile (· == '\n'), d = '\n' :=
              fun d hd =>
                eq_of_beq (List.mem_takeWhile_imp (p := (· == '\n')) hd)
            obtain ⟨rs, hrs⟩ : ∃ rs, (c :: cs).takeWhile (· == '\n') =
                rs ++ ['\n'] := by
              obtain ⟨ys, y, hys⟩ : ∃ ys y, (c :: cs).takeWhile (· == '\n') =
                  ys ++ [y] := by
                rcases ((c :: cs).takeWhile (· == '\n')).eq_nil_or_concat with
                  h' | ⟨ys, y, h'⟩
                · exact absurd h' htwne
                · exact ⟨ys, y, by simpa using h'⟩
              refine ⟨ys, ?_⟩
              rw [hys, htwall y (by rw [hys]; simp)]
            have hdecomp : c :: cs =
                (c :: cs).takeWhile (· == '\n') ++ (g1 ++ r0) := by
              conv_lhs =>
                rw [← List.takeWhile_append_dropWhile (· == '\n') (c :: cs)]
              rw [matchHashWsDots_append hm]
            have hwne : w ≠ '\n' := by
              intro hweq
              have hsp : c :: cs = rs ++ '\n' :: (g1 ++ r0) := by
                rw [hdecomp, hrs]
                simp
              have h0 := hNH1 rs (g1 ++ r0) hsp
              rw [hg, hweq] at h0
              rw [show ((hs ++ '\n' :: ds) ++ r0 : List Char) =
                hs ++ '\n' :: (ds ++ r0) by simp,
                takeWhile_ne_nl_append,
                takeWhile_eq_self_of_all
                  (fun d hd => by rw [hall d hd]; decide)] at h0
              rw [isHashOnlyLine_of hne hall] at h0
              exact absurd h0 (by decide)
            have hg1nl : ∀ d ∈ g1, d ≠ '\n' := by
              intro d hd
              rw [hg] at hd
              rcases List.mem_append.mp hd with hd | hd
              · rw [hall d hd]; decide
              · rcases List.mem_cons.mp hd with hd | hd
                · rw [hd]; exact hwne
                · exact ne_nl_of_dot (hds d hd)
            have hwmem : w ∈ g1 := by
              rw [hg]
              simp
            have hr0len : r0.length ≤ n := by
              have h1 := congrArg List.length hm2
              have h2 := congrArg List.length
                (List.takeWhile_append_dropWhile (· == '\n') (c :: cs))
              have h3 := congrArg List.length hrs
              simp only [List.length_cons, List.length_append,
                List.length_singleton] at h1 h2 h3 hlen
              omega
            have hNH1r0 : noHashOnlyStarts r0 := by
              refine noHashOnlyStarts_suffix
                ((c :: cs).takeWhile (· == '\n') ++ g1) ?_
              rw [List.append_assoc, ← hdecomp]
              exact hNH1
            have hIH := ih (lastIsLineTerm g1) r0 hr0len hNH1r0
            intro a b hab
            rw [show ('\n' :: '\n' :: g1) ++
                runStepF beforeHeadingStep n (lastIsLineTerm g1) r0 =
              '\n' :: '\n' :: (g1 ++
                runStepF beforeHeadingStep n (lastIsLineTerm g1) r0)
              by simp] at hab
            cases a with
            | nil =>
              have hb : b = '\n' :: (g1 ++
                  runStepF beforeHeadingStep n (lastIsLineTerm g1) r0) := by
                simpa using (congrArg List.tail hab).symm
              rw [hb, line_of_nl_cons]
              rfl
            | cons a0 a1 =>
              have ht1 : '\n' :: (g1 ++
                  runStepF beforeHeadingStep n (lastIsLineTerm g1) r0) =
                  a1 ++ '\n' :: b := by
                simpa using congrArg List.tail hab
              cases a1 with
              | nil =>
                have hb : b = g1 ++
                    runStepF beforeHeadingStep n (lastIsLineTerm g1) r0 := by
                  simpa using ht1.symm
                rw [hb, takeWhile_append_all _
                  (fun d hd => by simpa using hg1nl d hd)]
                exact isHashOnlyLine_false_of_mem
                  (List.mem_append_left _ hwmem) (jsWs_ne_hash hw)
              | cons a2 a3 =>
                have ht2 : g1 ++
                    runStepF beforeHeadingStep n (lastIsLineTerm g1) r0 =
                    a3 ++ '\n' :: b := by
                  simpa using congrArg List.tail ht1
                rcases List.append_eq_append_iff.mp ht2 with
                  ⟨x, hx1, hx2⟩ | ⟨y, hy1, hy2⟩
                · exact hIH x b hx2
                · cases y with
                  | nil =>
                    have hsp : runStepF beforeHeadingStep n
                        (lastIsLineTerm g1) r0 = [] ++ '\n' :: b := by
                      simpa using hy2.symm
                    exact hIH [] b hsp
                  | cons e y1 =>
                    exfalso
                    have he : '\n' = e := by
                      simpa using congrArg List.head? hy2
                    exact hg1nl e (by rw [hy1]; simp) he.symm
          next => exact absurd hgo (by simp)
        next => exact absurd hgo (by simp)

theorem term_false_of_dot {d : Char} (h : isDotChar d = true) :
    isLineTerm d = false := by
  unfold isDotChar at h
  simpa using h

/-- Off a line start the surround pass copies the first line (under `\n`-only
terminators). -/
theorem surround_firstLine_false :
    ∀ (fuel : Nat) (l : List Char),
      (∀ c ∈ l, (c == '\n' || !(isLineTerm c)) = true) →
      (runStepF surroundHeadingStep fuel false l).takeWhile (· != '\n') =
        l.takeWhile (· != '\n') := by
  intro fuel
  induction fuel with
  | zero => intro l _; rfl
  | succ n ih =>
    intro l hNL
    cases l with
    | nil => rfl
    | cons c cs =>
      have hgo : surroundHeadingStep.go false (c :: cs) = none := rfl
      rw [runStepF, hgo]
      simp only []
      cases hc : c == '\n' with
      | true =>
        have hc' : c = '\n' := eq_of_beq hc
        rw [hc', List.takeWhile_cons, if_neg (by decide),
          List.takeWhile_cons, if_neg (by decide)]
      | false =>
        have hcne : (c != '\n') = true := by
          simp only [bne_iff_ne]
          intro h0
          rw [h0] at hc
          simp at hc
        have hterm : isLineTerm c = false := by
          have h0 := hNL c (by simp)
          rw [hc] at h0
          simpa using h0
        rw [List.takeWhile_cons, if_pos hcne, List.takeWhile_cons,
          if_pos hcne, hterm, ih cs (fun d hd => hNL d (by simp [hd]))]

/-- The surround pass (source line 33) creates no hash-only line start and
keeps the first line free of hash-only content. -/
theorem surround_NH (fuel : Nat) :
    ∀ (bol : Bool) (l : List Char), l.length ≤ fuel →
      (∀ c ∈ l, (c == '\n' || !(isLineTerm c)) = true) →
      noHashOnlyStarts l →
      (bol = true → isHashOnlyLine (l.takeWhile (· != '\n')) = false) →
      noHashOnlyStarts (runStepF surroundHeadingStep fuel bol l) ∧
      (bol = true → isHashOnlyLine ((runStepF surroundHeadingStep fuel bol
        l).takeWhile (· != '\n')) = false) := by
  induction fuel with
  | zero =>
    intro bol l hlen hNL hNH1 hNH2
    have hl : l = [] := by
      cases l with
      | nil => rfl
      | cons a as => exact absurd hlen (by simp)
    subst hl
    exact ⟨fun a b hab => absurd hab (by simp [runStepF]), fun _ => rfl⟩
  | succ n ih =>
    intro bol l hlen hNL hNH1 hNH2
    cases l with
    | nil => exact ⟨fun a b hab => absurd hab (by simp [runStepF]), fun _ => rfl⟩
    | cons c cs =>
      rw [runStepF]
      cases hgo : surroundHeadingStep.go bol (c :: cs) with
      | none =>
        simp only []
        have hlen2 : cs.length ≤ n := by
          simp only [List.length_cons] at hlen
          omega
        have hNLcs : ∀ d ∈ cs, (d == '\n' || !(isLineTerm d)) = true :=
          fun d hd => hNL d (by simp [hd])
        have hNH2cs : isLineTerm c = true →
            isHashOnlyLine (cs.takeWhile (· != '\n')) = false := by
          intro hterm
          have hcnl := hNL c (by simp)
          rw [hterm] at hcnl
          simp only [Bool.not_true, Bool.or_false] at hcnl
          have hc : c = '\n' := eq_of_beq hcnl
          exact hNH1 [] cs (by rw [hc]; rfl)
        obtain ⟨ihNH1, ihNH2⟩ := ih (isLineTerm c) cs hlen2 hNLcs
          (noHashOnlyStarts_cons hNH1) hNH2cs
        constructor
        · intro a b hab
          cases a with
          | nil =>
            have hc : c = '\n' := by simpa using congrArg List.head? hab
            have hb : runStepF surroundHeadingStep n (isLineTerm c) cs = b := by
              simpa using congrArg List.tail hab
            rw [← hb]
            exact ihNH2 (by rw [hc]; rfl)
          | cons a0 a1 =>
            have hsp : runStepF surroundHeadingStep n (isLineTerm c) cs =
                a1 ++ '\n' :: b := by
              simpa using congrArg List.tail hab
            exact ihNH1 a1 b hsp
        · intro hbol
          cases hc : c == '\n' with
          | true =>
            have hc' : c = '\n' := eq_of_beq hc
            rw [hc', line_of_nl_cons]
            rfl
          | false =>
            have hcne : (c != '\n') = true := by
              simp only [bne_iff_ne]
              intro h0
              rw [h0] at hc
              simp at hc
            have hterm : isLineTerm c = false := by
              have h0 := hNL c (by simp)
              rw [hc] at h0
              simpa using h0
            rw [List.takeWhile_cons, if_pos hcne, hterm,
              surround_firstLine_false n cs hNLcs]
            have h2 := hNH2 hbol
            rw [List.takeWhile_cons, if_pos hcne] at h2
            exact h2
      | some p =>
        obtain ⟨out0, b2, rest⟩ := p
        simp only []
        unfold surroundHeadingStep at hgo
        simp only at hgo
        split at hgo
        next hbol =>
          split at hgo
          next g1 r0 hm =>
            rw [Option.some.injEq, Prod.mk.injEq, Prod.mk.injEq] at hgo
            obtain ⟨hout0, hb2, hrest⟩ := hgo
            subst hout0
            subst hb2
            subst hrest
            obtain ⟨hs, w, ds, hg, hm2, hne, hall, hw, hds, hr0h⟩ :=
              matchHashWsDots_some hm
            have hwne : w ≠ '\n' := by
              intro hweq
              have h0 := hNH2 hbol
              rw [hm2, hweq, takeWhile_ne_nl_append,
                takeWhile_eq_self_of_all
                  (fun d hd => by rw [hall d hd]; decide)] at h0
              rw [isHashOnlyLine_of hne hall] at h0
              exact absurd h0 (by decide)
            have hg1nl : ∀ d ∈ g1, d ≠ '\n' := by
              intro d hd
              rw [hg] at hd
              rcases List.mem_append.mp hd with hd | hd
              · rw [hall d hd]; decide
              · rcases List.mem_cons.mp hd with hd | hd
                · rw [hd]; exact hwne
                · exact ne_nl_of_dot (hds d hd)
            have hwmem : w ∈ g1 := by
              rw [hg]
              simp
            have hlast : lastIsLineTerm g1 = false := by
              obtain ⟨d, hdl, hdor⟩ : ∃ d, g1.getLast? = some d ∧
                  (d = w ∨ d ∈ ds) := by
                rcases ds.eq_nil_or_concat with hds0 | ⟨ds1, e, hds1⟩
                · refine ⟨w, ?_, Or.inl rfl⟩
                  rw [hg, hds0, List.getLast?_concat]
                · have hds1' : ds = ds1 ++ [e] := by simpa using hds1
                  refine ⟨e, ?_, Or.inr (by rw [hds1']; simp)⟩
                  rw [hg, hds1',
                    show (hs ++ w :: (ds1 ++ [e]) : List Char) =
                      (hs ++ w :: ds1) ++ [e] by simp,
                    List.getLast?_concat]
              unfold lastIsLineTerm
              rw [hdl]
              rcases hdor with hd | hd
              · subst hd
                have h0 := hNL d (by rw [hm2]; simp)
                cases hdn : d == '\n' with
                | true => exact absurd (eq_of_beq hdn) hwne
                | false =>
                  rw [hdn] at h0
                  simpa using h0
              · exact term_false_of_dot (hds d hd)
            have hlg : c :: cs = g1 ++ r0 := (matchHashWsDots_append hm).symm
            have hr0len : r0.length ≤ n := by
              have h1 := congrArg List.length hlg
              simp only [List.length_cons, List.length_append] at h1 hlen
              have h2 : 1 ≤ g1.length := by
                rw [hg]
                cases hs with
                | nil => exact absurd rfl hne
                | cons q qs => simp
              omega
            have hNLr0 : ∀ d ∈ r0, (d == '\n' || !(isLineTerm d)) = true :=
              fun d hd => hNL d (by rw [hlg]; exact List.mem_append_right _ hd)
            have hNH1r0 : noHashOnlyStarts r0 :=
              noHashOnlyStarts_suffix g1 (hlg ▸ hNH1)
            obtain ⟨ihNH1, -⟩ := ih false r0 hr0len hNLr0 hNH1r0
              (fun h => absurd h (by simp))
            rw [hlast]
            have hr0sh : r0 = [] ∨ ∃ rt, r0 = '\n' :: rt := by
              cases r0 with
              | nil => exact Or.inl rfl
              | cons e es =>
                right
                have hed : isDotChar e = false := hr0h e rfl
                have hterm : isLineTerm e = true := by
                  unfold isDotChar at hed
                  simpa using hed
                have heNL := hNLr0 e (by simp)
                rw [hterm] at heNL
                simp only [Bool.not_true, Bool.or_false] at heNL
                exact ⟨es, by rw [eq_of_beq heNL]⟩
            have hRECline : isHashOnlyLine ((runStepF surroundHeadingStep n
                false r0).takeWhile (· != '\n')) = false := by
              rw [surround_firstLine_false n r0 hNLr0]
              rcases hr0sh with h0 | ⟨rt, h0⟩
              · rw [h0]
                rfl
              · rw [h0, line_of_nl_cons]
                rfl
            constructor
            · intro a b hab
              rw [show ('\n' :: '\n' :: (g1 ++ ['\n', '\n'])) ++
                  runStepF surroundHeadingStep n false r0 =
                '\n' :: '\n' :: (g1 ++ '\n' :: '\n' ::
                  runStepF surroundHeadingStep n false r0) by simp] at hab
              cases a with
              | nil =>
                have hb : b = '\n' :: (g1 ++ '\n' :: '\n' ::
                    runStepF surroundHeadingStep n false r0) := by
                  simpa using (congrArg List.tail hab).symm
                rw [hb, line_of_nl_cons]
                rfl
              | cons a0 a1 =>
                have ht1 : '\n' :: (g1 ++ '\n' :: '\n' ::
                    runStepF surroundHeadingStep n false r0) =
                    a1 ++ '\n' :: b := by
                  simpa using congrArg List.tail hab
                cases a1 with
                | nil =>
                  have hb : b = g1 ++ '\n' :: '\n' ::
                      runStepF surroundHeadingStep n false r0 := by
                    simpa using ht1.symm
                  rw [hb, takeWhile_ne_nl_append,
                    takeWhile_eq_self_of_all
                      (fun d hd => by simpa using hg1nl d hd)]
                  exact isHashOnlyLine_false_of_mem hwmem (jsWs_ne_hash hw)
                | cons a2 a3 =>
                  have ht2 : g1 ++ '\n' :: '\n' ::
                      runStepF surroundHeadingStep n false r0 =
                      a3 ++ '\n' :: b := by
                    simpa using congrArg List.tail ht1
                  rcases List.append_eq_append_iff.mp ht2 with
                    ⟨x, hx1, hx2⟩ | ⟨y, hy1, hy2⟩
                  · cases x with
                    | nil =>
                      have hb : b = '\n' ::
                          runStepF surroundHeadingStep n false r0 := by
                        simpa using hx2.symm
                      rw [hb, line_of_nl_cons]
                      rfl
                    | cons e1 x1 =>
                      have he1 : '\n' = e1 := by
                        simpa using congrArg List.head? hx2
                      subst he1
                      have ht3 : '\n' ::
                          runStepF surroundHeadingStep n false r0 =
                          x1 ++ '\n' :: b := by
                        simpa using congrArg List.tail hx2
                      cases x1 with
                      | nil =>
                        have hb : b =
                            runStepF surroundHeadingStep n false r0 := by
                          simpa using ht3.symm
                        rw [hb]
                        exact hRECline
                      | cons e2 x2 =>
                        have ht4 : runStepF surroundHeadingStep n false r0 =
                            x2 ++ '\n' :: b := by
                          simpa using congrArg List.tail ht3
                        exact ihNH1 x2 b ht4
                  · cases y with
                    | nil =>
                      have hb : b = '\n' ::
                          runStepF surroundHeadingStep n false r0 := by
                        simpa using hy2
                      rw [hb, line_of_nl_cons]
                      rfl
                    | cons e y1 =>
                      exfalso
                      have he : '\n' = e := by
                        simpa using congrArg List.head? hy2
                      exact hg1nl e (by rw [hy1]; simp) he.symm
            · intro _
              rw [show ('\n' :: '\n' :: (g1 ++ ['\n', '\n'])) ++
                  runStepF surroundHeadingStep n false r0 =
                '\n' :: ('\n' :: (g1 ++ '\n' :: '\n' ::
                  runStepF surroundHeadingStep n false r0)) by simp,
                line_of_nl_cons]
              rfl
          next => exact absurd hgo (by simp)
        next => exact absurd hgo (by simp)

theorem mem_of_mem_dropWhile_nl {d : Char} {l : List Char}
    (h : d ∈ l.dropWhile (· == '\n')) : d ∈ l := by
  rw [← drop_length_takeWhile] at h
  exact List.mem_of_mem_drop h

/-- Every character of a global-replace output is an input character or an
inserted newline, as soon as each step only emits input characters and
newlines. -/
theorem runStepF_chars (M : RegexStep)
    (hM : ∀ bol l out b2 rest, M.go bol l = some (out, b2, rest) →
      (∀ c, c ∈ out → c ∈ l ∨ c = '\n') ∧ (∀ c, c ∈ rest → c ∈ l)) :
    ∀ (fuel : Nat) (bol : Bool) (l : List Char) (c : Char),
      c ∈ runStepF M fuel bol l → c ∈ l ∨ c = '\n' := by
  intro fuel
  induction fuel with
  | zero => intro bol l c hc; exact Or.inl hc
  | succ n ih =>
    intro bol l c hc
    cases l with
    | nil =>
      rw [show runStepF M (n + 1) bol [] = [] from rfl] at hc
      simp at hc
    | cons a as =>
      rw [runStepF] at hc
      cases hgo : M.go bol (a :: as) with
      | none =>
        rw [hgo] at hc
        simp only [] at hc
        rcases List.mem_cons.mp hc with hc | hc
        · exact Or.inl (by simp [hc])
        · rcases ih (isLineTerm a) as c hc with h | h
          · exact Or.inl (by simp [h])
          · exact Or.inr h
      | some p =>
        obtain ⟨out, b2, rest⟩ := p
        rw [hgo] at hc
        simp only [] at hc
        obtain ⟨hout, hrest⟩ := hM bol (a :: as) out b2 rest hgo
        rcases List.mem_append.mp hc with hc | hc
        · exact hout c hc
        · rcases ih b2 rest c hc with h | h
          · exact Or.inl (hrest c h)
          · exact Or.inr h

theorem afterHeadingStep_chars (repl : List Char)
    (hrepl : ∀ c ∈ repl, c = '\n') :
    ∀ bol l out b2 rest, (afterHeadingStep repl).go bol l =
        some (out, b2, rest) →
      (∀ c, c ∈ out → c ∈ l ∨ c = '\n') ∧ (∀ c, c ∈ rest → c ∈ l) := by
  intro bol l out b2 rest hgo
  unfold afterHeadingStep at hgo
  simp only at hgo
  split at hgo
  · split at hgo
    next g1 l3 hm =>
      split at hgo
      next hguard =>
        simp only [Option.some.injEq, Prod.mk.injEq] at hgo
        obtain ⟨hout, -, hrest⟩ := hgo
        have hlg : g1 ++ l3 = l := matchHashWsDots_append hm
        constructor
        · intro c hc
          rw [← hout] at hc
          rcases List.mem_append.mp hc with hc | hc
          · exact Or.inl (by rw [← hlg]; exact List.mem_append_left _ hc)
          · exact Or.inr (hrepl c hc)
        · intro c hc
          rw [← hrest] at hc
          have : c ∈ l3 := mem_of_mem_dropWhile_nl hc
          rw [← hlg]
          exact List.mem_append_right _ this
      next => exact absurd hgo (by simp)
    next => exact absurd hgo (by simp)
  · exact absurd hgo (by simp)

theorem beforeHeadingStep_chars :
    ∀ bol l out b2 rest, beforeHeadingStep.go bol l = some (out, b2, rest) →
      (∀ c, c ∈ out → c ∈ l ∨ c = '\n') ∧ (∀ c, c ∈ rest → c ∈ l) := by
  intro bol l out b2 rest hgo
  unfold beforeHeadingStep at hgo
  simp only at hgo
  split at hgo
  next hh =>
    split at hgo
    next g1 r0 hm =>
      rw [Option.some.injEq, Prod.mk.injEq, Prod.mk.injEq] at hgo
      obtain ⟨hout, -, hrest⟩ := hgo
      have hlg : g1 ++ r0 = l.dropWhile (· == '\n') := matchHashWsDots_append hm
      constructor
      · intro c hc
        rw [← hout] at hc
        rcases List.mem_cons.mp hc with hc | hc
        · exact Or.inr hc
        rcases List.mem_cons.mp hc with hc | hc
        · exact Or.inr hc
        · refine Or.inl (mem_of_mem_dropWhile_nl (l := l) ?_)
          rw [← hlg]
          exact List.mem_append_left _ hc
      · intro c hc
        rw [← hrest] at hc
        refine mem_of_mem_dropWhile_nl (l := l) ?_
        rw [← hlg]
        exact List.mem_append_right _ hc
    next => exact absurd hgo (by simp)
  next => exact absurd hgo (by simp)

theorem surroundHeadingStep_chars :
    ∀ bol l out b2 rest, surroundHeadingStep.go bol l = some (out, b2, rest) →
      (∀ c, c ∈ out → c ∈ l ∨ c = '\n') ∧ (∀ c, c ∈ rest → c ∈ l) := by
  intro bol l out b2 rest hgo
  unfold surroundHeadingStep at hgo
  simp only at hgo
  split at hgo
  next hbol =>
    split at hgo
    next g1 r0 hm =>
      rw [Option.some.injEq, Prod.mk.injEq, Prod.mk.injEq] at hgo
      obtain ⟨hout, -, hrest⟩ := hgo
      have hlg : g1 ++ r0 = l := matchHashWsDots_append hm
      constructor
      · intro c hc
        rw [← hout] at hc
        rcases List.mem_cons.mp hc with hc | hc
        · exact Or.inr hc
        rcases List.mem_cons.mp hc with hc | hc
        · exact Or.inr hc
        rcases List.mem_append.mp hc with hc | hc
        · exact Or.inl (by rw [← hlg]; exact List.mem_append_left _ hc)
        · right
          rcases List.mem_cons.mp hc with hc | hc
          · exact hc
          · simpa using hc
      · intro c hc
        rw [← hrest] at hc
        rw [← hlg]
        exact List.mem_append_right _ hc
    next => exact absurd hgo (by simp)
  next => exact absurd hgo (by simp)

/-- The leading strip returns a suffix of its input. -/
theorem removeBlankBeforeFirst_suffix (t : List Char) :
    ∃ w, t = w ++ removeBlankBeforeFirst t := by
  unfold removeBlankBeforeFirst
  split
  next hhead =>
    split
    next G R hm =>
      refine ⟨t.takeWhile (· == '\n'), ?_⟩
      conv_lhs => rw [← List.takeWhile_append_dropWhile (· == '\n') t]
      rw [matchHashWsDots_append hm]
    next => exact ⟨[], rfl⟩
  next => exact ⟨[], rfl⟩

theorem NL_trans {u t : List Char}
    (hsub : ∀ c, c ∈ u → c ∈ t ∨ c = '\n')
    (hNL : ∀ c ∈ t, (c == '\n' || !(isLineTerm c)) = true) :
    ∀ c ∈ u, (c == '\n' || !(isLineTerm c)) = true := by
  intro c hc
  rcases hsub c hc with h | h
  · exact hNL c h
  · rw [h]
    decide


/-- The leading strip keeps every after-a-heading shape (it only removes a
prefix). -/
theorem B_lift_42 {x3 : List Char}
    (hB : ∀ u r, x3 = u ++ '\n' :: r →
      isHeadingLine (r.takeWhile (· != '\n')) = true → afterOKw r) :
    ∀ u r, removeBlankBeforeFirst x3 = u ++ '\n' :: r →
      isHeadingLine (r.takeWhile (· != '\n')) = true → afterOKw r := by
  intro u r hsplit hHL
  obtain ⟨w, hw⟩ := removeBlankBeforeFirst_suffix x3
  exact hB (w ++ u) r (by rw [hw, hsplit]; simp) hHL

/-- The trailing strip keeps the after-a-heading shape. -/
theorem B_43 {x4 : List Char}
    (hB : ∀ u r, x4 = u ++ '\n' :: r →
      isHeadingLine (r.takeWhile (· != '\n')) = true → afterOKw r) :
    ∀ u r, removeBlankAfterLast x4 = u ++ '\n' :: r →
      isHeadingLine (r.takeWhile (· != '\n')) = true → afterOKw r := by
  intro u r hsplit hHL
  rcases removeBlankAfterLast_shape x4 with hsh | ⟨pre, g1, ns, h1, h2, h3, h4, h5⟩
  · exact hB u r (by rw [← hsh, hsplit]) hHL
  · obtain ⟨ns', hns'⟩ : ∃ ns', ns = '\n' :: ns' := by
      cases ns with
      | nil => exact absurd rfl h4
      | cons a as => exact ⟨as, by rw [h5 a (by simp)]⟩
    have hx4 : x4 = u ++ '\n' :: (r ++ ns) := by
      rw [h1, ← List.append_assoc, ← h2, hsplit]
      simp
    have hHL2 : isHeadingLine ((r ++ ns).takeWhile (· != '\n')) = true := by
      rw [hns', takeWhile_ne_nl_append]
      exact hHL
    have hin := hB u (r ++ ns) hx4 hHL2
    have hsin : (r ++ ns).dropWhile (· != '\n') =
        r.dropWhile (· != '\n') ++ ns := by
      rw [List.dropWhile_append]
      split
      next hemp =>
        have h0 : r.dropWhile (· != '\n') = [] := by
          cases hd : r.dropWhile (· != '\n') with
          | nil => rfl
          | cons a as => rw [hd] at hemp; simp at hemp
        rw [h0, List.nil_append, hns', List.dropWhile_cons,
          if_neg (by decide)]
      next => rfl
    unfold afterOKw at hin ⊢
    rw [hsin] at hin
    rcases hin with h0 | h0 | ⟨s3, hs3, hs3h⟩
    · exfalso
      rw [hns'] at h0
      rcases List.append_eq_nil.mp h0 with ⟨-, h2'⟩
      exact absurd h2' (by simp)
    · cases hso : r.dropWhile (· != '\n') with
      | nil => exact Or.inl rfl
      | cons a as =>
        exfalso
        rw [hso, hns'] at h0
        have := congrArg List.length h0
        simp at this
    · rw [hns'] at hs3
      cases hso : r.dropWhile (· != '\n') with
      | nil => exact Or.inl rfl
      | cons e1 so1 =>
        rw [hso] at hs3
        have he1 : e1 = '\n' := by simpa using congrArg List.head? hs3
        cases so1 with
        | nil =>
          right; left
          rw [he1]
        | cons e2 so2 =>
          have ht1 : (e2 :: so2 : List Char) ++ '\n' :: ns' = '\n' :: s3 := by
            simpa using congrArg List.tail hs3
          have he2 : e2 = '\n' := by simpa using congrArg List.head? ht1
          have ht2 : so2 ++ '\n' :: ns' = s3 := by
            simpa using congrArg List.tail ht1
          right; right
          refine ⟨so2, by rw [he1, he2], ?_⟩
          cases so2 with
          | nil => simp
          | cons d ds0 =>
            rw [← ht2] at hs3h
            simp only [List.cons_append, List.head?_cons] at hs3h ⊢
            exact hs3h

/-- After the trailing strip, the two newlines after a heading line cannot end
the text: that would be a surviving trailing match. -/
theorem B5_strong {x5 : List Char}
    (hNL5 : ∀ c ∈ x5, (c == '\n' || !(isLineTerm c)) = true)
    (hnt : hasTrailingMatch x5 = false)
    (hB : ∀ u r, x5 = u ++ '\n' :: r →
      isHeadingLine (r.takeWhile (· != '\n')) = true → afterOKw r) :
    ∀ u r, x5 = u ++ '\n' :: r →
      isHeadingLine (r.takeWhile (· != '\n')) = true → afterOKs r := by
  intro u r hsplit hHL
  rcases hB u r hsplit hHL with h0 | h0 | ⟨s3, hs3, hs3h⟩
  · exact Or.inl h0
  · exact Or.inr (Or.inl h0)
  · rcases eq_or_ne s3 [] with h3 | h3
    · exfalso
      subst h3
      have hr : r = r.takeWhile (· != '\n') ++ ['\n', '\n'] := by
        conv_lhs => rw [← List.takeWhile_append_dropWhile (· != '\n') r]
        rw [hs3]
      obtain ⟨hs, w, ds', hline, hne, hall, hw⟩ := isHeadingLine_elim hHL
      have hds'dot : ∀ d ∈ ds', isDotChar d = true := by
        intro d hd
        have hdline : d ∈ r.takeWhile (· != '\n') := by
          rw [hline]
          simp [hd]
        have hdnl : (d != '\n') = true :=
          List.mem_takeWhile_imp (p := (· != '\n')) hdline
        have hdx : d ∈ x5 := by
          rw [hsplit]
          refine List.mem_append_right _ ?_
          refine List.mem_cons_of_mem _ ?_
          exact (List.takeWhile_prefix _).subset hdline
        have hNLd := hNL5 d hdx
        cases hdn : d == '\n' with
        | true =>
          exfalso
          rw [eq_of_beq hdn] at hdnl
          simp at hdnl
        | false =>
          rw [hdn] at hNLd
          simp only [Bool.false_or] at hNLd
          unfold isDotChar
          exact hNLd
      have hmline : matchHashWsDots (r.takeWhile (· != '\n') ++
          ['\n', '\n']) = some (r.takeWhile (· != '\n'), ['\n', '\n']) := by
        rw [hline, show ((hs ++ w :: ds') ++ ['\n', '\n'] : List Char) =
          hs ++ w :: (ds' ++ ['\n', '\n']) by simp]
        exact matchHashWsDots_intro hne hall hw hds'dot
          (fun c hc => by
            have hc' : '\n' = c := by simpa using hc
            rw [← hc']
            decide)
      have htm : hasTrailingMatch x5 = true := by
        rw [hsplit, hr]
        rw [show u ++ '\n' :: (r.takeWhile (· != '\n') ++ ['\n', '\n']) =
          (u ++ ['\n']) ++ (r.takeWhile (· != '\n') ++ ['\n', '\n'])
          by simp]
        refine hasTrailingMatch_suffix _ ?_
        cases hlc : r.takeWhile (· != '\n') with
        | nil =>
          exfalso
          rw [hlc] at hline
          cases hs with
          | nil => exact absurd rfl hne
          | cons q qs => simp at hline
        | cons lc0 lcs =>
          rw [List.cons_append, hasTrailingMatch_cons,
            ← List.cons_append, ← hlc, hmline]
          simp
      rw [htm] at hnt
      exact absurd hnt (by simp)
    · exact Or.inr (Or.inr ⟨s3, hs3, h3, hs3h⟩)

/-- Walking the line list for claim C5: the before- and after-shapes at every
heading-line start give the exactly-one-blank-on-both-sides check. -/
theorem headingsSpacedGo_true {v : List Char}
    (hnl : ∀ L ∈ linesOf v, ∀ c ∈ L, (c != '\n') = true)
    (hA : ∀ u r, v = u ++ '\n' :: r →
      isHeadingLine (r.takeWhile (· != '\n')) = true → blankBeforeOK u)
    (hB : ∀ u r, v = u ++ '\n' :: r →
      isHeadingLine (r.takeWhile (· != '\n')) = true → afterOKs r) :
    ∀ ls pre, linesOf v = pre ++ ls →
      headingsSpacedGo isEmptyLine pre.dropLast.getLast? pre.getLast? ls =
        true := by
  intro ls
  induction ls with
  | nil => intro pre _; rfl
  | cons line rest ihls =>
    intro pre hsplit
    simp only [headingsSpacedGo, Bool.and_eq_true]
    constructor
    · cases hhead : isHeadingLine line with
      | false => simp
      | true =>
        rcases eq_or_ne pre [] with hpre | hpne
        · rw [hpre]
          simp
        · cases hrest : rest with
          | nil => simp
          | cons n1 rest2 =>
            rw [← hrest]
            have hrestne : rest ≠ [] := by rw [hrest]; simp
            have hv : v = joinLines pre ++ '\n' :: joinLines (line :: rest) := by
              conv_lhs => rw [← linesF_join v.length v (le_refl _)]
              rw [show linesF v.length v = linesOf v from rfl, hsplit,
                joinLines_append pre (line :: rest) hpne (by simp)]
            have hlinenl : ∀ c ∈ line, (c != '\n') = true :=
              hnl line (by rw [hsplit]; simp)
            have hline_tw : line.takeWhile (· != '\n') = line := by
              have h0 := takeWhile_eq_of_all_head (s := []) hlinenl
                (fun c hc => by simp at hc)
              simpa using h0
            have hjrw : joinLines (line :: rest) =
                line ++ '\n' :: joinLines rest :=
              joinLines_cons line rest hrestne
            have hHL : isHeadingLine
                ((joinLines (line :: rest)).takeWhile (· != '\n')) = true := by
              rw [hjrw, takeWhile_ne_nl_append, hline_tw]
              exact hhead
            have hgood := hA (joinLines pre) (joinLines (line :: rest)) hv hHL
            obtain ⟨pre1, q2, hdec, hq2ne⟩ :=
              joinLines_decode
                (fun L hL => hnl L
                  (by rw [hsplit]; exact List.mem_append_left _ hL))
                hgood
            have hafter := hB (joinLines pre) (joinLines (line :: rest)) hv hHL
            have hdw : (joinLines (line :: rest)).dropWhile (· != '\n') =
                '\n' :: joinLines rest := by
              rw [hjrw]
              exact dropWhile_ne_nl_append line _
                (fun d hd => by simpa using hlinenl d hd)
            have hnext : nextExactlyOne isEmptyLine rest = true := by
              unfold afterOKs at hafter
              rw [hdw] at hafter
              rcases hafter with h0 | h0 | ⟨s3, hs3, hs3ne, hs3h⟩
              · exact absurd h0 (by simp)
              · have hjr : joinLines rest = [] := by simpa using h0
                rw [hrest] at hjr ⊢
                cases rest2 with
                | nil =>
                  have hn1 : n1 = [] := by simpa [joinLines] using hjr
                  rw [hn1]
                  rfl
                | cons m ms =>
                  exfalso
                  rw [joinLines_cons n1 (m :: ms) (by simp)] at hjr
                  rcases List.append_eq_nil.mp hjr with ⟨-, h2'⟩
                  exact absurd h2' (by simp)
              · have hjr : joinLines rest = '\n' :: s3 := by
                  simpa using hs3
                rw [hrest] at hjr ⊢
                cases rest2 with
                | nil =>
                  exfalso
                  have : ('\n' : Char) ∈ n1 := by
                    rw [show joinLines [n1] = n1 from rfl] at hjr
                    rw [hjr]
                    simp
                  have h1 := hnl n1
                    (by rw [hsplit, hrest]; simp) '\n' this
                  simp at h1
                | cons m ms =>
                  rw [joinLines_cons n1 (m :: ms) (by simp)] at hjr
                  cases hn1 : n1 with
                  | cons d n1t =>
                    exfalso
                    rw [hn1] at hjr
                    have hd : d = '\n' := by
                      simpa using congrArg List.head? hjr
                    have h1 := hnl n1
                      (by rw [hsplit, hrest]; simp) d (by rw [hn1]; simp)
                    rw [hd] at h1
                    simp at h1
                  | nil =>
                    have hJ2 : joinLines (m :: ms) = s3 := by
                      rw [hn1] at hjr
                      simpa using hjr
                    have hm : isEmptyLine m = false := by
                      cases hmc : m with
                      | cons d mt => rfl
                      | nil =>
                        exfalso
                        cases ms with
                        | nil =>
                          rw [hmc] at hJ2
                          exact hs3ne (by rw [← hJ2]; rfl)
                        | cons m2 ms2 =>
                          rw [joinLines_cons m (m2 :: ms2) (by simp),
                            hmc] at hJ2
                          exact hs3h (by rw [← hJ2]; rfl)
                    show (isEmptyLine ([] : List Char) && !(isEmptyLine m)) =
                      true
                    rw [hm]
                    rfl
            have h1 : (pre1 ++ [q2, []]).getLast? = some ([] : List Char) := by
              rw [show (pre1 ++ [q2, []] : List (List Char)) =
                (pre1 ++ [q2]) ++ [[]] by simp, List.getLast?_concat]
            have h2 : (pre1 ++ [q2, []]).dropLast.getLast? = some q2 := by
              rw [show (pre1 ++ [q2, []] : List (List Char)) =
                (pre1 ++ [q2]) ++ [[]] by simp, List.dropLast_concat,
                List.getLast?_concat]
            have h3 : isEmptyLine q2 = false := by
              cases q2 with
              | nil => exact absurd rfl hq2ne
              | cons a as => rfl
            rw [hdec, h1, h2]
            simp [optLine, isEmptyLine, h3, hnext, hq2ne]
    · have h2 := ihls (pre ++ [line]) (by rw [hsplit]; simp)
      rw [List.dropLast_concat, List.getLast?_concat] at h2
      exact h2

/-- C5 (amended): with bottom=true, emptyLineAfterYaml=true and
emptyLineInBlankSections=true, on a region-free text whose only line
terminators are `\n` and none of whose lines is hash-only, every heading line
of the output that is neither the first nor the last line has exactly one
empty line directly before it and exactly one directly after it. -/
theorem c5_spacing_amended (t : List Char)
    (hR : RegionFree t) (hH : noHashOnlyLines t = true)
    (hNLt : newlineOnly t = true) :
    headingsSpaced isEmptyLine
      (apply t { bottom := true, emptyLineAfterYaml := true,
                 emptyLineInBlankSections := true }) = true := by
  rw [apply_eq_applyCore hR _]
  have hcore : applyCore t { bottom := true, emptyLineAfterYaml := true,
                             emptyLineInBlankSections := true } =
      removeBlankAfterLast (removeBlankBeforeFirst
        (forceOneBlankAfter (trimBlankBefore (surroundHeadings t)))) := rfl
  rw [hcore]
  unfold forceOneBlankAfter trimBlankBefore surroundHeadings runStep
  have hNL0 : ∀ c ∈ t, (c == '\n' || !(isLineTerm c)) = true := by
    unfold newlineOnly at hNLt
    rw [List.all_eq_true] at hNLt
    exact hNLt
  have hNH1t : noHashOnlyStarts t := noHashOnlyStarts_of_noHashOnlyLines hH
  have hNH2t : isHashOnlyLine (t.takeWhile (· != '\n')) = false := by
    unfold noHashOnlyLines at hH
    rw [List.all_eq_true] at hH
    have hmem := first_line_mem t.length t (le_refl _)
    simpa using hH _ hmem
  have hchar1 : ∀ c, c ∈ runStepF surroundHeadingStep t.length true t →
      c ∈ t ∨ c = '\n' :=
    fun c hc =>
      runStepF_chars surroundHeadingStep surroundHeadingStep_chars
        t.length true t c hc
  have hNL1 := NL_trans hchar1 hNL0
  obtain ⟨hNH1x1, hNH2x1⟩ := surround_NH t.length true t (le_refl _) hNL0
    hNH1t (fun _ => hNH2t)
  have hchar2 : ∀ c, c ∈ runStepF beforeHeadingStep
      (runStepF surroundHeadingStep t.length true t).length true
      (runStepF surroundHeadingStep t.length true t) →
      c ∈ runStepF surroundHeadingStep t.length true t ∨ c = '\n' :=
    fun c hc =>
      runStepF_chars beforeHeadingStep beforeHeadingStep_chars _ true _ c hc
  have hNL2 := NL_trans hchar2 hNL1
  have hNH1x2 := trimBlankBefore_NH1
    (runStepF surroundHeadingStep t.length true t).length true
    (runStepF surroundHeadingStep t.length true t) (le_refl _) hNH1x1
  have hNH2x2 : isHashOnlyLine ((runStepF beforeHeadingStep
      (runStepF surroundHeadingStep t.length true t).length true
      (runStepF surroundHeadingStep t.length true t)).takeWhile
        (· != '\n')) = false := by
    rw [beforeHeading_firstLine]
    exact hNH2x1 rfl
  have hSA2 : ∀ u r, runStepF beforeHeadingStep
      (runStepF surroundHeadingStep t.length true t).length true
      (runStepF surroundHeadingStep t.length true t) = u ++ '\n' :: r →
      isHeadingLine (r.takeWhile (· != '\n')) = true →
      blankBeforeOK u ∨ u = [] ∨ u = ['\n'] := by
    intro u r hs hl
    have h0 := trimBlankBefore_inv
      (runStepF surroundHeadingStep t.length true t).length true
      (runStepF surroundHeadingStep t.length true t) (le_refl _) hNH1x1
      u r hs hl
    rcases h0 with hg | ⟨h1, -, -⟩
    · exact Or.inl hg
    · exact Or.inr (Or.inr h1)
  obtain ⟨hSA3, -, hB3⟩ := forceOne_inv
    (runStepF beforeHeadingStep
      (runStepF surroundHeadingStep t.length true t).length true
      (runStepF surroundHeadingStep t.length true t)).length true
    (runStepF beforeHeadingStep
      (runStepF surroundHeadingStep t.length true t).length true
      (runStepF surroundHeadingStep t.length true t))
    (le_refl _) hNL2 hNH1x2 (fun _ => hNH2x2) hSA2
  have hA4 := P42_strip (fun u r h1 h2 => hSA3 u r h1 h2)
  have hB4 := B_lift_42 hB3
  have hA5 := removeBlankAfterLast_P hA4
  have hB5w := B_43 hB4
  have hchar3 : ∀ c, c ∈ runStepF (afterHeadingStep ['\n', '\n'])
      (runStepF beforeHeadingStep
        (runStepF surroundHeadingStep t.length true t).length true
        (runStepF surroundHeadingStep t.length true t)).length true
      (runStepF beforeHeadingStep
        (runStepF surroundHeadingStep t.length true t).length true
        (runStepF surroundHeadingStep t.length true t)) →
      c ∈ runStepF beforeHeadingStep
        (runStepF surroundHeadingStep t.length true t).length true
        (runStepF surroundHeadingStep t.length true t) ∨ c = '\n' :=
    fun c hc =>
      runStepF_chars (afterHeadingStep ['\n', '\n'])
        (afterHeadingStep_chars ['\n', '\n'] (by decide)) _ true _ c hc
  have hNL3 := NL_trans hchar3 hNL2
  have hchar4 : ∀ c, c ∈ removeBlankBeforeFirst
      (runStepF (afterHeadingStep ['\n', '\n'])
        (runStepF beforeHeadingStep
          (runStepF surroundHeadingStep t.length true t).length true
          (runStepF surroundHeadingStep t.length true t)).length true
        (runStepF beforeHeadingStep
          (runStepF surroundHeadingStep t.length true t).length true
          (runStepF surroundHeadingStep t.length true t))) →
      c ∈ runStepF (afterHeadingStep ['\n', '\n'])
        (runStepF beforeHeadingStep
          (runStepF surroundHeadingStep t.length true t).length true
          (runStepF surroundHeadingStep t.length true t)).length true
        (runStepF beforeHeadingStep
          (runStepF surroundHeadingStep t.length true t).length true
          (runStepF surroundHeadingStep t.length true t)) ∨ c = '\n' := by
    obtain ⟨w, hw⟩ := removeBlankBeforeFirst_suffix
      (runStepF (afterHeadingStep ['\n', '\n'])
        (runStepF beforeHeadingStep
          (runStepF surroundHeadingStep t.length true t).length true
          (runStepF surroundHeadingStep t.length true t)).length true
        (runStepF beforeHeadingStep
          (runStepF surroundHeadingStep t.length true t).length true
          (runStepF surroundHeadingStep t.length true t)))
    intro c hc
    exact Or.inl (by rw [hw]; exact List.mem_append_right _ hc)
  have hNL4 := NL_trans hchar4 hNL3
  have hchar5 : ∀ c, c ∈ removeBlankAfterLast (removeBlankBeforeFirst
      (runStepF (afterHeadingStep ['\n', '\n'])
        (runStepF beforeHeadingStep
          (runStepF surroundHeadingStep t.length true t).length true
          (runStepF surroundHeadingStep t.length true t)).length true
        (runStepF beforeHeadingStep
          (runStepF surroundHeadingStep t.length true t).length true
          (runStepF surroundHeadingStep t.length true t)))) →
      c ∈ removeBlankBeforeFirst
        (runStepF (afterHeadingStep ['\n', '\n'])
          (runStepF beforeHeadingStep
            (runStepF surroundHeadingStep t.length true t).length true
            (runStepF surroundHeadingStep t.length true t)).length true
          (runStepF beforeHeadingStep
            (runStepF surroundHeadingStep t.length true t).length true
            (runStepF surroundHeadingStep t.length true t))) ∨ c = '\n' := by
    rcases removeBlankAfterLast_shape (removeBlankBeforeFirst
      (runStepF (afterHeadingStep ['\n', '\n'])
        (runStepF beforeHeadingStep
          (runStepF surroundHeadingStep t.length true t).length true
          (runStepF surroundHeadingStep t.length true t)).length true
        (runStepF beforeHeadingStep
          (runStepF surroundHeadingStep t.length true t).length true
          (runStepF surroundHeadingStep t.length true t)))) with
      hsh | ⟨pre, g1, ns, h1, h2, -, -, -⟩
    · intro c hc
      rw [hsh] at hc
      exact Or.inl hc
    · intro c hc
      rw [h2] at hc
      left
      rw [h1]
      rcases List.mem_append.mp hc with hc | hc
      · exact List.mem_append_left _ hc
      · exact List.mem_append_right _ (List.mem_append_left _ hc)
  have hNL5 := NL_trans hchar5 hNL4
  have hnt := removeBlankAfterLast_no_trailing (removeBlankBeforeFirst
    (runStepF (afterHeadingStep ['\n', '\n'])
      (runStepF beforeHeadingStep
        (runStepF surroundHeadingStep t.length true t).length true
        (runStepF surroundHeadingStep t.length true t)).length true
      (runStepF beforeHeadingStep
        (runStepF surroundHeadingStep t.length true t).length true
        (runStepF surroundHeadingStep t.length true t))))
  have hBs := B5_strong hNL5 hnt hB5w
  unfold headingsSpaced
  exact headingsSpacedGo_true (linesF_no_nl _ _ (le_refl _)) hA5 hBs
    (linesOf _) [] rfl

theorem c5_spacing_amended_witness :
    (RegionFree ("x\n# a\ny".data) ∧ noHashOnlyLines ("x\n# a\ny".data) = true ∧
      newlineOnly ("x\n# a\ny".data) = true) ∧
    headingsSpaced isEmptyLine
      (apply ("x\n# a\ny".data) { bottom := true, emptyLineAfterYaml := true,
                                  emptyLineInBlankSections := true }) = true := by
  have hR : RegionFree ("x\n# a\ny".data) := by
    unfold RegionFree
    exact ⟨by decide, by decide, by decide, by decide, by decide⟩
  exact ⟨⟨hR, by decide, by decide⟩,
    c5_spacing_amended _ hR (by decide) (by decide)⟩

end HeadingBlankLines
